import Mathlib

/-!
# Red-black tree container (`cxx::rb_tree`): embedding and verification

The C++ sources manipulate a graph of heap-allocated nodes linked by raw
pointers (`_parent`, `_left`, `_right`) and closed off by one sentinel object
per tree.  The embedding keeps that shape:

* a pointer is a natural number, `0` is `nullptr`;
* the free store is a `Heap`: a map from addresses to live objects together
  with a bump pointer `next` (the address the next `new` returns);
* every member function becomes a function on `Heap` (and the `rb_tree`
  object) that returns `Option`: `none` stands for undefined behaviour
  (reading through a dead or null pointer) or for a loop that does not finish
  within the fuel `Heap.fuel`, which exceeds the number of live objects;
* `std::size_t` counters are natural numbers (a count of live nodes cannot
  wrap around).

Part 1 is the model of the code, part 2 the abstraction used to state and
prove properties (trees with addresses, paths, the functional mirror of the
fix-up), part 3 the proofs.
-/

namespace cxx

/-! ## Part 1: the code -/

/-- Colour of a node, `enum class rb_tree_node_color` of `rb_tree_base_node.h`. -/
inductive rb_tree_node_color
  | Red
  | Black
  deriving DecidableEq, Repr

/-- One object of the free store: the structural record `rb_tree_base_node`
(`_parent`, `_left`, `_right`, `_color`) and the `_value` field that
`rb_tree_node<ValueType>` adds.  A plain base object (the sentinel made by
`new base`) has `_value = none`: reading its value is undefined. -/
structure rb_tree_node (α : Type) where
  _parent : Nat
  _left : Nat
  _right : Nat
  _color : rb_tree_node_color
  _value : Option α

namespace rb_tree_node

variable {α : Type}

/-- The assignment `n._parent = p`. -/
def set_parent (p : Nat) (n : rb_tree_node α) : rb_tree_node α := { n with _parent := p }

/-- The assignment `n._left = p`. -/
def set_left (p : Nat) (n : rb_tree_node α) : rb_tree_node α := { n with _left := p }

/-- The assignment `n._right = p`. -/
def set_right (p : Nat) (n : rb_tree_node α) : rb_tree_node α := { n with _right := p }

/-- The assignment `n._color = c`. -/
def set_color (c : rb_tree_node_color) (n : rb_tree_node α) : rb_tree_node α :=
  { n with _color := c }

end rb_tree_node

/-- The free store.  `cells p` is the live object at address `p`, if any;
`next` is the address handed out by the next allocation. -/
structure Heap (α : Type) where
  cells : Nat → Option (rb_tree_node α)
  next : Nat

namespace Heap

variable {α : Type}

/-- The store before any allocation; address `0` (`nullptr`) is never live. -/
def init : Heap α := ⟨fun _ => none, 1⟩

/-- Dereference `p`; `none` when `p` is null, dangling or was never allocated. -/
def read (h : Heap α) (p : Nat) : Option (rb_tree_node α) := h.cells p

/-- Overwrite the cell at `p` (used only on live cells, through `modify`). -/
def put (h : Heap α) (p : Nat) (n : rb_tree_node α) : Heap α :=
  ⟨fun q => if q = p then some n else h.cells q, h.next⟩

/-- A field assignment `p->field = ...`: undefined unless `p` is live. -/
def modify (h : Heap α) (p : Nat) (f : rb_tree_node α → rb_tree_node α) : Option (Heap α) :=
  match h.read p with
  | some n => some (h.put p (f n))
  | none => none

/-- The expression `new T`: a fresh address holding `n`. -/
def alloc (h : Heap α) (n : rb_tree_node α) : Heap α × Nat :=
  (⟨fun q => if q = h.next then some n else h.cells q, h.next + 1⟩, h.next)

/-- The statement `delete p`: undefined unless `p` is live. -/
def free (h : Heap α) (p : Nat) : Option (Heap α) :=
  match h.read p with
  | some _ => some ⟨fun q => if q = p then none else h.cells q, h.next⟩
  | none => none

/-- Bound on the number of iterations of any loop that walks distinct live
objects: the number of addresses ever handed out, plus one. -/
def fuel (h : Heap α) : Nat := h.next + 1

/-- Read the `_value` of the node at `p` (undefined on the sentinel). -/
def value (h : Heap α) (p : Nat) : Option α :=
  match h.read p with
  | some n => n._value
  | none => none

/-- Read the `_color` of the object at `p`. -/
def color (h : Heap α) (p : Nat) : Option rb_tree_node_color :=
  match h.read p with
  | some n => some n._color
  | none => none

end Heap

/-! ### `rb_tree_base_node.cc`: the link navigator -/

namespace rb_tree_base_node

variable {α : Type}

/-- The loop `while ( _x->_left != _nil ) _x = _x->_left;` of `_minimum`. -/
def _minimum_loop (h : Heap α) (_nil : Nat) : Nat → Nat → Option Nat
  | 0, _ => none
  | fuel + 1, _x =>
    match h.read _x with
    | none => none
    | some n => if n._left ≠ _nil then _minimum_loop h _nil fuel n._left else some _x

/-- `rb_tree_base_node::_minimum(_x, _nil)`. -/
def _minimum (h : Heap α) (_x _nil : Nat) : Option Nat :=
  if _x = _nil then some _x else _minimum_loop h _nil h.fuel _x

/-- The loop `while ( _x->_right != _nil ) _x = _x->_right;` of `_maximum`. -/
def _maximum_loop (h : Heap α) (_nil : Nat) : Nat → Nat → Option Nat
  | 0, _ => none
  | fuel + 1, _x =>
    match h.read _x with
    | none => none
    | some n => if n._right ≠ _nil then _maximum_loop h _nil fuel n._right else some _x

/-- `rb_tree_base_node::_maximum(_x, _nil)`. -/
def _maximum (h : Heap α) (_x _nil : Nat) : Option Nat :=
  if _x = _nil then some _x else _maximum_loop h _nil h.fuel _x

/-- The climb of `_next`:
`while ( _parent != _nil && _x == _parent->_right ) { _x = _parent; _parent = _parent->_parent; }`
followed by `return _parent`. -/
def _next_loop (h : Heap α) (_nil : Nat) : Nat → Nat → Nat → Option Nat
  | 0, _, _ => none
  | fuel + 1, _x, _parent =>
    if _parent ≠ _nil then
      match h.read _parent with
      | none => none
      | some pn =>
        if _x = pn._right then _next_loop h _nil fuel _parent pn._parent else some _parent
    else some _parent

/-- `rb_tree_base_node::_next(_x, _nil)`: the in-order successor. -/
def _next (h : Heap α) (_x _nil : Nat) : Option Nat :=
  if _x = _nil then some _x
  else
    match h.read _x with
    | none => none
    | some n =>
      if n._right ≠ _nil then _minimum h n._right _nil
      else _next_loop h _nil h.fuel _x n._parent

/-- The climb of `_prev`:
`while ( _parent != _nil && _x == _parent->_left ) { _x = _parent; _parent = _parent->_parent; }`
followed by `return _parent`. -/
def _prev_loop (h : Heap α) (_nil : Nat) : Nat → Nat → Nat → Option Nat
  | 0, _, _ => none
  | fuel + 1, _x, _parent =>
    if _parent ≠ _nil then
      match h.read _parent with
      | none => none
      | some pn =>
        if _x = pn._left then _prev_loop h _nil fuel _parent pn._parent else some _parent
    else some _parent

/-- `rb_tree_base_node::_prev(_x, _nil)`: the in-order predecessor. -/
def _prev (h : Heap α) (_x _nil : Nat) : Option Nat :=
  if _x = _nil then some _x
  else
    match h.read _x with
    | none => none
    | some n =>
      if n._left ≠ _nil then _maximum h n._left _nil
      else _prev_loop h _nil h.fuel _x n._parent

end rb_tree_base_node

/-! ### `rb_tree_height.cc` and `rb_tree_utility.h` -/

variable {α : Type}

/-- The recursion of `_height_rb_tree(node, nil)`, with `fuel` bounding the
depth of the recursion. -/
def _height_rb_tree_go (h : Heap α) (nil : Nat) : Nat → Nat → Option Nat
  | 0, _ => none
  | fuel + 1, node =>
    if node = nil then some 0
    else
      match h.read node with
      | none => none
      | some n =>
        match _height_rb_tree_go h nil fuel n._left, _height_rb_tree_go h nil fuel n._right with
        | some left_height, some right_height => some (1 + max left_height right_height)
        | _, _ => none

/-- `_height_rb_tree(node, nil)`. -/
def _height_rb_tree (h : Heap α) (node nil : Nat) : Option Nat :=
  _height_rb_tree_go h nil h.fuel node

/-- The recursion of `_clear_rb_tree(node, nil)`: post-order `delete` of every
node below `node`; the children are read from `node` before each recursive
call, as in the source. -/
def _clear_rb_tree_go (nil : Nat) : Nat → Heap α → Nat → Option (Heap α)
  | 0, _, _ => none
  | fuel + 1, h, node =>
    if node = nil then some h
    else
      match h.read node with
      | none => none
      | some n =>
        match _clear_rb_tree_go nil fuel h n._left with
        | none => none
        | some h1 =>
          match h1.read node with
          | none => none
          | some n1 =>
            match _clear_rb_tree_go nil fuel h1 n1._right with
            | none => none
            | some h2 => h2.free node

/-- `_clear_rb_tree(node, nil)`. -/
def _clear_rb_tree (h : Heap α) (node nil : Nat) : Option (Heap α) :=
  _clear_rb_tree_go nil h.fuel h node

/-! ### `rb_tree_node.h` -/

/-- `rb_tree_node::create_node(value, nil)`: allocate a node holding `value`,
children set to the sentinel, colour Red; `_parent` keeps its default
(`nullptr`) until the insertion routine assigns it. -/
def create_node (h : Heap α) (value : α) (nil : Nat) : Heap α × Nat :=
  h.alloc ⟨0, nil, nil, rb_tree_node_color.Red, some value⟩

/-! ### `rb_tree_iterator.h` -/

/-- The iterator `rb_tree_iterator`: the current node and the sentinel of its tree. -/
structure rb_tree_iterator where
  _node : Nat
  _nil : Nat
  deriving DecidableEq, Repr

namespace rb_tree_iterator

/-- The pre-increment `operator++`: `_node = _next(_node, _nil)`. -/
def inc (h : Heap α) (it : rb_tree_iterator) : Option rb_tree_iterator :=
  match rb_tree_base_node._next h it._node it._nil with
  | some n => some ⟨n, it._nil⟩
  | none => none

/-- The pre-decrement `operator--`: `_node = _prev(_node, _nil)`. -/
def dec (h : Heap α) (it : rb_tree_iterator) : Option rb_tree_iterator :=
  match rb_tree_base_node._prev h it._node it._nil with
  | some n => some ⟨n, it._nil⟩
  | none => none

/-- The dereference `operator*`: the value stored in the node the iterator is at. -/
def deref (h : Heap α) (it : rb_tree_iterator) : Option α := h.value it._node

end rb_tree_iterator

/-! ### `rb_tree.h`: the container -/

/-- The data members of `rb_tree<ValueType, Compare>`. -/
structure rb_tree (α : Type) where
  _root : Nat
  _nil : Nat
  _size : Nat
  _comp : α → α → Bool

open rb_tree_node_color

/-- Modelled from the spec: the left rotation used by the balancer (§4.3), absent
from the sources.  It is the constant-time relinking around the edge from `x`
to its right child `y`: `y` takes the place of `x` under the parent of `x` (or
in the root slot when that parent is the sentinel), `x` becomes the left child
of `y` and the former left subtree of `y` becomes the right subtree of `x`.
Returns the store and the root slot. -/
def _rotate_left (h : Heap α) (root nil x : Nat) : Option (Heap α × Nat) := do
  let xn ← h.read x
  let y := xn._right
  let yn ← h.read y
  let h1 ← h.modify x (rb_tree_node.set_right yn._left)
  let h2 ← if yn._left ≠ nil then h1.modify yn._left (rb_tree_node.set_parent x) else some h1
  let h3 ← h2.modify y (rb_tree_node.set_parent xn._parent)
  let hr ←
    if xn._parent = nil then some (h3, y)
    else
      match h3.read xn._parent with
      | none => none
      | some pn =>
        if x = pn._left then
          (h3.modify xn._parent (rb_tree_node.set_left y)).map (fun h4 => (h4, root))
        else
          (h3.modify xn._parent (rb_tree_node.set_right y)).map (fun h4 => (h4, root))
  let h5 ← hr.1.modify y (rb_tree_node.set_left x)
  let h6 ← h5.modify x (rb_tree_node.set_parent y)
  some (h6, hr.2)

/-- Modelled from the spec: the right rotation used by the balancer (§4.3), absent
from the sources; the mirror image of `_rotate_left`. -/
def _rotate_right (h : Heap α) (root nil x : Nat) : Option (Heap α × Nat) := do
  let xn ← h.read x
  let y := xn._left
  let yn ← h.read y
  let h1 ← h.modify x (rb_tree_node.set_left yn._right)
  let h2 ← if yn._right ≠ nil then h1.modify yn._right (rb_tree_node.set_parent x) else some h1
  let h3 ← h2.modify y (rb_tree_node.set_parent xn._parent)
  let hr ←
    if xn._parent = nil then some (h3, y)
    else
      match h3.read xn._parent with
      | none => none
      | some pn =>
        if x = pn._right then
          (h3.modify xn._parent (rb_tree_node.set_right y)).map (fun h4 => (h4, root))
        else
          (h3.modify xn._parent (rb_tree_node.set_left y)).map (fun h4 => (h4, root))
  let h5 ← hr.1.modify y (rb_tree_node.set_right x)
  let h6 ← h5.modify x (rb_tree_node.set_parent y)
  some (h6, hr.2)

/-- Modelled from the spec: the loop of the insertion fix-up `_insert_fixup`
(§4.3), absent from the sources.  While the parent `p` of `z` is Red, with `g`
the parent of `p` and `u` the sibling of `p` under `g`:
Case A (`u` Red) recolours `p`, `u` Black and `g` Red and continues from `g`;
Case B (`u` Black, `z` an inner grandchild) rotates at `p` and relabels `z := p`;
Case C (`u` Black, `z` an outer grandchild) recolours the parent of `z` Black,
`g` Red and rotates at `g` away from the side of `z`.
Returns the store and the root slot. -/
def _insert_fixup_loop (nil : Nat) : Nat → Heap α → Nat → Nat → Option (Heap α × Nat)
  | 0, _, _, _ => none
  | fuel + 1, h, root, z => do
    let zn ← h.read z
    let p := zn._parent
    let pn ← h.read p
    if pn._color = Red then
      let g := pn._parent
      let gn ← h.read g
      if p = gn._left then
        let u := gn._right
        let un ← h.read u
        if un._color = Red then
          let h1 ← h.modify p (rb_tree_node.set_color Black)
          let h2 ← h1.modify u (rb_tree_node.set_color Black)
          let h3 ← h2.modify g (rb_tree_node.set_color Red)
          _insert_fixup_loop nil fuel h3 root g
        else
          let b ←
            if z = pn._right then
              (_rotate_left h root nil p).map (fun r => (r.1, r.2, p))
            else some (h, root, z)
          let zn1 ← b.1.read b.2.2
          let h1 ← b.1.modify zn1._parent (rb_tree_node.set_color Black)
          let h2 ← h1.modify g (rb_tree_node.set_color Red)
          let r ← _rotate_right h2 b.2.1 nil g
          _insert_fixup_loop nil fuel r.1 r.2 b.2.2
      else
        let u := gn._left
        let un ← h.read u
        if un._color = Red then
          let h1 ← h.modify p (rb_tree_node.set_color Black)
          let h2 ← h1.modify u (rb_tree_node.set_color Black)
          let h3 ← h2.modify g (rb_tree_node.set_color Red)
          _insert_fixup_loop nil fuel h3 root g
        else
          let b ←
            if z = pn._left then
              (_rotate_right h root nil p).map (fun r => (r.1, r.2, p))
            else some (h, root, z)
          let zn1 ← b.1.read b.2.2
          let h1 ← b.1.modify zn1._parent (rb_tree_node.set_color Black)
          let h2 ← h1.modify g (rb_tree_node.set_color Red)
          let r ← _rotate_left h2 b.2.1 nil g
          _insert_fixup_loop nil fuel r.1 r.2 b.2.2
    else some (h, root)

/-- Modelled from the spec: `_insert_fixup(z, _root, _nil)` (§4.3), called by
`_insert` and absent from the sources: the three-case loop, then, unconditionally,
the root is recoloured Black.  Returns the store and the root slot. -/
def _insert_fixup (h : Heap α) (z root nil : Nat) : Option (Heap α × Nat) := do
  let r ← _insert_fixup_loop nil h.fuel h root z
  let h1 ← r.1.modify r.2 (rb_tree_node.set_color Black)
  some (h1, r.2)

namespace rb_tree

/-- The constructor `rb_tree(comp)`: allocates the sentinel, colours it Black,
sets its parent to the (still null) root and makes it the root; `_size` is 0. -/
def new (h : Heap α) (comp : α → α → Bool) : Heap α × rb_tree α :=
  let r := h.alloc ⟨0, 0, 0, Black, none⟩
  (r.1, ⟨r.2, r.2, 0, comp⟩)

/-- The member `size()`. -/
def size (t : rb_tree α) : Nat := t._size

/-- The member `empty()`: `_size == 0`. -/
def empty (t : rb_tree α) : Bool := t._size == 0

/-- The member `height()`. -/
def height (h : Heap α) (t : rb_tree α) : Option Nat := _height_rb_tree h t._root t._nil

/-- The member `min()`. -/
def min (h : Heap α) (t : rb_tree α) : Option Nat := rb_tree_base_node._minimum h t._root t._nil

/-- The member `max()`. -/
def max (h : Heap α) (t : rb_tree α) : Option Nat := rb_tree_base_node._maximum h t._root t._nil

/-- The member `clear()`: deletes every node, then `_root = _nil; _size = 0`. -/
def clear (h : Heap α) (t : rb_tree α) : Option (Heap α × rb_tree α) :=
  match _clear_rb_tree h t._root t._nil with
  | some h1 => some (h1, { t with _root := t._nil, _size := 0 })
  | none => none

/-- The member `_values_equivalent(n, value)`:
`!_comp(n->_value, value) && !_comp(value, n->_value)`. -/
def _values_equivalent (h : Heap α) (t : rb_tree α) (n : Nat) (value : α) : Option Bool :=
  match h.value n with
  | some nv => some (!t._comp nv value && !t._comp value nv)
  | none => none

/-- The descent loop of `_search`: `current` walks down from the root, `parent`
is the last node visited. -/
def _search_loop (h : Heap α) (t : rb_tree α) (value : α) : Nat → Nat → Nat → Option Nat
  | 0, _, _ => none
  | fuel + 1, current, parent =>
    if current ≠ t._nil then
      match h.read current with
      | none => none
      | some cn =>
        match cn._value with
        | none => none
        | some cv =>
          if t._comp value cv then _search_loop h t value fuel cn._left current
          else if t._comp cv value then _search_loop h t value fuel cn._right current
          else some current
    else some parent

/-- The member `_search(value)`: the node holding a value equivalent to `value`,
or else the last node visited (the sentinel on an empty tree). -/
def _search (h : Heap α) (t : rb_tree α) (value : α) : Option Nat :=
  _search_loop h t value h.fuel t._root t._nil

/-- The member `search(value)`: the node found, or `nullptr` (address `0`). -/
def search (h : Heap α) (t : rb_tree α) (value : α) : Option Nat :=
  match _search h t value with
  | none => none
  | some result =>
    if result ≠ t._nil then
      match _values_equivalent h t result value with
      | none => none
      | some true => some result
      | some false => some 0
    else some 0

/-- The member `_insert(value)`. -/
def _insert (h : Heap α) (t : rb_tree α) (value : α) :
    Option (Heap α × rb_tree α × rb_tree_iterator × Bool) := do
  let parent ← _search h t value
  let found ← if parent ≠ t._nil then _values_equivalent h t parent value else some false
  if found then some (h, t, ⟨parent, t._nil⟩, false)
  else
    let c := create_node h value t._nil
    let new_node := c.2
    let h1 ← c.1.modify new_node (rb_tree_node.set_parent parent)
    let l ←
      if parent = t._nil then some (h1, new_node)
      else
        match h1.value new_node, h1.value parent with
        | some nv, some pv =>
          if t._comp nv pv then
            (h1.modify parent (rb_tree_node.set_left new_node)).map (fun h2 => (h2, t._root))
          else
            (h1.modify parent (rb_tree_node.set_right new_node)).map (fun h2 => (h2, t._root))
        | _, _ => none
    let r ← _insert_fixup l.1 new_node l.2 t._nil
    some (r.1, { t with _root := r.2, _size := t._size + 1 }, ⟨new_node, t._nil⟩, true)

/-- The member `insert(value)`.  The source forwards the undeclared name
`new_node` to `_insert`; the embedding forwards `value`, the only argument in
scope of the type `_insert` takes. -/
def insert (h : Heap α) (t : rb_tree α) (value : α) :
    Option (Heap α × rb_tree α × rb_tree_iterator × Bool) :=
  _insert h t value

end rb_tree

/-! ### Driving the container -/

/-- A freshly constructed empty tree on an empty free store. -/
def fresh (comp : α → α → Bool) : Heap α × rb_tree α := rb_tree.new Heap.init comp

/-- Call `insert` for each key of the list in turn, from the state `s`. -/
def insertAll : List α → Heap α × rb_tree α → Option (Heap α × rb_tree α)
  | [], s => some s
  | k :: ks, s =>
    match rb_tree.insert s.1 s.2 k with
    | some r => insertAll ks (r.1, r.2.1)
    | none => none

/-- A call made on the container: `insert(k)` or `clear()`. -/
inductive Call (α : Type)
  | insert (k : α)
  | clear

/-- Perform the calls of the list in turn, from the state `s`. -/
def runCalls : List (Call α) → Heap α × rb_tree α → Option (Heap α × rb_tree α)
  | [], s => some s
  | Call.insert k :: cs, s =>
    match rb_tree.insert s.1 s.2 k with
    | some r => runCalls cs (r.1, r.2.1)
    | none => none
  | Call.clear :: cs, s =>
    match rb_tree.clear s.1 s.2 with
    | some r => runCalls cs r
    | none => none

/-- The forward scan `for (it = begin; it != end; ++it)`: the nodes visited from
`it` by repeated `operator++` until the sentinel is reached. -/
def forward_loop (h : Heap α) : Nat → rb_tree_iterator → Option (List Nat)
  | 0, _ => none
  | fuel + 1, it =>
    if it._node ≠ it._nil then
      match it.inc h with
      | none => none
      | some it1 =>
        match forward_loop h fuel it1 with
        | none => none
        | some rest => some (it._node :: rest)
    else some []

/-- The nodes visited from `min()` by repeated `next` until the sentinel. -/
def forward (h : Heap α) (t : rb_tree α) : Option (List Nat) :=
  match t.min h with
  | none => none
  | some m => forward_loop h h.fuel ⟨m, t._nil⟩

/-- The values stored in a list of nodes (`none` if one of them has no value). -/
def valuesAt (h : Heap α) : List Nat → Option (List α)
  | [] => some []
  | p :: ps =>
    match h.value p, valuesAt h ps with
    | some v, some vs => some (v :: vs)
    | _, _ => none

/-- The default comparator `std::less` on natural-number keys. -/
def less (a b : Nat) : Bool := decide (a < b)

/-! ### `rb_tree.h`: copying -/

namespace rb_tree

/-- The recursion of the member `_copy(other_root, other_nil)`: unless
`other_root` is the sentinel of the source, `insert(other_root->_value)`, then
`_copy` of the left and of the right subtree of the source node.  The links of
the source node are read when each recursive call is made, as in the source;
`fuel` bounds the depth of the recursion. -/
def _copy_go (other_nil : Nat) : Nat → Heap α → rb_tree α → Nat → Option (Heap α × rb_tree α)
  | 0, _, _, _ => none
  | fuel + 1, h, t, other_root =>
    if other_root = other_nil then some (h, t)
    else
      match h.value other_root with
      | none => none
      | some v =>
        match t.insert h v with
        | none => none
        | some r =>
          match r.1.read other_root with
          | none => none
          | some n =>
            match _copy_go other_nil fuel r.1 r.2.1 n._left with
            | none => none
            | some r1 =>
              match r1.1.read other_root with
              | none => none
              | some n1 => _copy_go other_nil fuel r1.1 r1.2 n1._right

/-- The member `_copy(other_root, other_nil)`, called on the tree object `t`. -/
def _copy (h : Heap α) (t : rb_tree α) (other_root other_nil : Nat) :
    Option (Heap α × rb_tree α) :=
  _copy_go other_nil h.fuel h t other_root

/-- The copy constructor `rb_tree(const rb_tree& other)`.  Its member
initialisers set `_comp` and `_size` from `other`; `_root` and `_nil` keep their
default member initialiser `nullptr` (the body allocates no sentinel); the body
is `_copy(other._root, other._nil)`. -/
def new_copy (h : Heap α) (other : rb_tree α) : Option (Heap α × rb_tree α) :=
  _copy h ⟨0, 0, other._size, other._comp⟩ other._root other._nil

end rb_tree

/-! ### Allocation failure

`new` reports that no storage is left by throwing `std::bad_alloc`.  An
exception that tries to leave a function declared `noexcept` ends the program
through `std::terminate`. -/

/-- How an evaluation ends: with a value, with an exception in flight towards
the caller, with a call of `std::terminate`, or undefined.  `exception` and
`terminate` carry the state of the moment the event happens. -/
inductive Outcome (σ β : Type)
  | ok (b : β)
  | exception (s : σ)
  | terminate (s : σ)
  | undefined

namespace Outcome

variable {σ β : Type}

/-- The effect of the specifier `noexcept` on the evaluation of a function
body: an exception that would leave the function calls `std::terminate`. -/
def noexcept : Outcome σ β → Outcome σ β
  | exception s => terminate s
  | r => r

/-- The evaluation ended with an exception propagating to the caller. -/
def isException : Outcome σ β → Bool
  | exception _ => true
  | _ => false

/-- The evaluation ended in `std::terminate`. -/
def isTerminate : Outcome σ β → Bool
  | terminate _ => true
  | _ => false

end Outcome

/-- The expression `new T` with an allocation function that may fail: `avail`
tells whether storage is found; when it is not, `std::bad_alloc` is thrown and
the store is left as it is. -/
def Heap.alloc_checked (avail : Bool) (h : Heap α) (n : rb_tree_node α) :
    Outcome (Heap α) (Heap α × Nat) :=
  if avail then Outcome.ok (h.alloc n) else Outcome.exception h

/-- `rb_tree_node::create_node(value, nil) noexcept` over the allocation function
that may fail: the body of `create_node`, under its `noexcept` specifier. -/
def create_node_checked (avail : Bool) (h : Heap α) (value : α) (nil : Nat) :
    Outcome (Heap α) (Heap α × Nat) :=
  (h.alloc_checked avail ⟨0, nil, nil, Red, some value⟩).noexcept

/-- The member `_insert(value)` over the allocation function that may fail.  The
statements are those of `_insert`; `_insert` has no `noexcept` specifier and no
handler, so an exception raised by a callee would propagate to its caller. -/
def rb_tree._insert_checked (avail : Bool) (h : Heap α) (t : rb_tree α) (value : α) :
    Outcome (Heap α × rb_tree α) (Heap α × rb_tree α × rb_tree_iterator × Bool) :=
  match rb_tree._search h t value with
  | none => Outcome.undefined
  | some parent =>
    match (if parent ≠ t._nil then rb_tree._values_equivalent h t parent value else some false) with
    | none => Outcome.undefined
    | some true => Outcome.ok (h, t, ⟨parent, t._nil⟩, false)
    | some false =>
      match create_node_checked avail h value t._nil with
      | Outcome.undefined => Outcome.undefined
      | Outcome.exception h1 => Outcome.exception (h1, t)
      | Outcome.terminate h1 => Outcome.terminate (h1, t)
      | Outcome.ok c =>
        let new_node := c.2
        match c.1.modify new_node (rb_tree_node.set_parent parent) with
        | none => Outcome.undefined
        | some h1 =>
          let l :=
            if parent = t._nil then some (h1, new_node)
            else
              match h1.value new_node, h1.value parent with
              | some nv, some pv =>
                if t._comp nv pv then
                  (h1.modify parent (rb_tree_node.set_left new_node)).map
                    (fun h2 => (h2, t._root))
                else
                  (h1.modify parent (rb_tree_node.set_right new_node)).map
                    (fun h2 => (h2, t._root))
              | _, _ => none
          match l with
          | none => Outcome.undefined
          | some l1 =>
            match _insert_fixup l1.1 new_node l1.2 t._nil with
            | none => Outcome.undefined
            | some r =>
              Outcome.ok
                (r.1, { t with _root := r.2, _size := t._size + 1 }, ⟨new_node, t._nil⟩, true)

/-- The member `insert(value)` over the allocation function that may fail. -/
def rb_tree.insert_checked (avail : Bool) (h : Heap α) (t : rb_tree α) (value : α) :
    Outcome (Heap α × rb_tree α) (Heap α × rb_tree α × rb_tree_iterator × Bool) :=
  rb_tree._insert_checked avail h t value

/-! ### Driving the container, with the flags -/

/-- Call `insert` for each key of the list in turn, from the state `s`, and
collect the `inserted` flags the calls return. -/
def insertFlags : List α → Heap α × rb_tree α → Option (List Bool × (Heap α × rb_tree α))
  | [], s => some ([], s)
  | k :: ks, s =>
    match rb_tree.insert s.1 s.2 k with
    | none => none
    | some r =>
      match insertFlags ks (r.1, r.2.1) with
      | none => none
      | some r1 => some (r.2.2.2 :: r1.1, r1.2)

/-! ### `rb_tree.h`: copy assignment -/

namespace rb_tree

/-- The copy assignment `operator=(other)`.  The tree objects are not part of the
store, so the addresses `this` and `&other`, which the operator compares first,
are passed as `self_ptr` and `other_ptr` next to the objects themselves (on a
self-assignment `other` is `t`).  Unless the two are the same object:
`clear()`, `_comp = other._comp`, `_copy(other._root, other._nil)` and
`_size = other._size`. -/
def assign (h : Heap α) (self_ptr : Nat) (t : rb_tree α) (other_ptr : Nat)
    (other : rb_tree α) : Option (Heap α × rb_tree α) :=
  if self_ptr = other_ptr then some (h, t)
  else
    match t.clear h with
    | none => none
    | some c =>
      match _copy c.1 { c.2 with _comp := other._comp } other._root other._nil with
      | none => none
      | some r => some (r.1, { r.2 with _size := other._size })

end rb_tree

/-- Two containers in one store: a tree is constructed with the comparator
`compA` and receives the keys `ka`, then a second tree is constructed with
`compB` and receives the keys `kb`.  Returns the store and the two tree
objects. -/
def twoTrees (compA compB : α → α → Bool) (ka kb : List α) :
    Option (Heap α × rb_tree α × rb_tree α) :=
  match insertAll ka (fresh compA) with
  | none => none
  | some s =>
    match insertAll kb (rb_tree.new s.1 compB) with
    | none => none
    | some s1 => some (s1.1, s.2, s1.2)

/-! ## Part 2: the abstraction

The nodes reachable from a root form a binary tree.  `Tree` records that tree
together with the address of every node, `Rep` says that a store holds it, and
`Path` is a tree with a hole: the ancestors of a position, innermost first. -/

/-- A binary tree of nodes: colour, left subtree, address, value, right subtree.
`leaf` is a link to the sentinel. -/
inductive Tree (α : Type)
  | leaf
  | node (c : rb_tree_node_color) (l : Tree α) (a : Nat) (v : α) (r : Tree α)

namespace Tree

/-- The pointer that designates the tree: the sentinel for `leaf`, else the
address of the root node. -/
def ptr (nil : Nat) : Tree α → Nat
  | leaf => nil
  | node _ _ a _ _ => a

/-- The addresses of the nodes, in order. -/
def addrs : Tree α → List Nat
  | leaf => []
  | node _ l a _ r => l.addrs ++ a :: r.addrs

/-- The in-order sequence of the stored values. -/
def keys : Tree α → List α
  | leaf => []
  | node _ l _ v r => l.keys ++ v :: r.keys

/-- The nodes in order, each as its address and the value it stores. -/
def entries : Tree α → List (Nat × α)
  | leaf => []
  | node _ l a v r => l.entries ++ (a, v) :: r.entries

/-- The number of real nodes. -/
def size : Tree α → Nat
  | leaf => 0
  | node _ l _ _ r => l.size + 1 + r.size

/-- The largest number of real nodes on a path from the root to a leaf link. -/
def height : Tree α → Nat
  | leaf => 0
  | node _ l _ _ r => 1 + max l.height r.height

/-- The colour of the root; the sentinel is Black. -/
def rootColor : Tree α → rb_tree_node_color
  | leaf => Black
  | node c _ _ _ _ => c

/-- The tree with its root recoloured. -/
def paint (c : rb_tree_node_color) : Tree α → Tree α
  | leaf => leaf
  | node _ l a v r => node c l a v r

/-- The number of Black nodes met on each path from the root to a leaf link,
one entry per path, from the leftmost path to the rightmost. -/
def blackCounts : Tree α → List Nat
  | leaf => [0]
  | node c l _ _ r =>
    (l.blackCounts ++ r.blackCounts).map (fun n => if c = Black then n + 1 else n)

/-- The tree itself and every subtree below it that has a real root. -/
def subtrees : Tree α → List (Tree α)
  | leaf => []
  | node c l a v r => node c l a v r :: (l.subtrees ++ r.subtrees)

/-- The number of Black nodes on the leftmost path. -/
def blackHeight : Tree α → Nat
  | leaf => 0
  | node c l _ _ _ => if c = Black then l.blackHeight + 1 else l.blackHeight

/-- At every node the two subtrees have the same black height. -/
def Balanced : Tree α → Prop
  | leaf => True
  | node _ l _ _ r => l.Balanced ∧ r.Balanced ∧ l.blackHeight = r.blackHeight

/-- No Red node has a Red child. -/
def NoRedRed : Tree α → Prop
  | leaf => True
  | node c l _ _ r =>
    (c = Red → l.rootColor = Black ∧ r.rootColor = Black) ∧ l.NoRedRed ∧ r.NoRedRed

end Tree

/-- The store `h` holds the tree `T` below a node whose `_parent` link is `par`:
every node of `T` is live at its address, is not the sentinel, and its links,
colour and value are those `T` gives. -/
def Rep (h : Heap α) (nil : Nat) : Tree α → Nat → Prop
  | Tree.leaf, _ => True
  | Tree.node c l a v r, par =>
    a ≠ nil ∧ h.read a = some ⟨par, l.ptr nil, r.ptr nil, c, some v⟩ ∧
      Rep h nil l a ∧ Rep h nil r a

/-- The store `h` and the object `t` hold exactly the tree `T`: the nodes
reachable from `_root` are those of `T`, at pairwise different addresses, the
root has the sentinel for parent, the sentinel is a live Black base object,
nothing lives at the null address nor at or beyond the allocation pointer. -/
structure Models (h : Heap α) (t : rb_tree α) (T : Tree α) : Prop where
  rep : Rep h t._nil T t._nil
  root : t._root = T.ptr t._nil
  nodup : T.addrs.Nodup
  sentinel : h.read t._nil = some ⟨0, 0, 0, Black, none⟩
  null : h.read 0 = none
  bound : ∀ p, h.next ≤ p → h.read p = none

/-- The ancestors of a position in a tree, innermost first: `left` when the
position is the left child of the node `a` (whose right subtree is `r`), `right`
when it is the right child. -/
inductive Path (α : Type)
  | top
  | left (c : rb_tree_node_color) (a : Nat) (v : α) (r : Tree α) (up : Path α)
  | right (c : rb_tree_node_color) (l : Tree α) (a : Nat) (v : α) (up : Path α)

namespace Path

/-- Put the tree `t` at the position the path leads to. -/
def fill : Path α → Tree α → Tree α
  | top, t => t
  | left c a v r up, t => up.fill (Tree.node c t a v r)
  | right c l a v up, t => up.fill (Tree.node c l a v t)

/-- The address of the innermost ancestor; the sentinel at the root. -/
def parent (nil : Nat) : Path α → Nat
  | top => nil
  | left _ a _ _ _ => a
  | right _ _ a _ _ => a

/-- The addresses of the ancestors and of the nodes of their other subtrees. -/
def addrs : Path α → List Nat
  | top => []
  | left _ a _ r up => a :: (r.addrs ++ up.addrs)
  | right _ l a _ up => a :: (l.addrs ++ up.addrs)

/-- The values that come before the position, in order. -/
def before : Path α → List α
  | top => []
  | left _ _ _ _ up => up.before
  | right _ l _ v up => up.before ++ (l.keys ++ [v])

/-- The values that come after the position, in order. -/
def after : Path α → List α
  | top => []
  | left _ _ v r up => v :: (r.keys ++ up.after)
  | right _ _ _ _ up => up.after

/-- The addresses that come before the position, in order. -/
def addrsBefore : Path α → List Nat
  | top => []
  | left _ _ _ _ up => up.addrsBefore
  | right _ l a _ up => up.addrsBefore ++ (l.addrs ++ [a])

/-- The addresses that come after the position, in order. -/
def addrsAfter : Path α → List Nat
  | top => []
  | left _ a _ r up => a :: (r.addrs ++ up.addrsAfter)
  | right _ _ _ _ up => up.addrsAfter

/-- The number of ancestors. -/
def depth : Path α → Nat
  | top => 0
  | left _ _ _ _ up => up.depth + 1
  | right _ _ _ _ up => up.depth + 1

/-- The outermost ancestor (the root of the whole tree), if any, is Black. -/
def RootBlack : Path α → Prop
  | top => True
  | left c _ _ _ top => c = Black
  | right c _ _ _ top => c = Black
  | left _ _ _ _ up => up.RootBlack
  | right _ _ _ _ up => up.RootBlack

/-- The colour of the innermost ancestor; Black at the root position. -/
def color : Path α → rb_tree_node_color
  | top => Black
  | left c _ _ _ _ => c
  | right c _ _ _ _ => c

/-- Every ancestor's other subtree is balanced, and a tree of black height `n`
put at the position gives every ancestor two subtrees of equal black height. -/
def Balanced : Path α → Nat → Prop
  | top, _ => True
  | left c _ _ r up, n =>
    r.Balanced ∧ r.blackHeight = n ∧ up.Balanced (if c = Black then n + 1 else n)
  | right c l _ _ up, n =>
    l.Balanced ∧ l.blackHeight = n ∧ up.Balanced (if c = Black then n + 1 else n)

/-- No Red ancestor has a Red parent or a Red other child, and the other
subtrees have no Red node with a Red child. -/
def NoRedRed : Path α → Prop
  | top => True
  | left c _ _ r up =>
    r.NoRedRed ∧ (c = Red → r.rootColor = Black ∧ up.color = Black) ∧ up.NoRedRed
  | right c l _ _ up =>
    l.NoRedRed ∧ (c = Red → l.rootColor = Black ∧ up.color = Black) ∧ up.NoRedRed

/-- The first ancestor reached from a left child when climbing from the
position; the sentinel if there is none. -/
def nextUp (nil : Nat) : Path α → Nat
  | top => nil
  | left _ a _ _ _ => a
  | right _ _ _ _ up => up.nextUp nil

/-- The first ancestor reached from a right child when climbing from the
position; the sentinel if there is none. -/
def prevUp (nil : Nat) : Path α → Nat
  | top => nil
  | left _ _ _ _ up => up.prevUp nil
  | right _ _ a _ _ => a

end Path

/-- The store `h` holds the ancestors along `path` of a position whose child
link is `p`: each ancestor is live with the links, colour and value the path
gives, and its other subtree is held by the store. -/
def RepPath (h : Heap α) (nil : Nat) : Path α → Nat → Prop
  | Path.top, _ => True
  | Path.left c a v r up, p =>
    a ≠ nil ∧ h.read a = some ⟨up.parent nil, p, r.ptr nil, c, some v⟩ ∧
      Rep h nil r a ∧ RepPath h nil up a
  | Path.right c l a v up, p =>
    a ≠ nil ∧ h.read a = some ⟨up.parent nil, l.ptr nil, p, c, some v⟩ ∧
      Rep h nil l a ∧ RepPath h nil up a

/-- The store `h1` agrees with `h` everywhere off the addresses of `A` and has
made no allocation. -/
def SameOff (A : List Nat) (h h1 : Heap α) : Prop :=
  (∀ q, q ∉ A → h1.read q = h.read q) ∧ h1.next = h.next

/-- The descent of `_search` on a tree: the position where it stops, which holds
either a node with an equivalent value or a leaf link. -/
def zoom (comp : α → α → Bool) (k : α) : Tree α → Path α → Path α × Tree α
  | Tree.leaf, path => (path, Tree.leaf)
  | Tree.node c l a v r, path =>
    if comp k v then zoom comp k l (Path.left c a v r path)
    else if comp v k then zoom comp k r (Path.right c l a v path)
    else (path, Tree.node c l a v r)

/-- The pointer `_search` returns for the position where the descent stops: the
node found there, or else the innermost ancestor (the sentinel at the root). -/
def stopPtr (nil : Nat) : Path α × Tree α → Nat
  | (_, Tree.node _ _ a _ _) => a
  | (path, Tree.leaf) => path.parent nil

/-- The effect of the fix-up loop on the tree: `zt` is the subtree rooted at `z`
and the path lists the ancestors of `z`. -/
def fixupT : Path α → Tree α → Tree α
  | Path.left Red p pv pr (Path.left _ g gv u up), zt =>
    match u with
    | Tree.node Red ul ua uv ur =>
      fixupT up (Tree.node Red (Tree.node Black zt p pv pr) g gv (Tree.node Black ul ua uv ur))
    | _ => up.fill (Tree.node Black zt p pv (Tree.node Red pr g gv u))
  | Path.right Red pl p pv (Path.left gc g gv u up), zt =>
    match u with
    | Tree.node Red ul ua uv ur =>
      fixupT up (Tree.node Red (Tree.node Black pl p pv zt) g gv (Tree.node Black ul ua uv ur))
    | _ =>
      match zt with
      | Tree.node _ zl z zv zr =>
        up.fill (Tree.node Black (Tree.node Red pl p pv zl) z zv (Tree.node Red zr g gv u))
      | Tree.leaf => (Path.right Red pl p pv (Path.left gc g gv u up)).fill zt
  | Path.left Red p pv pr (Path.right gc u g gv up), zt =>
    match u with
    | Tree.node Red ul ua uv ur =>
      fixupT up (Tree.node Red (Tree.node Black ul ua uv ur) g gv (Tree.node Black zt p pv pr))
    | _ =>
      match zt with
      | Tree.node _ zl z zv zr =>
        up.fill (Tree.node Black (Tree.node Red u g gv zl) z zv (Tree.node Red zr p pv pr))
      | Tree.leaf => (Path.left Red p pv pr (Path.right gc u g gv up)).fill zt
  | Path.right Red pl p pv (Path.right _ u g gv up), zt =>
    match u with
    | Tree.node Red ul ua uv ur =>
      fixupT up (Tree.node Red (Tree.node Black ul ua uv ur) g gv (Tree.node Black pl p pv zt))
    | _ => up.fill (Tree.node Black (Tree.node Red u g gv pl) p pv zt)
  | path, zt => path.fill zt

/-- The effect of `_insert` on the tree: nothing when the descent stops at a
node, else a Red node at the new address is hung at the leaf link the descent
reached, the fix-up loop runs and the root is painted Black. -/
def Tree.ins (comp : α → α → Bool) (new_node : Nat) (k : α) (T : Tree α) : Tree α :=
  match zoom comp k T Path.top with
  | (_, Tree.node _ _ _ _ _) => T
  | (path, Tree.leaf) =>
    (fixupT path (Tree.node Red Tree.leaf new_node k Tree.leaf)).paint Black

/-- Two values are equivalent under the comparator: neither is less than the other. -/
def Equiv (comp : α → α → Bool) (a b : α) : Prop := comp a b = false ∧ comp b a = false

/-- The comparator is a strict weak ordering. -/
structure StrictWeakOrder (comp : α → α → Bool) : Prop where
  irrefl : ∀ a, comp a a = false
  trans : ∀ a b c, comp a b = true → comp b c = true → comp a c = true
  equiv_trans : ∀ a b c, Equiv comp a b → Equiv comp b c → Equiv comp a c

/-- The list is strictly increasing under the comparator. -/
def Increasing (comp : α → α → Bool) (l : List α) : Prop :=
  l.Pairwise (fun a b => comp a b = true)

/-- The invariant of the container: the store and the object hold the tree `T`,
`_size` counts its nodes, and the colour rules hold: the root is Black, no Red
node has a Red child, and the two subtrees of every node have the same black
height. -/
structure Inv (h : Heap α) (t : rb_tree α) (T : Tree α) : Prop where
  models : Models h t T
  size : t._size = T.size
  rootBlack : T.rootColor = Black
  balanced : T.Balanced
  noRedRed : T.NoRedRed

/-- A comparator on natural-number keys that orders by the half of the key: it
is a strict weak ordering under which `2 * n` and `2 * n + 1` are equivalent. -/
def halfLess (a b : Nat) : Bool := decide (a / 2 < b / 2)

/-! ### Trees up to addresses, and path lengths -/

/-- The tree with every address replaced by its image under `f`. -/
def Tree.mapAddr (f : Nat → Nat) : Tree α → Tree α
  | Tree.leaf => Tree.leaf
  | Tree.node c l a v r => Tree.node c (l.mapAddr f) (f a) v (r.mapAddr f)

/-- The path with every address replaced by its image under `f`. -/
def Path.mapAddr (f : Nat → Nat) : Path α → Path α
  | Path.top => Path.top
  | Path.left c a v r up => Path.left c (f a) v (r.mapAddr f) (up.mapAddr f)
  | Path.right c l a v up => Path.right c (l.mapAddr f) (f a) v (up.mapAddr f)

/-- The shape of a tree: its structure, colours and values, every address
erased (replaced by `0`). -/
def Tree.shape (T : Tree α) : Tree α := T.mapAddr (fun _ => 0)

/-- Read the shape of the tree below `node` from the store, following the
`_left` and `_right` links down to the sentinel. -/
def shapeBelow (h : Heap α) (nil : Nat) : Nat → Nat → Option (Tree α)
  | 0, _ => none
  | fuel + 1, node =>
    if node = nil then some Tree.leaf
    else
      match h.read node with
      | none => none
      | some n =>
        match n._value, shapeBelow h nil fuel n._left, shapeBelow h nil fuel n._right with
        | some v, some l, some r => some (Tree.node n._color l 0 v r)
        | _, _, _ => none

/-- The shape of the tree the container holds, read from the store. -/
def rb_tree.shape (h : Heap α) (t : rb_tree α) : Option (Tree α) :=
  shapeBelow h t._nil h.fuel t._root

/-- The number of real nodes on each path from the root to a leaf link, one
entry per path, from the leftmost path to the rightmost. -/
def Tree.pathLengths : Tree α → List Nat
  | Tree.leaf => [0]
  | Tree.node _ l _ _ r => (l.pathLengths ++ r.pathLengths).map (fun n => n + 1)

/-! ### The order in which `_copy` visits a tree -/

/-- The values of a tree in pre-order: the root, then the left subtree, then the
right subtree. -/
def Tree.preorder : Tree α → List α
  | Tree.leaf => []
  | Tree.node _ l _ v r => v :: (l.preorder ++ r.preorder)

/-! ## Part 3: proofs -/

/-! ### The free store -/

@[simp] theorem Heap.read_put (h : Heap α) (p q : Nat) (n : rb_tree_node α) :
    (h.put p n).read q = if q = p then some n else h.read q := rfl

@[simp] theorem Heap.next_put (h : Heap α) (p : Nat) (n : rb_tree_node α) :
    (h.put p n).next = h.next := rfl

@[simp] theorem Heap.fuel_put (h : Heap α) (p : Nat) (n : rb_tree_node α) :
    (h.put p n).fuel = h.fuel := rfl

theorem Heap.modify_of_read {h : Heap α} {p : Nat} {n : rb_tree_node α}
    (f : rb_tree_node α → rb_tree_node α) (hr : h.read p = some n) :
    h.modify p f = some (h.put p (f n)) := by
  simp [Heap.modify, hr]

@[simp] theorem Heap.read_alloc (h : Heap α) (n : rb_tree_node α) (q : Nat) :
    (h.alloc n).1.read q = if q = h.next then some n else h.read q := rfl

@[simp] theorem Heap.next_alloc (h : Heap α) (n : rb_tree_node α) :
    (h.alloc n).1.next = h.next + 1 := rfl

@[simp] theorem Heap.alloc_snd (h : Heap α) (n : rb_tree_node α) : (h.alloc n).2 = h.next := rfl

/-! ### Trees held by a store -/

theorem Rep.frame {h h1 : Heap α} {nil : Nat} :
    ∀ {T : Tree α} {par : Nat}, (∀ a ∈ T.addrs, h1.read a = h.read a) →
      Rep h nil T par → Rep h1 nil T par
  | Tree.leaf, _, _, _ => trivial
  | Tree.node c l a v r, par, hf, hr => by
    obtain ⟨h1n, h2, h3, h4⟩ := hr
    refine ⟨h1n, ?_, Rep.frame (fun b hb => hf b ?_) h3, Rep.frame (fun b hb => hf b ?_) h4⟩
    · rw [hf a (by simp [Tree.addrs])]; exact h2
    · simp [Tree.addrs, hb]
    · simp [Tree.addrs, hb]

theorem Rep.put {h : Heap α} {nil : Nat} {T : Tree α} {par p : Nat} {n : rb_tree_node α}
    (hp : p ∉ T.addrs) (hr : Rep h nil T par) : Rep (h.put p n) nil T par :=
  Rep.frame (fun a ha => by
    have : a ≠ p := fun e => hp (e ▸ ha)
    simp [this]) hr

theorem Rep.nil_not_mem {h : Heap α} {nil : Nat} {T : Tree α} {par : Nat} :
    Rep h nil T par → nil ∉ T.addrs := by
  induction T generalizing par with
  | leaf => intro _; simp [Tree.addrs]
  | node c l a v r ihl ihr =>
    intro hr
    obtain ⟨h1, _, h3, h4⟩ := hr
    simp only [Tree.addrs, List.mem_append, List.mem_cons, not_or]
    exact ⟨ihl h3, Ne.symm h1, ihr h4⟩

theorem Rep.live {h : Heap α} {nil : Nat} {T : Tree α} {par : Nat} :
    Rep h nil T par → ∀ a ∈ T.addrs, (h.read a).isSome = true := by
  induction T generalizing par with
  | leaf => intro _ a ha; simp [Tree.addrs] at ha
  | node c l a v r ihl ihr =>
    intro hr b hb
    obtain ⟨_, h2, h3, h4⟩ := hr
    simp only [Tree.addrs, List.mem_append, List.mem_cons] at hb
    rcases hb with hb | rfl | hb
    · exact ihl h3 b hb
    · simp [h2]
    · exact ihr h4 b hb

/-! ### Paths -/

theorem Path.keys_fill : ∀ (path : Path α) (t : Tree α),
    (path.fill t).keys = path.before ++ t.keys ++ path.after
  | Path.top, t => by simp [Path.fill, Path.before, Path.after]
  | Path.left c a v r up, t => by
    simp [Path.fill, Path.before, Path.after, Path.keys_fill up, Tree.keys]
  | Path.right c l a v up, t => by
    simp [Path.fill, Path.before, Path.after, Path.keys_fill up, Tree.keys]

theorem Path.addrs_fill : ∀ (path : Path α) (t : Tree α),
    (path.fill t).addrs = path.addrsBefore ++ t.addrs ++ path.addrsAfter
  | Path.top, t => by simp [Path.fill, Path.addrsBefore, Path.addrsAfter]
  | Path.left c a v r up, t => by
    simp [Path.fill, Path.addrsBefore, Path.addrsAfter, Path.addrs_fill up, Tree.addrs]
  | Path.right c l a v up, t => by
    simp [Path.fill, Path.addrsBefore, Path.addrsAfter, Path.addrs_fill up, Tree.addrs]

theorem Path.addrs_fill_perm : ∀ (path : Path α) (t : Tree α),
    (path.fill t).addrs.Perm (t.addrs ++ path.addrs)
  | Path.top, t => by simp [Path.fill, Path.addrs]
  | Path.left c a v r up, t => by
    have ih := Path.addrs_fill_perm up (Tree.node c t a v r)
    simpa [Path.fill, Path.addrs, Tree.addrs] using ih
  | Path.right c l a v up, t => by
    have ih := Path.addrs_fill_perm up (Tree.node c l a v t)
    simp only [Path.fill, Path.addrs, Tree.addrs] at ih ⊢
    refine ih.trans ?_
    have e1 : ((l.addrs ++ a :: t.addrs) ++ up.addrs).Perm ((a :: t.addrs ++ l.addrs) ++ up.addrs) :=
      List.Perm.append_right _ List.perm_append_comm
    refine e1.trans ?_
    have e2 : (t.addrs ++ a :: (l.addrs ++ up.addrs)).Perm (a :: (t.addrs ++ (l.addrs ++ up.addrs))) :=
      List.perm_middle
    refine List.Perm.trans ?_ e2.symm
    simp

theorem Path.nodup_fill (path : Path α) (t : Tree α) :
    (path.fill t).addrs.Nodup ↔ (t.addrs ++ path.addrs).Nodup :=
  (Path.addrs_fill_perm path t).nodup_iff

theorem Path.mem_addrs_fill (path : Path α) (t : Tree α) (a : Nat) :
    a ∈ (path.fill t).addrs ↔ a ∈ t.addrs ∨ a ∈ path.addrs := by
  rw [(Path.addrs_fill_perm path t).mem_iff, List.mem_append]

@[simp] theorem Tree.ptr_leaf (nil : Nat) : (Tree.leaf : Tree α).ptr nil = nil := rfl

@[simp] theorem Tree.ptr_node (nil : Nat) (c : rb_tree_node_color) (l : Tree α) (a : Nat) (v : α)
    (r : Tree α) : (Tree.node c l a v r).ptr nil = a := rfl

theorem Tree.ptr_ne {nil a : Nat} {T : Tree α} (ha : a ≠ nil) (hm : a ∉ T.addrs) :
    a ≠ T.ptr nil := by
  cases T with
  | leaf => simpa using ha
  | node c l b v r =>
    intro e
    apply hm
    simp only [Tree.ptr_node] at e
    simp [Tree.addrs, e]

theorem Tree.ptr_mem {nil : Nat} {T : Tree α} (hne : T.ptr nil ≠ nil) : T.ptr nil ∈ T.addrs := by
  cases T with
  | leaf => simp at hne
  | node c l b v r => simp [Tree.addrs]

theorem Path.ptr_fill_congr (nil : Nat) : ∀ (path : Path α) {t t1 : Tree α},
    t.ptr nil = t1.ptr nil → (path.fill t).ptr nil = (path.fill t1).ptr nil
  | Path.top, _, _, e => e
  | Path.left _ _ _ _ up, _, _, _ => Path.ptr_fill_congr nil up rfl
  | Path.right _ _ _ _ up, _, _, _ => Path.ptr_fill_congr nil up rfl

theorem Path.addrs_fill_congr (path : Path α) {t t1 : Tree α} (e : t.addrs = t1.addrs) :
    (path.fill t).addrs = (path.fill t1).addrs := by
  rw [Path.addrs_fill, Path.addrs_fill, e]

theorem Path.keys_fill_congr (path : Path α) {t t1 : Tree α} (e : t.keys = t1.keys) :
    (path.fill t).keys = (path.fill t1).keys := by
  rw [Path.keys_fill, Path.keys_fill, e]

theorem rep_fill {h : Heap α} {nil : Nat} : ∀ (path : Path α) (t : Tree α),
    Rep h nil (path.fill t) nil ↔ RepPath h nil path (t.ptr nil) ∧ Rep h nil t (path.parent nil)
  | Path.top, t => by simp [Path.fill, RepPath, Path.parent]
  | Path.left c a v r up, t => by
    rw [Path.fill, rep_fill up]
    simp only [RepPath, Path.parent, Rep, Tree.ptr]
    tauto
  | Path.right c l a v up, t => by
    rw [Path.fill, rep_fill up]
    simp only [RepPath, Path.parent, Rep, Tree.ptr]
    tauto

theorem RepPath.frame_path {h h1 : Heap α} {nil : Nat} :
    ∀ {path : Path α} {p : Nat}, (∀ a ∈ path.addrs, h1.read a = h.read a) →
      RepPath h nil path p → RepPath h1 nil path p
  | Path.top, _, _, _ => trivial
  | Path.left c a v r up, p, hf, hr => by
    obtain ⟨h1n, h2, h3, h4⟩ := hr
    refine ⟨h1n, ?_, Rep.frame (fun b hb => hf b ?_) h3, RepPath.frame_path (fun b hb => hf b ?_) h4⟩
    · rw [hf a (by simp [Path.addrs])]; exact h2
    · simp [Path.addrs, hb]
    · simp [Path.addrs, hb]
  | Path.right c l a v up, p, hf, hr => by
    obtain ⟨h1n, h2, h3, h4⟩ := hr
    refine ⟨h1n, ?_, Rep.frame (fun b hb => hf b ?_) h3, RepPath.frame_path (fun b hb => hf b ?_) h4⟩
    · rw [hf a (by simp [Path.addrs])]; exact h2
    · simp [Path.addrs, hb]
    · simp [Path.addrs, hb]

theorem RepPath.put_path {h : Heap α} {nil : Nat} {path : Path α} {q p : Nat} {n : rb_tree_node α}
    (hp : p ∉ path.addrs) (hr : RepPath h nil path q) : RepPath (h.put p n) nil path q :=
  RepPath.frame_path (fun a ha => by
    have : a ≠ p := fun e => hp (e ▸ ha)
    simp [this]) hr

theorem read_focus {h : Heap α} {nil : Nat} {P : Path α} {c : rb_tree_node_color}
    {l : Tree α} {a : Nat} {v : α} {r : Tree α}
    (hrep : Rep h nil (P.fill (Tree.node c l a v r)) nil) :
    h.read a = some ⟨P.parent nil, l.ptr nil, r.ptr nil, c, some v⟩ :=
  ((rep_fill P _).1 hrep).2.2.1

theorem mem_addrs_focus (path : Path α) (c : rb_tree_node_color) (l : Tree α) (a : Nat) (v : α)
    (r : Tree α) : a ∈ (path.fill (Tree.node c l a v r)).addrs := by
  rw [Path.mem_addrs_fill]; simp [Tree.addrs]

theorem SameOff.refl (A : List Nat) (h : Heap α) : SameOff A h h := ⟨fun _ _ => rfl, rfl⟩

theorem SameOff.trans {A : List Nat} {h h1 h2 : Heap α} (h01 : SameOff A h h1)
    (h12 : SameOff A h1 h2) : SameOff A h h2 :=
  ⟨fun q hq => (h12.1 q hq).trans (h01.1 q hq), h12.2.trans h01.2⟩

theorem SameOff.sentinel {A : List Nat} {h h1 : Heap α} {nil : Nat} {n : rb_tree_node α}
    (hso : SameOff A h h1) (hnil : nil ∉ A) (hs : h.read nil = some n) : h1.read nil = some n :=
  (hso.1 nil hnil).trans hs

theorem recolor_focus {h : Heap α} {nil : Nat} {P : Path α} {c : rb_tree_node_color}
    {l : Tree α} {a : Nat} {v : α} {r : Tree α} (c1 : rb_tree_node_color)
    (hrep : Rep h nil (P.fill (Tree.node c l a v r)) nil)
    (hnd : (P.fill (Tree.node c l a v r)).addrs.Nodup) :
    ∃ h1, h.modify a (rb_tree_node.set_color c1) = some h1 ∧
      Rep h1 nil (P.fill (Tree.node c1 l a v r)) nil ∧
      (P.fill (Tree.node c1 l a v r)).addrs.Nodup ∧
      (P.fill (Tree.node c1 l a v r)).addrs = (P.fill (Tree.node c l a v r)).addrs ∧
      SameOff (P.fill (Tree.node c l a v r)).addrs h h1 := by
  have hr := read_focus hrep
  have hA : (P.fill (Tree.node c1 l a v r)).addrs = (P.fill (Tree.node c l a v r)).addrs :=
    Path.addrs_fill_congr P rfl
  have hmem := mem_addrs_focus P c l a v r
  rw [rep_fill] at hrep
  have hnd0 := hnd
  rw [Path.nodup_fill] at hnd
  obtain ⟨hpath, hne, _, hl, hrr⟩ := hrep
  simp only [Tree.addrs, List.nodup_append, List.nodup_cons, List.mem_append, List.mem_cons,
    not_or, List.disjoint_cons_left, List.disjoint_cons_right, List.disjoint_append_left,
    List.disjoint_append_right, List.cons_append, List.append_assoc] at hnd
  refine ⟨_, Heap.modify_of_read _ hr, ?_, hA ▸ hnd0, hA, fun q hq => ?_, rfl⟩
  · rw [rep_fill]
    exact ⟨RepPath.put_path (by tauto) hpath, hne, by simp [rb_tree_node.set_color],
      Rep.put (by tauto) hl, Rep.put (by tauto) hrr⟩
  · have : q ≠ a := fun e => hq (e ▸ hmem)
    simp [this]

theorem Rep.put_iff {h : Heap α} {nil : Nat} {T : Tree α} {par p : Nat} {n : rb_tree_node α}
    (hp : p ∉ T.addrs) : Rep (h.put p n) nil T par ↔ Rep h nil T par :=
  ⟨fun hr => Rep.frame (fun a ha => by
    have : a ≠ p := fun e => hp (e ▸ ha)
    simp [this]) hr, Rep.put hp⟩

theorem RepPath.put_path_iff {h : Heap α} {nil : Nat} {path : Path α} {q p : Nat} {n : rb_tree_node α}
    (hp : p ∉ path.addrs) : RepPath (h.put p n) nil path q ↔ RepPath h nil path q :=
  ⟨fun hr => RepPath.frame_path (fun a ha => by
    have : a ≠ p := fun e => hp (e ▸ ha)
    simp [this]) hr, RepPath.put_path hp⟩

@[simp] theorem Path.parent_top (nil : Nat) : (Path.top : Path α).parent nil = nil := rfl

@[simp] theorem Path.parent_left (nil : Nat) (c : rb_tree_node_color) (a : Nat) (v : α)
    (r : Tree α) (up : Path α) : (Path.left c a v r up).parent nil = a := rfl

@[simp] theorem Path.parent_right (nil : Nat) (c : rb_tree_node_color) (l : Tree α) (a : Nat)
    (v : α) (up : Path α) : (Path.right c l a v up).parent nil = a := rfl

set_option maxHeartbeats 2000000 in
theorem rotate_left_focus_aux {h : Heap α} {nil root : Nat} {P : Path α}
    {xc yc : rb_tree_node_color} {a b c : Tree α} {x y : Nat} {xv yv : α}
    (hrep : Rep h nil (P.fill (Tree.node xc a x xv (Tree.node yc b y yv c))) nil)
    (hnd : (P.fill (Tree.node xc a x xv (Tree.node yc b y yv c))).addrs.Nodup)
    (hroot : root = (P.fill (Tree.node xc a x xv (Tree.node yc b y yv c))).ptr nil) :
    ∃ h1, _rotate_left h root nil x = some (h1, (P.fill (Tree.node yc (Tree.node xc a x xv b) y yv c)).ptr nil) ∧
      Rep h1 nil (P.fill (Tree.node yc (Tree.node xc a x xv b) y yv c)) nil ∧
      (∀ q, q ∉ (P.fill (Tree.node xc a x xv (Tree.node yc b y yv c))).addrs → h1.read q = h.read q) ∧ h1.next = h.next := by
  have hx := read_focus hrep
  have hroot1 : root = (P.fill (Tree.node yc (Tree.node xc a x xv b) y yv c)).ptr nil ∨ P = Path.top := by
    cases P with
    | top => exact Or.inr rfl
    | left _ _ _ _ up => exact Or.inl (hroot.trans (Path.ptr_fill_congr nil up rfl))
    | right _ _ _ _ up => exact Or.inl (hroot.trans (Path.ptr_fill_congr nil up rfl))
  simp only [Path.mem_addrs_fill, rep_fill]
  rw [rep_fill] at hrep
  rw [Path.nodup_fill] at hnd
  obtain ⟨hpath, hxn, -, ha, hyn, hy, hb, hc⟩ := hrep
  cases b with
  | leaf =>
    cases P with
    | top =>
      simp only [Tree.addrs, Path.addrs, List.nodup_append, List.nodup_cons, List.mem_append,
        List.mem_cons, not_or, List.disjoint_cons_left, List.disjoint_cons_right,
        List.disjoint_append_left, List.disjoint_append_right, List.cons_append,
        List.append_assoc, List.nil_append, List.append_nil, List.not_mem_nil, not_false_eq_true,
        List.nodup_nil, List.disjoint_nil_left, List.disjoint_nil_right, true_and, and_true] at hnd ⊢
      have hxy : x ≠ y := by tauto
      simp [_rotate_left, hx, hy, Heap.modify, Path.fill, rb_tree_node.set_right,
        rb_tree_node.set_parent, rb_tree_node.set_left, Rep, RepPath, hxn, hyn,
        Rep.put_iff, RepPath.put_path_iff, hnd, ha, hc, hxy, hxy.symm]
      intros
      simp [*]
    | left qc q qv qr up =>
      simp only [Tree.addrs, Path.addrs, List.nodup_append, List.nodup_cons, List.mem_append,
        List.mem_cons, not_or, List.disjoint_cons_left, List.disjoint_cons_right,
        List.disjoint_append_left, List.disjoint_append_right, List.cons_append,
        List.append_assoc, List.nil_append, List.append_nil, List.not_mem_nil, not_false_eq_true,
        List.nodup_nil, List.disjoint_nil_left, List.disjoint_nil_right, true_and, and_true] at hnd ⊢
      obtain ⟨hqn, hq, hqr, hup⟩ := hpath
      have hroot2 := hroot1.resolve_right (by simp)
      have hxy : x ≠ y := by tauto
      have hxq : x ≠ q := by tauto
      have hyq : y ≠ q := by tauto
      simp [_rotate_left, hx, hy, Heap.modify, Path.fill, rb_tree_node.set_right,
        rb_tree_node.set_parent, rb_tree_node.set_left, Rep, RepPath, hxn, hyn,
        Rep.put_iff, RepPath.put_path_iff, hnd, ha, hc, hxy, hxy.symm, hxq, hxq.symm, hyq, hyq.symm, hqn, hq, hqr, hup, hroot2]
      intros
      simp [*]
    | right qc qr q qv up =>
      simp only [Tree.addrs, Path.addrs, List.nodup_append, List.nodup_cons, List.mem_append,
        List.mem_cons, not_or, List.disjoint_cons_left, List.disjoint_cons_right,
        List.disjoint_append_left, List.disjoint_append_right, List.cons_append,
        List.append_assoc, List.nil_append, List.append_nil, List.not_mem_nil, not_false_eq_true,
        List.nodup_nil, List.disjoint_nil_left, List.disjoint_nil_right, true_and, and_true] at hnd ⊢
      obtain ⟨hqn, hq, hqr, hup⟩ := hpath
      have hroot2 := hroot1.resolve_right (by simp)
      have hxl : x ≠ qr.ptr nil := Tree.ptr_ne hxn (by tauto)
      have hxy : x ≠ y := by tauto
      have hxq : x ≠ q := by tauto
      have hyq : y ≠ q := by tauto
      simp [_rotate_left, hx, hy, Heap.modify, Path.fill, rb_tree_node.set_right,
        rb_tree_node.set_parent, rb_tree_node.set_left, Rep, RepPath, hxn, hyn,
        Rep.put_iff, RepPath.put_path_iff, hnd, ha, hc, hxy, hxy.symm, hxq, hxq.symm, hyq, hyq.symm, hqn, hq, hqr, hup, hroot2, hxl]
      intros
      simp [*]
  | node bc bl ba bv br =>
    obtain ⟨hban, hba, hbl, hbr⟩ := hb
    cases P with
    | top =>
      simp only [Tree.addrs, Path.addrs, List.nodup_append, List.nodup_cons, List.mem_append,
        List.mem_cons, not_or, List.disjoint_cons_left, List.disjoint_cons_right,
        List.disjoint_append_left, List.disjoint_append_right, List.cons_append,
        List.append_assoc, List.nil_append, List.append_nil, List.not_mem_nil, not_false_eq_true,
        List.nodup_nil, List.disjoint_nil_left, List.disjoint_nil_right, true_and, and_true] at hnd ⊢
      have hxy : x ≠ y := by tauto
      have hxba : x ≠ ba := by tauto
      have hyba : y ≠ ba := by tauto
      simp [_rotate_left, hx, hy, Heap.modify, Path.fill, rb_tree_node.set_right,
        rb_tree_node.set_parent, rb_tree_node.set_left, Rep, RepPath, hxn, hyn,
        Rep.put_iff, RepPath.put_path_iff, hnd, ha, hc, hxy, hxy.symm, hxba, hxba.symm, hyba, hyba.symm, hban, hba, hbl, hbr]
      intros
      simp [*]
    | left qc q qv qr up =>
      simp only [Tree.addrs, Path.addrs, List.nodup_append, List.nodup_cons, List.mem_append,
        List.mem_cons, not_or, List.disjoint_cons_left, List.disjoint_cons_right,
        List.disjoint_append_left, List.disjoint_append_right, List.cons_append,
        List.append_assoc, List.nil_append, List.append_nil, List.not_mem_nil, not_false_eq_true,
        List.nodup_nil, List.disjoint_nil_left, List.disjoint_nil_right, true_and, and_true] at hnd ⊢
      obtain ⟨hqn, hq, hqr, hup⟩ := hpath
      have hroot2 := hroot1.resolve_right (by simp)
      have hxy : x ≠ y := by tauto
      have hxba : x ≠ ba := by tauto
      have hyba : y ≠ ba := by tauto
      have hxq : x ≠ q := by tauto
      have hyq : y ≠ q := by tauto
      have hbaq : ba ≠ q := by tauto
      simp [_rotate_left, hx, hy, Heap.modify, Path.fill, rb_tree_node.set_right,
        rb_tree_node.set_parent, rb_tree_node.set_left, Rep, RepPath, hxn, hyn,
        Rep.put_iff, RepPath.put_path_iff, hnd, ha, hc, hxy, hxy.symm, hxba, hxba.symm, hyba, hyba.symm, hxq, hxq.symm, hyq, hyq.symm, hbaq, hbaq.symm, hban, hba, hbl, hbr, hqn, hq, hqr, hup, hroot2]
      intros
      simp [*]
    | right qc qr q qv up =>
      simp only [Tree.addrs, Path.addrs, List.nodup_append, List.nodup_cons, List.mem_append,
        List.mem_cons, not_or, List.disjoint_cons_left, List.disjoint_cons_right,
        List.disjoint_append_left, List.disjoint_append_right, List.cons_append,
        List.append_assoc, List.nil_append, List.append_nil, List.not_mem_nil, not_false_eq_true,
        List.nodup_nil, List.disjoint_nil_left, List.disjoint_nil_right, true_and, and_true] at hnd ⊢
      obtain ⟨hqn, hq, hqr, hup⟩ := hpath
      have hroot2 := hroot1.resolve_right (by simp)
      have hxl : x ≠ qr.ptr nil := Tree.ptr_ne hxn (by tauto)
      have hxy : x ≠ y := by tauto
      have hxba : x ≠ ba := by tauto
      have hyba : y ≠ ba := by tauto
      have hxq : x ≠ q := by tauto
      have hyq : y ≠ q := by tauto
      have hbaq : ba ≠ q := by tauto
      simp [_rotate_left, hx, hy, Heap.modify, Path.fill, rb_tree_node.set_right,
        rb_tree_node.set_parent, rb_tree_node.set_left, Rep, RepPath, hxn, hyn,
        Rep.put_iff, RepPath.put_path_iff, hnd, ha, hc, hxy, hxy.symm, hxba, hxba.symm, hyba, hyba.symm, hxq, hxq.symm, hyq, hyq.symm, hbaq, hbaq.symm, hban, hba, hbl, hbr, hqn, hq, hqr, hup, hroot2, hxl]
      intros
      simp [*]

set_option maxHeartbeats 2000000 in
theorem rotate_right_focus_aux {h : Heap α} {nil root : Nat} {P : Path α}
    {xc yc : rb_tree_node_color} {a b c : Tree α} {x y : Nat} {xv yv : α}
    (hrep : Rep h nil (P.fill (Tree.node xc (Tree.node yc a y yv b) x xv c)) nil)
    (hnd : (P.fill (Tree.node xc (Tree.node yc a y yv b) x xv c)).addrs.Nodup)
    (hroot : root = (P.fill (Tree.node xc (Tree.node yc a y yv b) x xv c)).ptr nil) :
    ∃ h1, _rotate_right h root nil x = some (h1, (P.fill (Tree.node yc a y yv (Tree.node xc b x xv c))).ptr nil) ∧
      Rep h1 nil (P.fill (Tree.node yc a y yv (Tree.node xc b x xv c))) nil ∧
      (∀ q, q ∉ (P.fill (Tree.node xc (Tree.node yc a y yv b) x xv c)).addrs → h1.read q = h.read q) ∧ h1.next = h.next := by
  have hx := read_focus hrep
  have hroot1 : root = (P.fill (Tree.node yc a y yv (Tree.node xc b x xv c))).ptr nil ∨ P = Path.top := by
    cases P with
    | top => exact Or.inr rfl
    | left _ _ _ _ up => exact Or.inl (hroot.trans (Path.ptr_fill_congr nil up rfl))
    | right _ _ _ _ up => exact Or.inl (hroot.trans (Path.ptr_fill_congr nil up rfl))
  simp only [Path.mem_addrs_fill, rep_fill]
  rw [rep_fill] at hrep
  rw [Path.nodup_fill] at hnd
  obtain ⟨hpath, hxn, -, ⟨hyn, hy, ha, hb⟩, hc⟩ := hrep
  cases b with
  | leaf =>
    cases P with
    | top =>
      simp only [Tree.addrs, Path.addrs, List.nodup_append, List.nodup_cons, List.mem_append,
        List.mem_cons, not_or, List.disjoint_cons_left, List.disjoint_cons_right,
        List.disjoint_append_left, List.disjoint_append_right, List.cons_append,
        List.append_assoc, List.nil_append, List.append_nil, List.not_mem_nil, not_false_eq_true,
        List.nodup_nil, List.disjoint_nil_left, List.disjoint_nil_right, true_and, and_true] at hnd ⊢
      have hxy : x ≠ y := by tauto
      simp [_rotate_right, hx, hy, Heap.modify, Path.fill, rb_tree_node.set_right,
        rb_tree_node.set_parent, rb_tree_node.set_left, Rep, RepPath, hxn, hyn,
        Rep.put_iff, RepPath.put_path_iff, hnd, ha, hc, hxy, hxy.symm]
      intros
      simp [*]
    | left qc q qv qr up =>
      simp only [Tree.addrs, Path.addrs, List.nodup_append, List.nodup_cons, List.mem_append,
        List.mem_cons, not_or, List.disjoint_cons_left, List.disjoint_cons_right,
        List.disjoint_append_left, List.disjoint_append_right, List.cons_append,
        List.append_assoc, List.nil_append, List.append_nil, List.not_mem_nil, not_false_eq_true,
        List.nodup_nil, List.disjoint_nil_left, List.disjoint_nil_right, true_and, and_true] at hnd ⊢
      obtain ⟨hqn, hq, hqr, hup⟩ := hpath
      have hroot2 := hroot1.resolve_right (by simp)
      have hxl : x ≠ qr.ptr nil := Tree.ptr_ne hxn (by tauto)
      have hxy : x ≠ y := by tauto
      have hxq : x ≠ q := by tauto
      have hyq : y ≠ q := by tauto
      simp [_rotate_right, hx, hy, Heap.modify, Path.fill, rb_tree_node.set_right,
        rb_tree_node.set_parent, rb_tree_node.set_left, Rep, RepPath, hxn, hyn,
        Rep.put_iff, RepPath.put_path_iff, hnd, ha, hc, hxy, hxy.symm, hxq, hxq.symm, hyq, hyq.symm, hqn, hq, hqr, hup, hroot2, hxl]
      intros
      simp [*]
    | right qc qr q qv up =>
      simp only [Tree.addrs, Path.addrs, List.nodup_append, List.nodup_cons, List.mem_append,
        List.mem_cons, not_or, List.disjoint_cons_left, List.disjoint_cons_right,
        List.disjoint_append_left, List.disjoint_append_right, List.cons_append,
        List.append_assoc, List.nil_append, List.append_nil, List.not_mem_nil, not_false_eq_true,
        List.nodup_nil, List.disjoint_nil_left, List.disjoint_nil_right, true_and, and_true] at hnd ⊢
      obtain ⟨hqn, hq, hqr, hup⟩ := hpath
      have hroot2 := hroot1.resolve_right (by simp)
      have hxy : x ≠ y := by tauto
      have hxq : x ≠ q := by tauto
      have hyq : y ≠ q := by tauto
      simp [_rotate_right, hx, hy, Heap.modify, Path.fill, rb_tree_node.set_right,
        rb_tree_node.set_parent, rb_tree_node.set_left, Rep, RepPath, hxn, hyn,
        Rep.put_iff, RepPath.put_path_iff, hnd, ha, hc, hxy, hxy.symm, hxq, hxq.symm, hyq, hyq.symm, hqn, hq, hqr, hup, hroot2]
      intros
      simp [*]
  | node bc bl ba bv br =>
    obtain ⟨hban, hba, hbl, hbr⟩ := hb
    cases P with
    | top =>
      simp only [Tree.addrs, Path.addrs, List.nodup_append, List.nodup_cons, List.mem_append,
        List.mem_cons, not_or, List.disjoint_cons_left, List.disjoint_cons_right,
        List.disjoint_append_left, List.disjoint_append_right, List.cons_append,
        List.append_assoc, List.nil_append, List.append_nil, List.not_mem_nil, not_false_eq_true,
        List.nodup_nil, List.disjoint_nil_left, List.disjoint_nil_right, true_and, and_true] at hnd ⊢
      have hxy : x ≠ y := by tauto
      have hxba : x ≠ ba := by tauto
      have hyba : y ≠ ba := by tauto
      simp [_rotate_right, hx, hy, Heap.modify, Path.fill, rb_tree_node.set_right,
        rb_tree_node.set_parent, rb_tree_node.set_left, Rep, RepPath, hxn, hyn,
        Rep.put_iff, RepPath.put_path_iff, hnd, ha, hc, hxy, hxy.symm, hxba, hxba.symm, hyba, hyba.symm, hban, hba, hbl, hbr]
      intros
      simp [*]
    | left qc q qv qr up =>
      simp only [Tree.addrs, Path.addrs, List.nodup_append, List.nodup_cons, List.mem_append,
        List.mem_cons, not_or, List.disjoint_cons_left, List.disjoint_cons_right,
        List.disjoint_append_left, List.disjoint_append_right, List.cons_append,
        List.append_assoc, List.nil_append, List.append_nil, List.not_mem_nil, not_false_eq_true,
        List.nodup_nil, List.disjoint_nil_left, List.disjoint_nil_right, true_and, and_true] at hnd ⊢
      obtain ⟨hqn, hq, hqr, hup⟩ := hpath
      have hroot2 := hroot1.resolve_right (by simp)
      have hxl : x ≠ qr.ptr nil := Tree.ptr_ne hxn (by tauto)
      have hxy : x ≠ y := by tauto
      have hxba : x ≠ ba := by tauto
      have hyba : y ≠ ba := by tauto
      have hxq : x ≠ q := by tauto
      have hyq : y ≠ q := by tauto
      have hbaq : ba ≠ q := by tauto
      simp [_rotate_right, hx, hy, Heap.modify, Path.fill, rb_tree_node.set_right,
        rb_tree_node.set_parent, rb_tree_node.set_left, Rep, RepPath, hxn, hyn,
        Rep.put_iff, RepPath.put_path_iff, hnd, ha, hc, hxy, hxy.symm, hxba, hxba.symm, hyba, hyba.symm, hxq, hxq.symm, hyq, hyq.symm, hbaq, hbaq.symm, hban, hba, hbl, hbr, hqn, hq, hqr, hup, hroot2, hxl]
      intros
      simp [*]
    | right qc qr q qv up =>
      simp only [Tree.addrs, Path.addrs, List.nodup_append, List.nodup_cons, List.mem_append,
        List.mem_cons, not_or, List.disjoint_cons_left, List.disjoint_cons_right,
        List.disjoint_append_left, List.disjoint_append_right, List.cons_append,
        List.append_assoc, List.nil_append, List.append_nil, List.not_mem_nil, not_false_eq_true,
        List.nodup_nil, List.disjoint_nil_left, List.disjoint_nil_right, true_and, and_true] at hnd ⊢
      obtain ⟨hqn, hq, hqr, hup⟩ := hpath
      have hroot2 := hroot1.resolve_right (by simp)
      have hxy : x ≠ y := by tauto
      have hxba : x ≠ ba := by tauto
      have hyba : y ≠ ba := by tauto
      have hxq : x ≠ q := by tauto
      have hyq : y ≠ q := by tauto
      have hbaq : ba ≠ q := by tauto
      simp [_rotate_right, hx, hy, Heap.modify, Path.fill, rb_tree_node.set_right,
        rb_tree_node.set_parent, rb_tree_node.set_left, Rep, RepPath, hxn, hyn,
        Rep.put_iff, RepPath.put_path_iff, hnd, ha, hc, hxy, hxy.symm, hxba, hxba.symm, hyba, hyba.symm, hxq, hxq.symm, hyq, hyq.symm, hbaq, hbaq.symm, hban, hba, hbl, hbr, hqn, hq, hqr, hup, hroot2]
      intros
      simp [*]

theorem rotate_left_focus {h : Heap α} {nil root : Nat} {P : Path α}
    {xc yc : rb_tree_node_color} {a b c : Tree α} {x y : Nat} {xv yv : α}
    (hrep : Rep h nil (P.fill (Tree.node xc a x xv (Tree.node yc b y yv c))) nil)
    (hnd : (P.fill (Tree.node xc a x xv (Tree.node yc b y yv c))).addrs.Nodup)
    (hroot : root = (P.fill (Tree.node xc a x xv (Tree.node yc b y yv c))).ptr nil) :
    ∃ h1, _rotate_left h root nil x =
        some (h1, (P.fill (Tree.node yc (Tree.node xc a x xv b) y yv c)).ptr nil) ∧
      Rep h1 nil (P.fill (Tree.node yc (Tree.node xc a x xv b) y yv c)) nil ∧
      (P.fill (Tree.node yc (Tree.node xc a x xv b) y yv c)).addrs.Nodup ∧
      (P.fill (Tree.node yc (Tree.node xc a x xv b) y yv c)).addrs =
        (P.fill (Tree.node xc a x xv (Tree.node yc b y yv c))).addrs ∧
      SameOff (P.fill (Tree.node xc a x xv (Tree.node yc b y yv c))).addrs h h1 := by
  obtain ⟨h1, e, hr, hf, hn⟩ := rotate_left_focus_aux hrep hnd hroot
  have hA : (P.fill (Tree.node yc (Tree.node xc a x xv b) y yv c)).addrs =
      (P.fill (Tree.node xc a x xv (Tree.node yc b y yv c))).addrs :=
    Path.addrs_fill_congr P (by simp [Tree.addrs])
  exact ⟨h1, e, hr, hA ▸ hnd, hA, hf, hn⟩

theorem rotate_right_focus {h : Heap α} {nil root : Nat} {P : Path α}
    {xc yc : rb_tree_node_color} {a b c : Tree α} {x y : Nat} {xv yv : α}
    (hrep : Rep h nil (P.fill (Tree.node xc (Tree.node yc a y yv b) x xv c)) nil)
    (hnd : (P.fill (Tree.node xc (Tree.node yc a y yv b) x xv c)).addrs.Nodup)
    (hroot : root = (P.fill (Tree.node xc (Tree.node yc a y yv b) x xv c)).ptr nil) :
    ∃ h1, _rotate_right h root nil x =
        some (h1, (P.fill (Tree.node yc a y yv (Tree.node xc b x xv c))).ptr nil) ∧
      Rep h1 nil (P.fill (Tree.node yc a y yv (Tree.node xc b x xv c))) nil ∧
      (P.fill (Tree.node yc a y yv (Tree.node xc b x xv c))).addrs.Nodup ∧
      (P.fill (Tree.node yc a y yv (Tree.node xc b x xv c))).addrs =
        (P.fill (Tree.node xc (Tree.node yc a y yv b) x xv c)).addrs ∧
      SameOff (P.fill (Tree.node xc (Tree.node yc a y yv b) x xv c)).addrs h h1 := by
  obtain ⟨h1, e, hr, hf, hn⟩ := rotate_right_focus_aux hrep hnd hroot
  have hA : (P.fill (Tree.node yc a y yv (Tree.node xc b x xv c))).addrs =
      (P.fill (Tree.node xc (Tree.node yc a y yv b) x xv c)).addrs :=
    Path.addrs_fill_congr P (by simp [Tree.addrs])
  exact ⟨h1, e, hr, hA ▸ hnd, hA, hf, hn⟩

theorem fixupT_top (zt : Tree α) : fixupT Path.top zt = zt := by
  simp [fixupT, Path.fill]

theorem fixupT_left_black (p : Nat) (pv : α) (pr : Tree α) (up : Path α) (zt : Tree α) :
    fixupT (Path.left Black p pv pr up) zt = (Path.left Black p pv pr up).fill zt := by
  simp [fixupT]

theorem fixupT_right_black (pl : Tree α) (p : Nat) (pv : α) (up : Path α) (zt : Tree α) :
    fixupT (Path.right Black pl p pv up) zt = (Path.right Black pl p pv up).fill zt := by
  simp [fixupT]

theorem fixupT_ll_red (p : Nat) (pv : α) (pr : Tree α) (gc : rb_tree_node_color) (g : Nat)
    (gv : α) (ul : Tree α) (ua : Nat) (uv : α) (ur : Tree α) (up : Path α) (zt : Tree α) :
    fixupT (Path.left Red p pv pr (Path.left gc g gv (Tree.node Red ul ua uv ur) up)) zt =
      fixupT up (Tree.node Red (Tree.node Black zt p pv pr) g gv (Tree.node Black ul ua uv ur)) := by
  simp [fixupT]

theorem fixupT_ll_black (p : Nat) (pv : α) (pr : Tree α) (gc : rb_tree_node_color) (g : Nat)
    (gv : α) (u : Tree α) (up : Path α) (zt : Tree α) (e : u.rootColor = Black) :
    fixupT (Path.left Red p pv pr (Path.left gc g gv u up)) zt =
      up.fill (Tree.node Black zt p pv (Tree.node Red pr g gv u)) := by
  cases u with
  | leaf => simp [fixupT]
  | node uc ul ua uv ur =>
    cases uc with
    | Red => simp [Tree.rootColor] at e
    | Black => simp [fixupT]

theorem fixupT_rl_red (pl : Tree α) (p : Nat) (pv : α) (gc : rb_tree_node_color) (g : Nat)
    (gv : α) (ul : Tree α) (ua : Nat) (uv : α) (ur : Tree α) (up : Path α) (zt : Tree α) :
    fixupT (Path.right Red pl p pv (Path.left gc g gv (Tree.node Red ul ua uv ur) up)) zt =
      fixupT up (Tree.node Red (Tree.node Black pl p pv zt) g gv (Tree.node Black ul ua uv ur)) := by
  simp [fixupT]

theorem fixupT_rl_black (pl : Tree α) (p : Nat) (pv : α) (gc : rb_tree_node_color) (g : Nat)
    (gv : α) (u : Tree α) (up : Path α) (zc : rb_tree_node_color) (zl : Tree α) (z : Nat) (zv : α)
    (zr : Tree α) (e : u.rootColor = Black) :
    fixupT (Path.right Red pl p pv (Path.left gc g gv u up)) (Tree.node zc zl z zv zr) =
      up.fill (Tree.node Black (Tree.node Red pl p pv zl) z zv (Tree.node Red zr g gv u)) := by
  cases u with
  | leaf => simp [fixupT]
  | node uc ul ua uv ur =>
    cases uc with
    | Red => simp [Tree.rootColor] at e
    | Black => simp [fixupT]

theorem fixupT_lr_red (p : Nat) (pv : α) (pr : Tree α) (gc : rb_tree_node_color) (g : Nat)
    (gv : α) (ul : Tree α) (ua : Nat) (uv : α) (ur : Tree α) (up : Path α) (zt : Tree α) :
    fixupT (Path.left Red p pv pr (Path.right gc (Tree.node Red ul ua uv ur) g gv up)) zt =
      fixupT up (Tree.node Red (Tree.node Black ul ua uv ur) g gv (Tree.node Black zt p pv pr)) := by
  simp [fixupT]

theorem fixupT_lr_black (p : Nat) (pv : α) (pr : Tree α) (gc : rb_tree_node_color) (g : Nat)
    (gv : α) (u : Tree α) (up : Path α) (zc : rb_tree_node_color) (zl : Tree α) (z : Nat) (zv : α)
    (zr : Tree α) (e : u.rootColor = Black) :
    fixupT (Path.left Red p pv pr (Path.right gc u g gv up)) (Tree.node zc zl z zv zr) =
      up.fill (Tree.node Black (Tree.node Red u g gv zl) z zv (Tree.node Red zr p pv pr)) := by
  cases u with
  | leaf => simp [fixupT]
  | node uc ul ua uv ur =>
    cases uc with
    | Red => simp [Tree.rootColor] at e
    | Black => simp [fixupT]

theorem fixupT_rr_red (pl : Tree α) (p : Nat) (pv : α) (gc : rb_tree_node_color) (g : Nat)
    (gv : α) (ul : Tree α) (ua : Nat) (uv : α) (ur : Tree α) (up : Path α) (zt : Tree α) :
    fixupT (Path.right Red pl p pv (Path.right gc (Tree.node Red ul ua uv ur) g gv up)) zt =
      fixupT up (Tree.node Red (Tree.node Black ul ua uv ur) g gv (Tree.node Black pl p pv zt)) := by
  simp [fixupT]

theorem fixupT_rr_black (pl : Tree α) (p : Nat) (pv : α) (gc : rb_tree_node_color) (g : Nat)
    (gv : α) (u : Tree α) (up : Path α) (zt : Tree α) (e : u.rootColor = Black) :
    fixupT (Path.right Red pl p pv (Path.right gc u g gv up)) zt =
      up.fill (Tree.node Black (Tree.node Red u g gv pl) p pv zt) := by
  cases u with
  | leaf => simp [fixupT]
  | node uc ul ua uv ur =>
    cases uc with
    | Red => simp [Tree.rootColor] at e
    | Black => simp [fixupT]

/-- The colour read through the pointer to a tree is the colour of its root. -/
theorem read_ptr_color {h : Heap α} {nil : Nat} {u : Tree α} {par : Nat}
    (hs : h.read nil = some ⟨0, 0, 0, Black, none⟩) (hu : Rep h nil u par) :
    ∃ un, h.read (u.ptr nil) = some un ∧ un._color = u.rootColor := by
  cases u with
  | leaf => exact ⟨_, hs, rfl⟩
  | node uc ul ua uv ur => exact ⟨_, hu.2.1, rfl⟩

theorem SameOff.congr {A B : List Nat} {h h1 : Heap α} (e : A = B) (hso : SameOff A h h1) :
    SameOff B h h1 := e ▸ hso

set_option maxHeartbeats 1000000 in
theorem fixup_loop_refines {nil : Nat} (n : Nat) :
    ∀ (path : Path α) (zc : rb_tree_node_color) (zl : Tree α) (z : Nat) (zv : α) (zr : Tree α)
      (h : Heap α) (root fuel : Nat),
      path.depth ≤ n → path.RootBlack →
      h.read nil = some ⟨0, 0, 0, Black, none⟩ →
      Rep h nil (path.fill (Tree.node zc zl z zv zr)) nil →
      (path.fill (Tree.node zc zl z zv zr)).addrs.Nodup →
      root = (path.fill (Tree.node zc zl z zv zr)).ptr nil →
      path.depth + 2 ≤ fuel →
      ∃ h1, _insert_fixup_loop nil fuel h root z =
          some (h1, (fixupT path (Tree.node zc zl z zv zr)).ptr nil) ∧
        Rep h1 nil (fixupT path (Tree.node zc zl z zv zr)) nil ∧
        SameOff (path.fill (Tree.node zc zl z zv zr)).addrs h h1 := by
  induction n using Nat.strong_induction_on with
  | _ n ih =>
    intro path zc zl z zv zr h root fuel hd hrb hs hrep hnd hroot hfuel
    obtain ⟨f, rfl⟩ : ∃ f, fuel = f + 1 := ⟨fuel - 1, by omega⟩
    have hz := read_focus hrep
    cases path with
    | top =>
      refine ⟨h, ?_, by simpa [fixupT_top] using hrep, SameOff.refl _ _⟩
      rw [_insert_fixup_loop]
      simp [hz, hs, fixupT_top, hroot, Path.fill]
    | left pc p pv pr up =>
      have hp := read_focus (P := up) hrep
      cases pc with
      | Black =>
        refine ⟨h, ?_, by simpa [fixupT_left_black] using hrep, SameOff.refl _ _⟩
        rw [_insert_fixup_loop]
        simp [hz, hp, fixupT_left_black, hroot]
      | Red =>
        cases up with
        | top => exact absurd hrb (by simp [Path.RootBlack])
        | left gc g gv u up2 =>
          have hg := read_focus (P := up2) hrep
          have hu : Rep h nil u g := ((rep_fill up2 _).1 hrep).2.2.2.2
          obtain ⟨un, hun, hucol⟩ := read_ptr_color hs hu
          have hnil := Rep.nil_not_mem hrep
          have hzn : z ≠ nil := ((rep_fill _ _).1 hrep).2.1
          have hpn : p ≠ nil := ((rep_fill (Path.left gc g gv u up2) _).1 hrep).2.1
          have hmem := (Path.nodup_fill _ _).1 hnd
          simp only [Tree.addrs, Path.addrs, List.nodup_append, List.nodup_cons,
    List.mem_append, List.mem_cons, not_or, List.cons_append, List.append_assoc,
    List.disjoint_cons_left, List.disjoint_cons_right, List.disjoint_append_left,
    List.disjoint_append_right] at hmem
          by_cases hur : u.rootColor = Red
          · obtain ⟨ul, ua, uv, ur, rfl⟩ : ∃ ul ua uv ur, u = Tree.node Red ul ua uv ur := by
              cases u with
              | leaf => simp [Tree.rootColor] at hur
              | node uc ul ua uv ur =>
                exact ⟨ul, ua, uv, ur, by simp [Tree.rootColor] at hur; rw [hur]⟩
            obtain ⟨h1, hm1, hrep1, hnd1, eA1, hso1⟩ :=
              recolor_focus (P := (Path.left gc g gv (Tree.node Red ul ua uv ur) up2)) Black hrep hnd
            obtain ⟨h2, hm2, hrep2, hnd2, eA2, hso2⟩ :=
              recolor_focus (P := (Path.right gc (Tree.node Black (Tree.node zc zl z zv zr) p pv pr) g gv up2)) Black hrep1 hnd1
            obtain ⟨h3, hm3, hrep3, hnd3, eA3, hso3⟩ :=
              recolor_focus (P := up2) Red hrep2 hnd2
            have c2 := hso1.trans (SameOff.congr eA1 hso2)
            have c3 := c2.trans (SameOff.congr (eA2.trans eA1) hso3)
            have e3 := eA3.trans (eA2.trans eA1)
            have hs3 := c3.sentinel hnil hs
            have hroot3 : root = (up2.fill (Tree.node Red (Tree.node Black (Tree.node zc zl z zv zr) p pv pr) g gv (Tree.node Black ul ua uv ur))).ptr nil :=
              hroot.trans (Path.ptr_fill_congr nil up2 rfl)
            obtain ⟨h4, hl4, hrep4, hso4⟩ := ih (n - 2) (by simp [Path.depth] at hd; omega) up2
              Red (Tree.node Black (Tree.node zc zl z zv zr) p pv pr) g gv (Tree.node Black ul ua uv ur)
              h3 root f (by simp [Path.depth] at hd; omega)
              (by cases up2 <;> simp_all [Path.RootBlack]) hs3 hrep3 hnd3 hroot3
              (by simp [Path.depth] at hfuel ⊢; omega)
            simp only [Tree.ptr_node, Tree.rootColor] at hun hucol
            refine ⟨h4, ?_, by rw [fixupT_ll_red]; exact hrep4,
              c3.trans (SameOff.congr e3 hso4)⟩
            rw [_insert_fixup_loop]
            simp [hz, hp, hg, hun, hucol, hm1, hm2, hm3, hl4, fixupT_ll_red]
          · have hub : u.rootColor = Black := by
              cases hc : u.rootColor with
              | Red => exact absurd hc hur
              | Black => rfl
            rw [hub] at hucol
            obtain ⟨h1, hm1, hrep1, hnd1, eA1, hso1⟩ :=
              recolor_focus (P := (Path.left gc g gv u up2)) Black hrep hnd
            obtain ⟨h2, hm2, hrep2, hnd2, eA2, hso2⟩ :=
              recolor_focus (P := up2) Red hrep1 hnd1
            have c2 := hso1.trans (SameOff.congr eA1 hso2)
            have hroot2 : root = (up2.fill (Tree.node Red (Tree.node Black (Tree.node zc zl z zv zr) p pv pr) g gv u)).ptr nil :=
              hroot.trans (Path.ptr_fill_congr nil up2 rfl)
            obtain ⟨h3, hm3, hrep3, hnd3, eA3, hso3⟩ := rotate_right_focus hrep2 hnd2 hroot2
            have c3 := c2.trans (SameOff.congr (eA2.trans eA1) hso3)
            have hzs : z ≠ pr.ptr nil := Tree.ptr_ne hzn (by tauto)
            have hzF := read_focus (P := (Path.left Black p pv (Tree.node Red pr g gv u) up2)) hrep3
            have hpF := read_focus (P := up2) hrep3
            obtain ⟨f2, rfl⟩ : ∃ f2, f = f2 + 1 := ⟨f - 1, by simp [Path.depth] at hfuel; omega⟩
            refine ⟨h3, ?_, by rw [fixupT_ll_black (e := hub)]; exact hrep3, c3⟩
            rw [_insert_fixup_loop]
            simp [hz, hp, hg, hun, hucol, hm1, hm2, hm3, hzs, fixupT_ll_black (e := hub)]
            rw [_insert_fixup_loop]
            simp [hzF, hpF]
        | right gc u g gv up2 =>
          have hg := read_focus (P := up2) hrep
          have hu : Rep h nil u g := ((rep_fill up2 _).1 hrep).2.2.2.1
          obtain ⟨un, hun, hucol⟩ := read_ptr_color hs hu
          have hnil := Rep.nil_not_mem hrep
          have hzn : z ≠ nil := ((rep_fill _ _).1 hrep).2.1
          have hpn : p ≠ nil := ((rep_fill (Path.right gc u g gv up2) _).1 hrep).2.1
          have hmem := (Path.nodup_fill _ _).1 hnd
          simp only [Tree.addrs, Path.addrs, List.nodup_append, List.nodup_cons,
    List.mem_append, List.mem_cons, not_or, List.cons_append, List.append_assoc,
    List.disjoint_cons_left, List.disjoint_cons_right, List.disjoint_append_left,
    List.disjoint_append_right] at hmem
          have hpu : p ≠ u.ptr nil := Tree.ptr_ne hpn (by tauto)
          by_cases hur : u.rootColor = Red
          · obtain ⟨ul, ua, uv, ur, rfl⟩ : ∃ ul ua uv ur, u = Tree.node Red ul ua uv ur := by
              cases u with
              | leaf => simp [Tree.rootColor] at hur
              | node uc ul ua uv ur =>
                exact ⟨ul, ua, uv, ur, by simp [Tree.rootColor] at hur; rw [hur]⟩
            obtain ⟨h1, hm1, hrep1, hnd1, eA1, hso1⟩ :=
              recolor_focus (P := (Path.right gc (Tree.node Red ul ua uv ur) g gv up2)) Black hrep hnd
            obtain ⟨h2, hm2, hrep2, hnd2, eA2, hso2⟩ :=
              recolor_focus (P := (Path.left gc g gv (Tree.node Black (Tree.node zc zl z zv zr) p pv pr) up2)) Black hrep1 hnd1
            obtain ⟨h3, hm3, hrep3, hnd3, eA3, hso3⟩ :=
              recolor_focus (P := up2) Red hrep2 hnd2
            have c2 := hso1.trans (SameOff.congr eA1 hso2)
            have c3 := c2.trans (SameOff.congr (eA2.trans eA1) hso3)
            have e3 := eA3.trans (eA2.trans eA1)
            have hs3 := c3.sentinel hnil hs
            have hroot3 : root = (up2.fill (Tree.node Red (Tree.node Black ul ua uv ur) g gv (Tree.node Black (Tree.node zc zl z zv zr) p pv pr))).ptr nil :=
              hroot.trans (Path.ptr_fill_congr nil up2 rfl)
            obtain ⟨h4, hl4, hrep4, hso4⟩ := ih (n - 2) (by simp [Path.depth] at hd; omega) up2
              Red (Tree.node Black ul ua uv ur) g gv (Tree.node Black (Tree.node zc zl z zv zr) p pv pr)
              h3 root f (by simp [Path.depth] at hd; omega)
              (by cases up2 <;> simp_all [Path.RootBlack]) hs3 hrep3 hnd3 hroot3
              (by simp [Path.depth] at hfuel ⊢; omega)
            simp only [Tree.ptr_node, Tree.rootColor] at hun hucol hpu
            refine ⟨h4, ?_, by rw [fixupT_lr_red]; exact hrep4,
              c3.trans (SameOff.congr e3 hso4)⟩
            rw [_insert_fixup_loop]
            simp [hz, hp, hg, hun, hucol, hm1, hm2, hm3, hl4, fixupT_lr_red, hpu]
          · have hub : u.rootColor = Black := by
              cases hc : u.rootColor with
              | Red => exact absurd hc hur
              | Black => rfl
            rw [hub] at hucol
            have hroot0 : root = ((Path.right gc u g gv up2).fill (Tree.node Red (Tree.node zc zl z zv zr) p pv pr)).ptr nil := hroot
            obtain ⟨h1, hm1, hrep1, hnd1, eA1, hso1⟩ := rotate_right_focus (P := (Path.right gc u g gv up2)) hrep hnd hroot0
            have hp1 := read_focus (P := (Path.right zc zl z zv (Path.right gc u g gv up2))) hrep1
            obtain ⟨h2, hm2, hrep2, hnd2, eA2, hso2⟩ :=
              recolor_focus (P := (Path.right gc u g gv up2)) Black hrep1 hnd1
            obtain ⟨h3, hm3, hrep3, hnd3, eA3, hso3⟩ :=
              recolor_focus (P := up2) Red hrep2 hnd2
            have c2 := hso1.trans (SameOff.congr eA1 hso2)
            have c3 := c2.trans (SameOff.congr (eA2.trans eA1) hso3)
            have hroot3 : ((Path.right gc u g gv up2).fill (Tree.node zc zl z zv (Tree.node Red zr p pv pr))).ptr nil =
                (up2.fill (Tree.node Red u g gv (Tree.node Black zl z zv (Tree.node Red zr p pv pr)))).ptr nil :=
              Path.ptr_fill_congr nil up2 rfl
            obtain ⟨h4, hm4, hrep4, hnd4, eA4, hso4⟩ := rotate_left_focus hrep3 hnd3 hroot3
            have c4 := c3.trans (SameOff.congr (eA3.trans (eA2.trans eA1)) hso4)
            have hpF := read_focus (P := (Path.right Black (Tree.node Red u g gv zl) z zv up2)) hrep4
            have hzF := read_focus (P := up2) hrep4
            obtain ⟨f2, rfl⟩ : ∃ f2, f = f2 + 1 := ⟨f - 1, by simp [Path.depth] at hfuel; omega⟩
            refine ⟨h4, ?_, by rw [fixupT_lr_black (e := hub)]; exact hrep4, c4⟩
            rw [_insert_fixup_loop]
            simp [hz, hp, hg, hun, hucol, hm1, hp1, hm2, hm3, hm4, fixupT_lr_black (e := hub), hpu]
            rw [_insert_fixup_loop]
            simp [hzF, hpF]
    | right pc pl p pv up =>
      have hp := read_focus (P := up) hrep
      cases pc with
      | Black =>
        refine ⟨h, ?_, by simpa [fixupT_right_black] using hrep, SameOff.refl _ _⟩
        rw [_insert_fixup_loop]
        simp [hz, hp, fixupT_right_black, hroot]
      | Red =>
        cases up with
        | top => exact absurd hrb (by simp [Path.RootBlack])
        | left gc g gv u up2 =>
          have hg := read_focus (P := up2) hrep
          have hu : Rep h nil u g := ((rep_fill up2 _).1 hrep).2.2.2.2
          obtain ⟨un, hun, hucol⟩ := read_ptr_color hs hu
          have hnil := Rep.nil_not_mem hrep
          have hzn : z ≠ nil := ((rep_fill _ _).1 hrep).2.1
          have hpn : p ≠ nil := ((rep_fill (Path.left gc g gv u up2) _).1 hrep).2.1
          have hmem := (Path.nodup_fill _ _).1 hnd
          simp only [Tree.addrs, Path.addrs, List.nodup_append, List.nodup_cons,
    List.mem_append, List.mem_cons, not_or, List.cons_append, List.append_assoc,
    List.disjoint_cons_left, List.disjoint_cons_right, List.disjoint_append_left,
    List.disjoint_append_right] at hmem
          by_cases hur : u.rootColor = Red
          · obtain ⟨ul, ua, uv, ur, rfl⟩ : ∃ ul ua uv ur, u = Tree.node Red ul ua uv ur := by
              cases u with
              | leaf => simp [Tree.rootColor] at hur
              | node uc ul ua uv ur =>
                exact ⟨ul, ua, uv, ur, by simp [Tree.rootColor] at hur; rw [hur]⟩
            obtain ⟨h1, hm1, hrep1, hnd1, eA1, hso1⟩ :=
              recolor_focus (P := (Path.left gc g gv (Tree.node Red ul ua uv ur) up2)) Black hrep hnd
            obtain ⟨h2, hm2, hrep2, hnd2, eA2, hso2⟩ :=
              recolor_focus (P := (Path.right gc (Tree.node Black pl p pv (Tree.node zc zl z zv zr)) g gv up2)) Black hrep1 hnd1
            obtain ⟨h3, hm3, hrep3, hnd3, eA3, hso3⟩ :=
              recolor_focus (P := up2) Red hrep2 hnd2
            have c2 := hso1.trans (SameOff.congr eA1 hso2)
            have c3 := c2.trans (SameOff.congr (eA2.trans eA1) hso3)
            have e3 := eA3.trans (eA2.trans eA1)
            have hs3 := c3.sentinel hnil hs
            have hroot3 : root = (up2.fill (Tree.node Red (Tree.node Black pl p pv (Tree.node zc zl z zv zr)) g gv (Tree.node Black ul ua uv ur))).ptr nil :=
              hroot.trans (Path.ptr_fill_congr nil up2 rfl)
            obtain ⟨h4, hl4, hrep4, hso4⟩ := ih (n - 2) (by simp [Path.depth] at hd; omega) up2
              Red (Tree.node Black pl p pv (Tree.node zc zl z zv zr)) g gv (Tree.node Black ul ua uv ur)
              h3 root f (by simp [Path.depth] at hd; omega)
              (by cases up2 <;> simp_all [Path.RootBlack]) hs3 hrep3 hnd3 hroot3
              (by simp [Path.depth] at hfuel ⊢; omega)
            simp only [Tree.ptr_node, Tree.rootColor] at hun hucol
            refine ⟨h4, ?_, by rw [fixupT_rl_red]; exact hrep4,
              c3.trans (SameOff.congr e3 hso4)⟩
            rw [_insert_fixup_loop]
            simp [hz, hp, hg, hun, hucol, hm1, hm2, hm3, hl4, fixupT_rl_red]
          · have hub : u.rootColor = Black := by
              cases hc : u.rootColor with
              | Red => exact absurd hc hur
              | Black => rfl
            rw [hub] at hucol
            have hroot0 : root = ((Path.left gc g gv u up2).fill (Tree.node Red pl p pv (Tree.node zc zl z zv zr))).ptr nil := hroot
            obtain ⟨h1, hm1, hrep1, hnd1, eA1, hso1⟩ := rotate_left_focus (P := (Path.left gc g gv u up2)) hrep hnd hroot0
            have hp1 := read_focus (P := (Path.left zc z zv zr (Path.left gc g gv u up2))) hrep1
            obtain ⟨h2, hm2, hrep2, hnd2, eA2, hso2⟩ :=
              recolor_focus (P := (Path.left gc g gv u up2)) Black hrep1 hnd1
            obtain ⟨h3, hm3, hrep3, hnd3, eA3, hso3⟩ :=
              recolor_focus (P := up2) Red hrep2 hnd2
            have c2 := hso1.trans (SameOff.congr eA1 hso2)
            have c3 := c2.trans (SameOff.congr (eA2.trans eA1) hso3)
            have hroot3 : ((Path.left gc g gv u up2).fill (Tree.node zc (Tree.node Red pl p pv zl) z zv zr)).ptr nil =
                (up2.fill (Tree.node Red (Tree.node Black (Tree.node Red pl p pv zl) z zv zr) g gv u)).ptr nil :=
              Path.ptr_fill_congr nil up2 rfl
            obtain ⟨h4, hm4, hrep4, hnd4, eA4, hso4⟩ := rotate_right_focus hrep3 hnd3 hroot3
            have c4 := c3.trans (SameOff.congr (eA3.trans (eA2.trans eA1)) hso4)
            have hpF := read_focus (P := (Path.left Black z zv (Tree.node Red zr g gv u) up2)) hrep4
            have hzF := read_focus (P := up2) hrep4
            obtain ⟨f2, rfl⟩ : ∃ f2, f = f2 + 1 := ⟨f - 1, by simp [Path.depth] at hfuel; omega⟩
            refine ⟨h4, ?_, by rw [fixupT_rl_black (e := hub)]; exact hrep4, c4⟩
            rw [_insert_fixup_loop]
            simp [hz, hp, hg, hun, hucol, hm1, hp1, hm2, hm3, hm4, fixupT_rl_black (e := hub)]
            rw [_insert_fixup_loop]
            simp [hzF, hpF]
        | right gc u g gv up2 =>
          have hg := read_focus (P := up2) hrep
          have hu : Rep h nil u g := ((rep_fill up2 _).1 hrep).2.2.2.1
          obtain ⟨un, hun, hucol⟩ := read_ptr_color hs hu
          have hnil := Rep.nil_not_mem hrep
          have hzn : z ≠ nil := ((rep_fill _ _).1 hrep).2.1
          have hpn : p ≠ nil := ((rep_fill (Path.right gc u g gv up2) _).1 hrep).2.1
          have hmem := (Path.nodup_fill _ _).1 hnd
          simp only [Tree.addrs, Path.addrs, List.nodup_append, List.nodup_cons,
    List.mem_append, List.mem_cons, not_or, List.cons_append, List.append_assoc,
    List.disjoint_cons_left, List.disjoint_cons_right, List.disjoint_append_left,
    List.disjoint_append_right] at hmem
          have hpu : p ≠ u.ptr nil := Tree.ptr_ne hpn (by tauto)
          by_cases hur : u.rootColor = Red
          · obtain ⟨ul, ua, uv, ur, rfl⟩ : ∃ ul ua uv ur, u = Tree.node Red ul ua uv ur := by
              cases u with
              | leaf => simp [Tree.rootColor] at hur
              | node uc ul ua uv ur =>
                exact ⟨ul, ua, uv, ur, by simp [Tree.rootColor] at hur; rw [hur]⟩
            obtain ⟨h1, hm1, hrep1, hnd1, eA1, hso1⟩ :=
              recolor_focus (P := (Path.right gc (Tree.node Red ul ua uv ur) g gv up2)) Black hrep hnd
            obtain ⟨h2, hm2, hrep2, hnd2, eA2, hso2⟩ :=
              recolor_focus (P := (Path.left gc g gv (Tree.node Black pl p pv (Tree.node zc zl z zv zr)) up2)) Black hrep1 hnd1
            obtain ⟨h3, hm3, hrep3, hnd3, eA3, hso3⟩ :=
              recolor_focus (P := up2) Red hrep2 hnd2
            have c2 := hso1.trans (SameOff.congr eA1 hso2)
            have c3 := c2.trans (SameOff.congr (eA2.trans eA1) hso3)
            have e3 := eA3.trans (eA2.trans eA1)
            have hs3 := c3.sentinel hnil hs
            have hroot3 : root = (up2.fill (Tree.node Red (Tree.node Black ul ua uv ur) g gv (Tree.node Black pl p pv (Tree.node zc zl z zv zr)))).ptr nil :=
              hroot.trans (Path.ptr_fill_congr nil up2 rfl)
            obtain ⟨h4, hl4, hrep4, hso4⟩ := ih (n - 2) (by simp [Path.depth] at hd; omega) up2
              Red (Tree.node Black ul ua uv ur) g gv (Tree.node Black pl p pv (Tree.node zc zl z zv zr))
              h3 root f (by simp [Path.depth] at hd; omega)
              (by cases up2 <;> simp_all [Path.RootBlack]) hs3 hrep3 hnd3 hroot3
              (by simp [Path.depth] at hfuel ⊢; omega)
            simp only [Tree.ptr_node, Tree.rootColor] at hun hucol hpu
            refine ⟨h4, ?_, by rw [fixupT_rr_red]; exact hrep4,
              c3.trans (SameOff.congr e3 hso4)⟩
            rw [_insert_fixup_loop]
            simp [hz, hp, hg, hun, hucol, hm1, hm2, hm3, hl4, fixupT_rr_red, hpu]
          · have hub : u.rootColor = Black := by
              cases hc : u.rootColor with
              | Red => exact absurd hc hur
              | Black => rfl
            rw [hub] at hucol
            obtain ⟨h1, hm1, hrep1, hnd1, eA1, hso1⟩ :=
              recolor_focus (P := (Path.right gc u g gv up2)) Black hrep hnd
            obtain ⟨h2, hm2, hrep2, hnd2, eA2, hso2⟩ :=
              recolor_focus (P := up2) Red hrep1 hnd1
            have c2 := hso1.trans (SameOff.congr eA1 hso2)
            have hroot2 : root = (up2.fill (Tree.node Red u g gv (Tree.node Black pl p pv (Tree.node zc zl z zv zr)))).ptr nil :=
              hroot.trans (Path.ptr_fill_congr nil up2 rfl)
            obtain ⟨h3, hm3, hrep3, hnd3, eA3, hso3⟩ := rotate_left_focus hrep2 hnd2 hroot2
            have c3 := c2.trans (SameOff.congr (eA2.trans eA1) hso3)
            have hzs : z ≠ pl.ptr nil := Tree.ptr_ne hzn (by tauto)
            have hzF := read_focus (P := (Path.right Black (Tree.node Red u g gv pl) p pv up2)) hrep3
            have hpF := read_focus (P := up2) hrep3
            obtain ⟨f2, rfl⟩ : ∃ f2, f = f2 + 1 := ⟨f - 1, by simp [Path.depth] at hfuel; omega⟩
            refine ⟨h3, ?_, by rw [fixupT_rr_black (e := hub)]; exact hrep3, c3⟩
            rw [_insert_fixup_loop]
            simp [hz, hp, hg, hun, hucol, hm1, hm2, hm3, hzs, fixupT_rr_black (e := hub), hpu]
            rw [_insert_fixup_loop]
            simp [hzF, hpF]

theorem Tree.rootColor_black_of_not_red {u : Tree α}
    (hu : ∀ (ul : Tree α) (ua : ℕ) (uv : α) (ur : Tree α), u = Tree.node Red ul ua uv ur → False) :
    u.rootColor = Black := by
  cases u with
  | leaf => rfl
  | node uc ul ua uv ur =>
    cases uc with
    | Red => exact (hu ul ua uv ur rfl).elim
    | Black => rfl

/-- Case analysis following the fix-up: the four recolouring steps that move two
levels up, the four rotation endings, and the positions where the loop stops at once. -/
theorem fixupT_ind (motive : Path α → Tree α → Prop)
    (ll_red : ∀ p pv pr gc g gv ul ua uv ur up zt,
      motive up (Tree.node Red (Tree.node Black zt p pv pr) g gv (Tree.node Black ul ua uv ur)) →
      motive (Path.left Red p pv pr (Path.left gc g gv (Tree.node Red ul ua uv ur) up)) zt)
    (rl_red : ∀ pl p pv gc g gv ul ua uv ur up zt,
      motive up (Tree.node Red (Tree.node Black pl p pv zt) g gv (Tree.node Black ul ua uv ur)) →
      motive (Path.right Red pl p pv (Path.left gc g gv (Tree.node Red ul ua uv ur) up)) zt)
    (lr_red : ∀ p pv pr gc g gv ul ua uv ur up zt,
      motive up (Tree.node Red (Tree.node Black ul ua uv ur) g gv (Tree.node Black zt p pv pr)) →
      motive (Path.left Red p pv pr (Path.right gc (Tree.node Red ul ua uv ur) g gv up)) zt)
    (rr_red : ∀ pl p pv gc g gv ul ua uv ur up zt,
      motive up (Tree.node Red (Tree.node Black ul ua uv ur) g gv (Tree.node Black pl p pv zt)) →
      motive (Path.right Red pl p pv (Path.right gc (Tree.node Red ul ua uv ur) g gv up)) zt)
    (ll_black : ∀ p pv pr gc g gv u up zt, u.rootColor = Black →
      motive (Path.left Red p pv pr (Path.left gc g gv u up)) zt)
    (rl_black : ∀ pl p pv gc g gv u up zc zl z zv zr, u.rootColor = Black →
      motive (Path.right Red pl p pv (Path.left gc g gv u up)) (Tree.node zc zl z zv zr))
    (lr_black : ∀ p pv pr gc g gv u up zc zl z zv zr, u.rootColor = Black →
      motive (Path.left Red p pv pr (Path.right gc u g gv up)) (Tree.node zc zl z zv zr))
    (rr_black : ∀ pl p pv gc g gv u up zt, u.rootColor = Black →
      motive (Path.right Red pl p pv (Path.right gc u g gv up)) zt)
    (stop : ∀ path zt, fixupT path zt = path.fill zt →
      (path = Path.top ∨ (∃ p pv pr up, path = Path.left Black p pv pr up) ∨
        (∃ pl p pv up, path = Path.right Black pl p pv up) ∨
        (∃ p pv pr, path = Path.left Red p pv pr Path.top) ∨
        (∃ pl p pv, path = Path.right Red pl p pv Path.top) ∨ zt = Tree.leaf) →
      motive path zt) :
    ∀ path zt, motive path zt := by
  intro path zt
  induction path, zt using fixupT.induct with
  | case1 p pv pr c g gv up zt ul ua uv ur ih => exact ll_red _ _ _ _ _ _ _ _ _ _ _ _ ih
  | case2 p pv pr c g gv u up zt hu =>
    exact ll_black _ _ _ _ _ _ _ _ _ (Tree.rootColor_black_of_not_red hu)
  | case3 pl p pv gc g gv up zt ul ua uv ur ih => exact rl_red _ _ _ _ _ _ _ _ _ _ _ _ ih
  | case4 pl p pv gc g gv u up c zl z zv zr hu =>
    exact rl_black _ _ _ _ _ _ _ _ _ _ _ _ _ (Tree.rootColor_black_of_not_red hu)
  | case5 pl p pv gc g gv u up hu =>
    refine stop _ _ ?_ (by simp)
    have := Tree.rootColor_black_of_not_red hu
    cases u with
    | leaf => simp [fixupT]
    | node uc ul ua uv ur =>
      cases uc with
      | Red => simp [Tree.rootColor] at this
      | Black => simp [fixupT]
  | case6 p pv pr gc g gv up zt ul ua uv ur ih => exact lr_red _ _ _ _ _ _ _ _ _ _ _ _ ih
  | case7 p pv pr gc u g gv up c zl z zv zr hu =>
    exact lr_black _ _ _ _ _ _ _ _ _ _ _ _ _ (Tree.rootColor_black_of_not_red hu)
  | case8 p pv pr gc u g gv up hu =>
    refine stop _ _ ?_ (by simp)
    have := Tree.rootColor_black_of_not_red hu
    cases u with
    | leaf => simp [fixupT]
    | node uc ul ua uv ur =>
      cases uc with
      | Red => simp [Tree.rootColor] at this
      | Black => simp [fixupT]
  | case9 pl p pv c g gv up zt ul ua uv ur ih => exact rr_red _ _ _ _ _ _ _ _ _ _ _ _ ih
  | case10 pl p pv c u g gv up zt hu =>
    exact rr_black _ _ _ _ _ _ _ _ _ (Tree.rootColor_black_of_not_red hu)
  | case11 path zt h1 h2 h3 h4 =>
    cases path with
    | top => exact stop _ _ (fixupT_top _) (Or.inl rfl)
    | left pc p pv pr up =>
      cases pc with
      | Black => exact stop _ _ (fixupT_left_black _ _ _ _ _) (by simp)
      | Red =>
        cases up with
        | top => exact stop _ _ (by simp [fixupT]) (by simp)
        | left gc g gv u up2 => exact (h1 _ _ _ _ _ _ _ _ rfl).elim
        | right gc u g gv up2 => exact (h3 _ _ _ _ _ _ _ _ rfl).elim
    | right pc pl p pv up =>
      cases pc with
      | Black => exact stop _ _ (fixupT_right_black _ _ _ _ _) (by simp)
      | Red =>
        cases up with
        | top => exact stop _ _ (by simp [fixupT]) (by simp)
        | left gc g gv u up2 => exact (h2 _ _ _ _ _ _ _ _ rfl).elim
        | right gc u g gv up2 => exact (h4 _ _ _ _ _ _ _ _ rfl).elim

theorem Tree.addrs_eq_map : ∀ (t : Tree α), t.addrs = t.entries.map Prod.fst
  | Tree.leaf => rfl
  | Tree.node _ l a v r => by
    simp [Tree.addrs, Tree.entries, Tree.addrs_eq_map l, Tree.addrs_eq_map r]

theorem Tree.keys_eq_map : ∀ (t : Tree α), t.keys = t.entries.map Prod.snd
  | Tree.leaf => rfl
  | Tree.node _ l a v r => by
    simp [Tree.keys, Tree.entries, Tree.keys_eq_map l, Tree.keys_eq_map r]

theorem Tree.size_eq_length : ∀ (t : Tree α), t.size = t.entries.length
  | Tree.leaf => rfl
  | Tree.node _ l a v r => by
    simp [Tree.size, Tree.entries, Tree.size_eq_length l, Tree.size_eq_length r]
    omega

theorem Path.entries_fill_congr : ∀ (path : Path α) {t t1 : Tree α},
    t.entries = t1.entries → (path.fill t).entries = (path.fill t1).entries
  | Path.top, _, _, e => e
  | Path.left c a v r up, t, t1, e =>
    Path.entries_fill_congr up (by simp [Tree.entries, e])
  | Path.right c l a v up, t, t1, e =>
    Path.entries_fill_congr up (by simp [Tree.entries, e])

theorem fixupT_entries (path : Path α) (zt : Tree α) :
    (fixupT path zt).entries = (path.fill zt).entries := by
  induction path, zt using fixupT_ind with
  | ll_red p pv pr gc g gv ul ua uv ur up zt ih =>
    rw [fixupT_ll_red]
    exact ih.trans (Path.entries_fill_congr up (by simp [Tree.entries]))
  | rl_red pl p pv gc g gv ul ua uv ur up zt ih =>
    rw [fixupT_rl_red]
    exact ih.trans (Path.entries_fill_congr up (by simp [Tree.entries]))
  | lr_red p pv pr gc g gv ul ua uv ur up zt ih =>
    rw [fixupT_lr_red]
    exact ih.trans (Path.entries_fill_congr up (by simp [Tree.entries]))
  | rr_red pl p pv gc g gv ul ua uv ur up zt ih =>
    rw [fixupT_rr_red]
    exact ih.trans (Path.entries_fill_congr up (by simp [Tree.entries]))
  | ll_black p pv pr gc g gv u up zt hu =>
    rw [fixupT_ll_black (e := hu)]
    exact Path.entries_fill_congr up (by simp [Tree.entries])
  | rl_black pl p pv gc g gv u up zc zl z zv zr hu =>
    rw [fixupT_rl_black (e := hu)]
    exact Path.entries_fill_congr up (by simp [Tree.entries])
  | lr_black p pv pr gc g gv u up zc zl z zv zr hu =>
    rw [fixupT_lr_black (e := hu)]
    exact Path.entries_fill_congr up (by simp [Tree.entries])
  | rr_black pl p pv gc g gv u up zt hu =>
    rw [fixupT_rr_black (e := hu)]
    exact Path.entries_fill_congr up (by simp [Tree.entries])
  | stop path zt e _ => rw [e]

theorem Tree.entries_paint (c : rb_tree_node_color) : ∀ (t : Tree α), (t.paint c).entries = t.entries
  | Tree.leaf => rfl
  | Tree.node _ _ _ _ _ => rfl

theorem fixupT_addrs (path : Path α) (zt : Tree α) :
    (fixupT path zt).addrs = (path.fill zt).addrs := by
  rw [Tree.addrs_eq_map, Tree.addrs_eq_map, fixupT_entries]

theorem fixupT_keys (path : Path α) (zt : Tree α) :
    (fixupT path zt).keys = (path.fill zt).keys := by
  rw [Tree.keys_eq_map, Tree.keys_eq_map, fixupT_entries]

/-! ### Colour invariants along a path -/

@[simp] theorem Tree.rootColor_leaf : (Tree.leaf : Tree α).rootColor = Black := rfl

@[simp] theorem Tree.rootColor_node (c : rb_tree_node_color) (l : Tree α) (a : Nat) (v : α)
    (r : Tree α) : (Tree.node c l a v r).rootColor = c := rfl

@[simp] theorem Path.color_top : (Path.top : Path α).color = Black := rfl

@[simp] theorem Path.color_left (c : rb_tree_node_color) (a : Nat) (v : α) (r : Tree α)
    (up : Path α) : (Path.left c a v r up).color = c := rfl

@[simp] theorem Path.color_right (c : rb_tree_node_color) (l : Tree α) (a : Nat) (v : α)
    (up : Path α) : (Path.right c l a v up).color = c := rfl

theorem Path.balanced_fill : ∀ (path : Path α) (t : Tree α),
    (path.fill t).Balanced ↔ path.Balanced t.blackHeight ∧ t.Balanced
  | Path.top, t => by simp [Path.fill, Path.Balanced]
  | Path.left c a v r up, t => by
    rw [Path.fill, Path.balanced_fill up]
    simp only [Path.Balanced, Tree.Balanced, Tree.blackHeight]
    constructor
    · rintro ⟨h1, h2, h3, h4⟩
      exact ⟨⟨h3, h4.symm, h1⟩, h2⟩
    · rintro ⟨⟨h1, h2, h3⟩, h4⟩
      exact ⟨h3, h4, h1, h2.symm⟩
  | Path.right c l a v up, t => by
    rw [Path.fill, Path.balanced_fill up]
    simp only [Path.Balanced, Tree.Balanced, Tree.blackHeight]
    constructor
    · rintro ⟨h1, h2, h3, h4⟩
      refine ⟨⟨h2, h4, ?_⟩, h3⟩
      rw [← h4]; exact h1
    · rintro ⟨⟨h1, h2, h3⟩, h4⟩
      refine ⟨?_, h1, h4, h2⟩
      rw [h2]; exact h3

theorem Path.noRedRed_fill : ∀ (path : Path α) (t : Tree α),
    (path.fill t).NoRedRed ↔
      path.NoRedRed ∧ t.NoRedRed ∧ (path.color = Red → t.rootColor = Black)
  | Path.top, t => by simp [Path.fill, Path.NoRedRed]
  | Path.left c a v r up, t => by
    rw [Path.fill, Path.noRedRed_fill up]
    simp only [Path.NoRedRed, Tree.NoRedRed, Tree.rootColor_node, Path.color_left]
    generalize up.color = uc
    cases c <;> cases uc <;> simp <;> tauto
  | Path.right c l a v up, t => by
    rw [Path.fill, Path.noRedRed_fill up]
    simp only [Path.NoRedRed, Tree.NoRedRed, Tree.rootColor_node, Path.color_right]
    generalize up.color = uc
    cases c <;> cases uc <;> simp <;> tauto

theorem Path.rootBlack_of_fill : ∀ (path : Path α) (t : Tree α),
    (path.fill t).rootColor = Black → path.RootBlack
  | Path.top, _, _ => trivial
  | Path.left c a v r Path.top, t, h => by simpa [Path.fill, Path.RootBlack] using h
  | Path.right c l a v Path.top, t, h => by simpa [Path.fill, Path.RootBlack] using h
  | Path.left c a v r (Path.left c2 a2 v2 r2 up), t, h => by
    have := Path.rootBlack_of_fill (Path.left c2 a2 v2 r2 up) _ h
    simpa [Path.RootBlack] using this
  | Path.left c a v r (Path.right c2 l2 a2 v2 up), t, h => by
    have := Path.rootBlack_of_fill (Path.right c2 l2 a2 v2 up) _ h
    simpa [Path.RootBlack] using this
  | Path.right c l a v (Path.left c2 a2 v2 r2 up), t, h => by
    have := Path.rootBlack_of_fill (Path.left c2 a2 v2 r2 up) _ h
    simpa [Path.RootBlack] using this
  | Path.right c l a v (Path.right c2 l2 a2 v2 up), t, h => by
    have := Path.rootBlack_of_fill (Path.right c2 l2 a2 v2 up) _ h
    simpa [Path.RootBlack] using this

theorem fixupT_inv (path : Path α) (zt : Tree α) :
    ∀ n, path.Balanced n → path.NoRedRed → path.RootBlack → zt.Balanced → zt.blackHeight = n →
      zt.NoRedRed → zt.rootColor = Red →
      (fixupT path zt).Balanced ∧ (fixupT path zt).NoRedRed := by
  induction path, zt using fixupT_ind with
  | ll_red p pv pr gc g gv ul ua uv ur up zt ih =>
    intro n hb hn hrb hzb hzh hzn hzc
    rw [fixupT_ll_red]
    simp only [Path.Balanced, Path.NoRedRed, Tree.Balanced, Tree.NoRedRed, Tree.rootColor_node,
      Tree.blackHeight, Path.color_left, Path.color_right] at hb hn
    have hgc : gc = Black := by tauto
    subst hgc
    refine ih (n + 1) ?_ ?_ ?_ ?_ ?_ ?_ rfl
    · clear ih; simp_all
    · clear ih; tauto
    · clear ih; cases up <;> simp_all [Path.RootBlack]
    · clear ih; simp_all [Tree.Balanced, Tree.blackHeight] <;> omega
    · clear ih; simp_all [Tree.Balanced, Tree.blackHeight] <;> omega
    · clear ih; simp_all [Tree.NoRedRed]
  | rl_red pl p pv gc g gv ul ua uv ur up zt ih =>
    intro n hb hn hrb hzb hzh hzn hzc
    rw [fixupT_rl_red]
    simp only [Path.Balanced, Path.NoRedRed, Tree.Balanced, Tree.NoRedRed, Tree.rootColor_node,
      Tree.blackHeight, Path.color_left, Path.color_right] at hb hn
    have hgc : gc = Black := by tauto
    subst hgc
    refine ih (n + 1) ?_ ?_ ?_ ?_ ?_ ?_ rfl
    · clear ih; simp_all
    · clear ih; tauto
    · clear ih; cases up <;> simp_all [Path.RootBlack]
    · clear ih; simp_all [Tree.Balanced, Tree.blackHeight] <;> omega
    · clear ih; simp_all [Tree.Balanced, Tree.blackHeight] <;> omega
    · clear ih; simp_all [Tree.NoRedRed]
  | lr_red p pv pr gc g gv ul ua uv ur up zt ih =>
    intro n hb hn hrb hzb hzh hzn hzc
    rw [fixupT_lr_red]
    simp only [Path.Balanced, Path.NoRedRed, Tree.Balanced, Tree.NoRedRed, Tree.rootColor_node,
      Tree.blackHeight, Path.color_left, Path.color_right] at hb hn
    have hgc : gc = Black := by tauto
    subst hgc
    refine ih (n + 1) ?_ ?_ ?_ ?_ ?_ ?_ rfl
    · clear ih; simp_all
    · clear ih; tauto
    · clear ih; cases up <;> simp_all [Path.RootBlack]
    · clear ih; simp_all [Tree.Balanced, Tree.blackHeight] <;> omega
    · clear ih; simp_all [Tree.Balanced, Tree.blackHeight] <;> omega
    · clear ih; simp_all [Tree.NoRedRed]
  | rr_red pl p pv gc g gv ul ua uv ur up zt ih =>
    intro n hb hn hrb hzb hzh hzn hzc
    rw [fixupT_rr_red]
    simp only [Path.Balanced, Path.NoRedRed, Tree.Balanced, Tree.NoRedRed, Tree.rootColor_node,
      Tree.blackHeight, Path.color_left, Path.color_right] at hb hn
    have hgc : gc = Black := by tauto
    subst hgc
    refine ih (n + 1) ?_ ?_ ?_ ?_ ?_ ?_ rfl
    · clear ih; simp_all
    · clear ih; tauto
    · clear ih; cases up <;> simp_all [Path.RootBlack]
    · clear ih; simp_all [Tree.Balanced, Tree.blackHeight] <;> omega
    · clear ih; simp_all [Tree.Balanced, Tree.blackHeight] <;> omega
    · clear ih; simp_all [Tree.NoRedRed]
  | ll_black p pv pr gc g gv u up zt hu =>
    intro n hb hn hrb hzb hzh hzn hzc
    rw [fixupT_ll_black (e := hu)]
    simp only [Path.Balanced, Path.NoRedRed, Tree.Balanced, Tree.NoRedRed, Tree.rootColor_node,
      Tree.blackHeight, Path.color_left, Path.color_right] at hb hn
    have hgc : gc = Black := by tauto
    subst hgc
    rw [Path.balanced_fill, Path.noRedRed_fill]
    simp_all [Tree.Balanced, Tree.blackHeight, Tree.NoRedRed] <;> omega
  | rl_black pl p pv gc g gv u up zc zl z zv zr hu =>
    intro n hb hn hrb hzb hzh hzn hzc
    rw [fixupT_rl_black (e := hu)]
    simp only [Path.Balanced, Path.NoRedRed, Tree.Balanced, Tree.NoRedRed, Tree.rootColor_node,
      Tree.blackHeight, Path.color_left, Path.color_right] at hb hn
    have hgc : gc = Black := by tauto
    subst hgc
    simp only [Tree.Balanced, Tree.NoRedRed, Tree.rootColor_node, Tree.blackHeight] at hzb hzh hzn hzc
    subst hzc
    rw [Path.balanced_fill, Path.noRedRed_fill]
    simp_all [Tree.Balanced, Tree.blackHeight, Tree.NoRedRed] <;> omega
  | lr_black p pv pr gc g gv u up zc zl z zv zr hu =>
    intro n hb hn hrb hzb hzh hzn hzc
    rw [fixupT_lr_black (e := hu)]
    simp only [Path.Balanced, Path.NoRedRed, Tree.Balanced, Tree.NoRedRed, Tree.rootColor_node,
      Tree.blackHeight, Path.color_left, Path.color_right] at hb hn
    have hgc : gc = Black := by tauto
    subst hgc
    simp only [Tree.Balanced, Tree.NoRedRed, Tree.rootColor_node, Tree.blackHeight] at hzb hzh hzn hzc
    subst hzc
    rw [Path.balanced_fill, Path.noRedRed_fill]
    simp_all [Tree.Balanced, Tree.blackHeight, Tree.NoRedRed] <;> omega
  | rr_black pl p pv gc g gv u up zt hu =>
    intro n hb hn hrb hzb hzh hzn hzc
    rw [fixupT_rr_black (e := hu)]
    simp only [Path.Balanced, Path.NoRedRed, Tree.Balanced, Tree.NoRedRed, Tree.rootColor_node,
      Tree.blackHeight, Path.color_left, Path.color_right] at hb hn
    have hgc : gc = Black := by tauto
    subst hgc
    rw [Path.balanced_fill, Path.noRedRed_fill]
    simp_all [Tree.Balanced, Tree.blackHeight, Tree.NoRedRed] <;> omega
  | stop path zt e hc =>
    intro n hb hn hrb hzb hzh hzn hzc
    rw [e, Path.balanced_fill, Path.noRedRed_fill]
    subst hzh
    refine ⟨⟨hb, hzb⟩, hn, hzn, ?_⟩
    rcases hc with rfl | ⟨p, pv, pr, up, rfl⟩ | ⟨pl, p, pv, up, rfl⟩ | ⟨p, pv, pr, rfl⟩ |
      ⟨pl, p, pv, rfl⟩ | rfl
    · simp
    · simp
    · simp
    · simp [Path.RootBlack] at hrb
    · simp [Path.RootBlack] at hrb
    · simp at hzc

/-! ### Counting nodes -/

theorem length_le_of_nodup_of_lt {l : List Nat} {n : Nat} (hnd : l.Nodup)
    (hb : ∀ a ∈ l, a < n) : l.length ≤ n := by
  have hsub : l.toFinset ⊆ Finset.range n := fun a ha => by
    simpa using hb a (by simpa using ha)
  have hc := Finset.card_le_card hsub
  rwa [List.toFinset_card_of_nodup hnd, Finset.card_range] at hc

theorem Tree.size_eq_length_addrs (t : Tree α) : t.size = t.addrs.length := by
  rw [Tree.size_eq_length, Tree.addrs_eq_map, List.length_map]

theorem Rep.lt_next {h : Heap α} {nil : Nat} {T : Tree α} {par : Nat} (hrep : Rep h nil T par)
    (hb : ∀ p, h.next ≤ p → h.read p = none) : ∀ a ∈ T.addrs, a < h.next := by
  intro a ha
  by_contra hlt
  have h1 := Rep.live hrep a ha
  rw [hb a (by omega)] at h1
  simp at h1

theorem Rep.size_lt_next {h : Heap α} {nil : Nat} {T : Tree α} {par : Nat} {n : rb_tree_node α}
    (hrep : Rep h nil T par) (hnd : T.addrs.Nodup) (hs : h.read nil = some n)
    (hb : ∀ p, h.next ≤ p → h.read p = none) : T.size + 1 ≤ h.next := by
  have hnil : nil < h.next := by
    by_contra hlt
    rw [hb nil (by omega)] at hs
    simp at hs
  have h1 : (nil :: T.addrs).Nodup := List.nodup_cons.2 ⟨Rep.nil_not_mem hrep, hnd⟩
  have h2 := length_le_of_nodup_of_lt h1 (fun a ha => by
    rcases List.mem_cons.1 ha with rfl | ha
    · exact hnil
    · exact Rep.lt_next hrep hb a ha)
  rw [Tree.size_eq_length_addrs]
  simpa using h2

theorem Path.depth_add_size_le : ∀ (path : Path α) (t : Tree α),
    path.depth + t.size ≤ (path.fill t).size
  | Path.top, t => by simp [Path.depth, Path.fill]
  | Path.left c a v r up, t => by
    have := Path.depth_add_size_le up (Tree.node c t a v r)
    simp only [Path.depth, Path.fill, Tree.size] at this ⊢
    omega
  | Path.right c l a v up, t => by
    have := Path.depth_add_size_le up (Tree.node c l a v t)
    simp only [Path.depth, Path.fill, Tree.size] at this ⊢
    omega

theorem SameOff.read_none {h h1 : Heap α} {nil : Nat} {T : Tree α} {par p : Nat}
    (hrep : Rep h nil T par) (hso : SameOff T.addrs h h1) (hp : h.read p = none) :
    h1.read p = none := by
  have : p ∉ T.addrs := fun hm => by
    have := Rep.live hrep p hm
    rw [hp] at this
    simp at this
  rw [hso.1 p this, hp]

/-! ### The fix-up as a whole -/

theorem insert_fixup_refines {nil : Nat} {path : Path α} {zc : rb_tree_node_color}
    {zl : Tree α} {z : Nat} {zv : α} {zr : Tree α} {h : Heap α} {root : Nat}
    (hrb : path.RootBlack) (hs : h.read nil = some ⟨0, 0, 0, Black, none⟩)
    (hb : ∀ p, h.next ≤ p → h.read p = none)
    (hrep : Rep h nil (path.fill (Tree.node zc zl z zv zr)) nil)
    (hnd : (path.fill (Tree.node zc zl z zv zr)).addrs.Nodup)
    (hroot : root = (path.fill (Tree.node zc zl z zv zr)).ptr nil) :
    ∃ h1, _insert_fixup h z root nil =
        some (h1, ((fixupT path (Tree.node zc zl z zv zr)).paint Black).ptr nil) ∧
      Rep h1 nil ((fixupT path (Tree.node zc zl z zv zr)).paint Black) nil ∧
      SameOff (path.fill (Tree.node zc zl z zv zr)).addrs h h1 := by
  have hfuel : path.depth + 2 ≤ h.fuel := by
    have h1 := Rep.size_lt_next hrep hnd hs hb
    have h2 := Path.depth_add_size_le path (Tree.node zc zl z zv zr)
    simp only [Tree.size, Heap.fuel] at h2 ⊢
    omega
  obtain ⟨h1, hl, hrep1, hso1⟩ :=
    fixup_loop_refines path.depth path zc zl z zv zr h root h.fuel le_rfl hrb hs hrep hnd hroot hfuel
  have hA := fixupT_addrs path (Tree.node zc zl z zv zr)
  have hnd1 : (fixupT path (Tree.node zc zl z zv zr)).addrs.Nodup := hA ▸ hnd
  cases hT : fixupT path (Tree.node zc zl z zv zr) with
  | leaf =>
    have hz := mem_addrs_focus path zc zl z zv zr
    rw [← hA, hT] at hz
    simp [Tree.addrs] at hz
  | node c l a v r =>
    rw [hT] at hl hrep1 hnd1 hA
    obtain ⟨h2, hm2, hrep2, -, -, hso2⟩ := recolor_focus (P := Path.top) Black hrep1 hnd1
    refine ⟨h2, ?_, hrep2, hso1.trans (SameOff.congr hA hso2)⟩
    simp [_insert_fixup, hl, hm2, Tree.paint]

/-! ### The descent -/

theorem search_loop_refines {h : Heap α} (t : rb_tree α) (k : α) :
    ∀ (T : Tree α) (path : Path α) (fuel par : Nat), Rep h t._nil T par → T.height < fuel →
      t._search_loop h k fuel (T.ptr t._nil) (path.parent t._nil) =
        some (stopPtr t._nil (zoom t._comp k T path))
  | Tree.leaf, path, fuel, par, _, hf => by
    obtain ⟨f, rfl⟩ : ∃ f, fuel = f + 1 := ⟨fuel - 1, by omega⟩
    simp [rb_tree._search_loop, zoom, stopPtr]
  | Tree.node c l a v r, path, fuel, par, hrep, hf => by
    obtain ⟨f, rfl⟩ : ∃ f, fuel = f + 1 := ⟨fuel - 1, by omega⟩
    obtain ⟨hne, hr, hl, hrr⟩ := hrep
    simp only [Tree.height] at hf
    have ihl := search_loop_refines t k l (Path.left c a v r path) f a hl (by omega)
    have ihr := search_loop_refines t k r (Path.right c l a v path) f a hrr (by omega)
    simp only [Path.parent_left, Path.parent_right] at ihl ihr
    simp only [rb_tree._search_loop, Tree.ptr_node, hr, zoom, ne_eq, hne, not_false_eq_true,
      if_true]
    by_cases h1 : t._comp k v = true
    · simp [h1, ihl]
    · by_cases h2 : t._comp v k = true
      · simp [h1, h2, ihr]
      · simp [h1, h2, stopPtr]

/-! ### Where the descent stops -/

theorem zoom_fill (comp : α → α → Bool) (k : α) : ∀ (t : Tree α) (path : Path α),
    (zoom comp k t path).1.fill (zoom comp k t path).2 = path.fill t
  | Tree.leaf, path => rfl
  | Tree.node c l a v r, path => by
    unfold zoom
    split
    · rw [zoom_fill comp k l]; rfl
    · split
      · rw [zoom_fill comp k r]; rfl
      · rfl

theorem zoom_leaf_cases (comp : α → α → Bool) (k : α) : ∀ (t : Tree α) (path p1 : Path α),
    zoom comp k t path = (p1, Tree.leaf) →
      p1 = path ∨ (∃ c a v r up, p1 = Path.left c a v r up ∧ comp k v = true) ∨
        (∃ c l a v up, p1 = Path.right c l a v up ∧ comp k v = false ∧ comp v k = true)
  | Tree.leaf, path, p1, h => by
    simp only [zoom, Prod.mk.injEq, and_true] at h
    exact Or.inl h.symm
  | Tree.node c l a v r, path, p1, h => by
    unfold zoom at h
    split at h
    · rename_i h1
      rcases zoom_leaf_cases comp k l _ p1 h with e | e | e
      · exact Or.inr (Or.inl ⟨c, a, v, r, path, e, h1⟩)
      · exact Or.inr (Or.inl e)
      · exact Or.inr (Or.inr e)
    · rename_i h1
      split at h
      · rename_i h2
        rcases zoom_leaf_cases comp k r _ p1 h with e | e | e
        · exact Or.inr (Or.inr ⟨c, l, a, v, path, e, by simpa using h1, h2⟩)
        · exact Or.inr (Or.inl e)
        · exact Or.inr (Or.inr e)
      · simp at h

theorem zoom_node_equiv (comp : α → α → Bool) (k : α) : ∀ (t : Tree α) (path p1 : Path α)
    (c : rb_tree_node_color) (l : Tree α) (a : Nat) (v : α) (r : Tree α),
    zoom comp k t path = (p1, Tree.node c l a v r) → comp k v = false ∧ comp v k = false
  | Tree.leaf, path, p1, c, l, a, v, r, h => by simp [zoom] at h
  | Tree.node c0 l0 a0 v0 r0, path, p1, c, l, a, v, r, h => by
    unfold zoom at h
    split at h
    · exact zoom_node_equiv comp k l0 _ p1 c l a v r h
    · rename_i h1
      split at h
      · exact zoom_node_equiv comp k r0 _ p1 c l a v r h
      · rename_i h2
        simp only [Prod.mk.injEq, Tree.node.injEq] at h
        obtain ⟨-, -, -, -, rfl, -⟩ := h
        exact ⟨by simpa using h1, by simpa using h2⟩

theorem Path.increasing_focus {comp : α → α → Bool} {path : Path α} {c : rb_tree_node_color}
    {l : Tree α} {a : Nat} {v : α} {r : Tree α}
    (h : Increasing comp (path.fill (Tree.node c l a v r)).keys) :
    (∀ x ∈ l.keys, comp x v = true) ∧ (∀ x ∈ r.keys, comp v x = true) := by
  rw [Path.keys_fill] at h
  simp only [Increasing, Tree.keys, List.pairwise_append, List.pairwise_cons, List.mem_append,
    List.mem_cons] at h
  obtain ⟨⟨_, ⟨_, ⟨h1, _⟩, h2⟩, _⟩, _⟩ := h
  exact ⟨fun x hx => h2 x hx v (Or.inl rfl), h1⟩

theorem zoom_bounds {comp : α → α → Bool}
    (htr : ∀ a b c, comp a b = true → comp b c = true → comp a c = true) (k : α) :
    ∀ (t : Tree α) (path : Path α), Increasing comp (path.fill t).keys →
      (∀ x ∈ path.before, comp x k = true) → (∀ x ∈ path.after, comp k x = true) →
      (∀ x ∈ (zoom comp k t path).1.before, comp x k = true) ∧
        (∀ x ∈ (zoom comp k t path).1.after, comp k x = true)
  | Tree.leaf, path, _, hb, ha => ⟨hb, ha⟩
  | Tree.node c l a v r, path, hinc, hb, ha => by
    obtain ⟨hl, hr⟩ := Path.increasing_focus hinc
    unfold zoom
    split
    · rename_i h1
      refine zoom_bounds htr k l (Path.left c a v r path) hinc hb ?_
      intro x hx
      simp only [Path.after, List.mem_cons, List.mem_append] at hx
      rcases hx with rfl | hx | hx
      · exact h1
      · exact htr _ _ _ h1 (hr x hx)
      · exact ha x hx
    · split
      · rename_i h2
        refine zoom_bounds htr k r (Path.right c l a v path) hinc ?_ ha
        intro x hx
        simp only [Path.before, List.mem_cons, List.mem_append, List.not_mem_nil, or_false] at hx
        rcases hx with hx | hx | rfl
        · exact hb x hx
        · exact htr _ _ _ (hl x hx) h2
        · exact h2
      · exact ⟨hb, ha⟩

theorem Tree.height_le_size : ∀ (t : Tree α), t.height ≤ t.size
  | Tree.leaf => le_rfl
  | Tree.node _ l _ _ r => by
    have := Tree.height_le_size l
    have := Tree.height_le_size r
    simp only [Tree.height, Tree.size]
    omega

theorem Models.height_lt_fuel {h : Heap α} {t : rb_tree α} {T : Tree α} (hm : Models h t T) :
    T.height < h.fuel := by
  have h1 := Rep.size_lt_next hm.rep hm.nodup hm.sentinel hm.bound
  have h2 := Tree.height_le_size T
  simp only [Heap.fuel]
  omega

theorem Models.nil_lt_next {h : Heap α} {t : rb_tree α} {T : Tree α} (hm : Models h t T) :
    t._nil < h.next := by
  by_contra hlt
  have := hm.sentinel
  rw [hm.bound _ (by omega)] at this
  simp at this

theorem search_refines {h : Heap α} {t : rb_tree α} {T : Tree α} (hm : Models h t T) (k : α) :
    t._search h k = some (stopPtr t._nil (zoom t._comp k T Path.top)) := by
  have := search_loop_refines t k T Path.top h.fuel t._nil hm.rep hm.height_lt_fuel
  rw [rb_tree._search, hm.root]
  simpa using this

theorem insert_found {h : Heap α} {t : rb_tree α} {T : Tree α} (hm : Models h t T) (k : α)
    {p1 : Path α} {c : rb_tree_node_color} {l : Tree α} {a : Nat} {v : α} {r : Tree α}
    (hz : zoom t._comp k T Path.top = (p1, Tree.node c l a v r)) :
    t.insert h k = some (h, t, ⟨a, t._nil⟩, false) := by
  have hfill := zoom_fill t._comp k T Path.top
  rw [hz] at hfill
  simp only [Path.fill] at hfill
  have hrep := hm.rep
  rw [← hfill, rep_fill] at hrep
  obtain ⟨-, hne, hr, -, -⟩ := hrep
  obtain ⟨e1, e2⟩ := zoom_node_equiv _ _ _ _ _ _ _ _ _ _ hz
  simp [rb_tree.insert, rb_tree._insert, search_refines hm, hz, stopPtr, hne,
    rb_tree._values_equivalent, Heap.value, hr, e1, e2]

theorem Tree.addrs_paint (c : rb_tree_node_color) : ∀ (t : Tree α), (t.paint c).addrs = t.addrs
  | Tree.leaf => rfl
  | Tree.node _ _ _ _ _ => rfl

theorem insert_tail {h g : Heap α} {t : rb_tree α} {T : Tree α} (hm : Models h t T)
    (hrb : T.rootColor = Black) (k : α) {p1 : Path α} (hfill : p1.fill Tree.leaf = T)
    (hrep3 : Rep g t._nil (p1.fill (Tree.node Red Tree.leaf h.next k Tree.leaf)) t._nil)
    (hn3 : g.next = h.next + 1)
    (hf3 : ∀ q, h.read q = none → q ≠ h.next → g.read q = none)
    (hs3 : g.read t._nil = some ⟨0, 0, 0, Black, none⟩) :
    ∃ h4, _insert_fixup g h.next ((p1.fill (Tree.node Red Tree.leaf h.next k Tree.leaf)).ptr t._nil)
        t._nil = some (h4, ((fixupT p1 (Tree.node Red Tree.leaf h.next k Tree.leaf)).paint
          Black).ptr t._nil) ∧
      Models h4 { t with
          _root := ((fixupT p1 (Tree.node Red Tree.leaf h.next k Tree.leaf)).paint Black).ptr t._nil
          _size := t._size + 1 }
        ((fixupT p1 (Tree.node Red Tree.leaf h.next k Tree.leaf)).paint Black) := by
  have hlt := Rep.lt_next hm.rep hm.bound
  have hnilt := hm.nil_lt_next
  have hb3 : ∀ p, g.next ≤ p → g.read p = none := fun p hp =>
    hf3 p (hm.bound p (by omega)) (by omega)
  have hnd3 : (p1.fill (Tree.node Red Tree.leaf h.next k Tree.leaf)).addrs.Nodup := by
    rw [Path.nodup_fill]
    have h1 := hm.nodup
    rw [← hfill, Path.nodup_fill] at h1
    simp only [Tree.addrs, List.nil_append, List.singleton_append, List.nodup_cons] at h1 ⊢
    refine ⟨fun hmem => ?_, h1⟩
    have := hlt h.next (by rw [← hfill, Path.mem_addrs_fill]; exact Or.inr hmem)
    omega
  have hrb1 : p1.RootBlack := Path.rootBlack_of_fill p1 Tree.leaf (hfill ▸ hrb)
  obtain ⟨h4, he, hrep4, hso4⟩ := insert_fixup_refines hrb1 hs3 hb3 hrep3 hnd3 rfl
  have hA : ((fixupT p1 (Tree.node Red Tree.leaf h.next k Tree.leaf)).paint Black).addrs =
      (p1.fill (Tree.node Red Tree.leaf h.next k Tree.leaf)).addrs := by
    rw [Tree.addrs_paint, fixupT_addrs]
  refine ⟨h4, he, ⟨hrep4, rfl, hA ▸ hnd3, hso4.sentinel (Rep.nil_not_mem hrep3) hs3, ?_, ?_⟩⟩
  · exact SameOff.read_none hrep3 hso4 (hf3 0 hm.null (by omega))
  · intro p hp
    rw [hso4.2, hn3] at hp
    exact SameOff.read_none hrep3 hso4 (hf3 p (hm.bound p (by omega)) (by omega))

theorem Tree.ins_of_leaf {comp : α → α → Bool} {k : α} {T : Tree α} {p1 : Path α} (z : Nat)
    (hz : zoom comp k T Path.top = (p1, Tree.leaf)) :
    T.ins comp z k = (fixupT p1 (Tree.node Red Tree.leaf z k Tree.leaf)).paint Black := by
  simp [Tree.ins, hz]

theorem Tree.ins_of_node {comp : α → α → Bool} {k : α} {T : Tree α} {p1 : Path α} (z : Nat)
    {c : rb_tree_node_color} {l : Tree α} {a : Nat} {v : α} {r : Tree α}
    (hz : zoom comp k T Path.top = (p1, Tree.node c l a v r)) :
    T.ins comp z k = T := by
  simp [Tree.ins, hz]

set_option maxHeartbeats 1000000 in
theorem insert_new {h : Heap α} {t : rb_tree α} {T : Tree α} (hm : Models h t T)
    (hrb : T.rootColor = Black) (k : α) {p1 : Path α}
    (hz : zoom t._comp k T Path.top = (p1, Tree.leaf)) :
    ∃ h1, t.insert h k = some (h1,
        { t with _root := (T.ins t._comp h.next k).ptr t._nil, _size := t._size + 1 },
        ⟨h.next, t._nil⟩, true) ∧
      Models h1 { t with _root := (T.ins t._comp h.next k).ptr t._nil, _size := t._size + 1 }
        (T.ins t._comp h.next k) := by
  have hfill := zoom_fill t._comp k T Path.top
  rw [hz] at hfill
  simp only [Path.fill] at hfill
  have hlt := Rep.lt_next hm.rep hm.bound
  have hnilt := hm.nil_lt_next
  have hznil : h.next ≠ t._nil := by omega
  have hrep := hm.rep
  have hnd := hm.nodup
  rw [← hfill, rep_fill] at hrep
  rw [← hfill, Path.nodup_fill] at hnd
  have hmemp : ∀ a ∈ p1.addrs, a < h.next := fun a ha =>
    hlt a (by rw [← hfill, Path.mem_addrs_fill]; exact Or.inr ha)
  rw [Tree.ins_of_leaf h.next hz]
  obtain ⟨hpath, -⟩ := hrep
  rcases zoom_leaf_cases _ _ _ _ _ hz with rfl | ⟨c, a, v, r, up, rfl, hc⟩ |
    ⟨c, l, a, v, up, rfl, hc1, hc2⟩
  · -- the tree was empty
    obtain ⟨h4, he, hm4⟩ := insert_tail (g := (h.alloc ⟨0, t._nil, t._nil, Red, some k⟩).1.put h.next
      ⟨t._nil, t._nil, t._nil, Red, some k⟩) hm hrb k hfill
      (by simp [Path.fill, Rep, hznil]) rfl
      (fun q hq hne => by simp [hne, hq]) (by simp [hznil.symm, hm.sentinel])
    refine ⟨h4, ?_, hm4⟩
    simp only [Path.fill, Tree.ptr_node] at he
    simp [rb_tree.insert, rb_tree._insert, search_refines hm, hz, stopPtr, create_node,
      Heap.modify, rb_tree_node.set_parent, he]
  · obtain ⟨han, ha, hsib, hup⟩ := hpath
    simp only [Tree.ptr_leaf] at ha
    simp only [Path.addrs, Tree.addrs, List.nil_append, List.nodup_cons, List.nodup_append,
      List.mem_append, not_or] at hnd
    have haz : a ≠ h.next := by
      have := hmemp a (by simp [Path.addrs])
      omega
    have hfr : ∀ b, b ≠ a → b ≠ h.next →
        (((h.alloc ⟨0, t._nil, t._nil, Red, some k⟩).1.put h.next
          ⟨a, t._nil, t._nil, Red, some k⟩).put a ⟨up.parent t._nil, h.next, r.ptr t._nil, c, some v⟩).read b = h.read b := by
      intro b h1 h2
      simp [h1, h2]
    obtain ⟨h4, he, hm4⟩ := insert_tail (g := ((h.alloc ⟨0, t._nil, t._nil, Red, some k⟩).1.put
      h.next ⟨a, t._nil, t._nil, Red, some k⟩).put a ⟨up.parent t._nil, h.next, r.ptr t._nil, c, some v⟩) hm hrb k hfill
      (by
        rw [rep_fill]
        refine ⟨⟨han, by simp, Rep.frame (fun b hb => hfr b ?_ ?_) hsib,
          RepPath.frame_path (fun b hb => hfr b ?_ ?_) hup⟩, hznil, by simp [haz.symm], trivial, trivial⟩
        · rintro rfl; tauto
        · have := hmemp b (by simp [Path.addrs, hb]); omega
        · rintro rfl; tauto
        · have := hmemp b (by simp [Path.addrs, hb]); omega) rfl
      (fun q hq hne => by
        have : q ≠ a := by rintro rfl; rw [ha] at hq; simp at hq
        rw [hfr q this hne, hq])
      (by rw [hfr _ han.symm hznil.symm, hm.sentinel])
    refine ⟨h4, ?_, hm4⟩
    simp only [Path.fill, Tree.ptr_node] at he
    have hroot : t._root = (up.fill (Tree.node c (Tree.node Red Tree.leaf h.next k Tree.leaf) a v r)).ptr t._nil := by
      rw [hm.root, ← hfill]
      exact Path.ptr_fill_congr t._nil up rfl
    simp [rb_tree.insert, rb_tree._insert, search_refines hm, hz, stopPtr, create_node,
      Heap.modify, rb_tree_node.set_parent, rb_tree_node.set_left, han, haz, haz.symm, ha,
      rb_tree._values_equivalent, Heap.value, hc, hroot, he]
  · obtain ⟨han, ha, hsib, hup⟩ := hpath
    simp only [Tree.ptr_leaf] at ha
    simp only [Path.addrs, Tree.addrs, List.nil_append, List.nodup_cons, List.nodup_append,
      List.mem_append, not_or] at hnd
    have haz : a ≠ h.next := by
      have := hmemp a (by simp [Path.addrs])
      omega
    have hfr : ∀ b, b ≠ a → b ≠ h.next →
        (((h.alloc ⟨0, t._nil, t._nil, Red, some k⟩).1.put h.next
          ⟨a, t._nil, t._nil, Red, some k⟩).put a ⟨up.parent t._nil, l.ptr t._nil, h.next, c, some v⟩).read b = h.read b := by
      intro b h1 h2
      simp [h1, h2]
    obtain ⟨h4, he, hm4⟩ := insert_tail (g := ((h.alloc ⟨0, t._nil, t._nil, Red, some k⟩).1.put
      h.next ⟨a, t._nil, t._nil, Red, some k⟩).put a ⟨up.parent t._nil, l.ptr t._nil, h.next, c, some v⟩) hm hrb k hfill
      (by
        rw [rep_fill]
        refine ⟨⟨han, by simp, Rep.frame (fun b hb => hfr b ?_ ?_) hsib,
          RepPath.frame_path (fun b hb => hfr b ?_ ?_) hup⟩, hznil, by simp [haz.symm], trivial, trivial⟩
        · rintro rfl; tauto
        · have := hmemp b (by simp [Path.addrs, hb]); omega
        · rintro rfl; tauto
        · have := hmemp b (by simp [Path.addrs, hb]); omega) rfl
      (fun q hq hne => by
        have : q ≠ a := by rintro rfl; rw [ha] at hq; simp at hq
        rw [hfr q this hne, hq])
      (by rw [hfr _ han.symm hznil.symm, hm.sentinel])
    refine ⟨h4, ?_, hm4⟩
    simp only [Path.fill, Tree.ptr_node] at he
    have hroot : t._root = (up.fill (Tree.node c l a v (Tree.node Red Tree.leaf h.next k Tree.leaf))).ptr t._nil := by
      rw [hm.root, ← hfill]
      exact Path.ptr_fill_congr t._nil up rfl
    simp [rb_tree.insert, rb_tree._insert, search_refines hm, hz, stopPtr, create_node,
      Heap.modify, rb_tree_node.set_parent, rb_tree_node.set_right, han, haz, haz.symm, ha,
      rb_tree._values_equivalent, Heap.value, hc1, hc2, hroot, he]

/-! ### The effect of an insertion on the tree -/

theorem Path.entries_fill_mono : ∀ (path : Path α) (t : Tree α) (x : Nat × α),
    x ∈ t.entries → x ∈ (path.fill t).entries
  | Path.top, _, _, h => h
  | Path.left c a v r up, t, x, h =>
    Path.entries_fill_mono up _ x (by simp [Tree.entries, h])
  | Path.right c l a v up, t, x, h =>
    Path.entries_fill_mono up _ x (by simp [Tree.entries, h])

theorem mem_entries_focus (path : Path α) (c : rb_tree_node_color) (l : Tree α) (a : Nat) (v : α)
    (r : Tree α) : (a, v) ∈ (path.fill (Tree.node c l a v r)).entries :=
  Path.entries_fill_mono path _ _ (by simp [Tree.entries])

theorem Tree.balanced_paint (c : rb_tree_node_color) : ∀ (t : Tree α), t.Balanced → (t.paint c).Balanced
  | Tree.leaf, h => h
  | Tree.node _ _ _ _ _, h => h

theorem Tree.noRedRed_paint_black : ∀ (t : Tree α), t.NoRedRed → (t.paint Black).NoRedRed
  | Tree.leaf, h => h
  | Tree.node _ _ _ _ _, h => ⟨fun e => by simp at e, h.2⟩

theorem Tree.rootColor_paint_black : ∀ (t : Tree α), (t.paint Black).rootColor = Black
  | Tree.leaf => rfl
  | Tree.node _ _ _ _ _ => rfl

theorem Tree.keys_paint (c : rb_tree_node_color) (t : Tree α) : (t.paint c).keys = t.keys := by
  rw [Tree.keys_eq_map, Tree.keys_eq_map, Tree.entries_paint]

theorem Tree.size_eq_length_keys (t : Tree α) : t.size = t.keys.length := by
  rw [Tree.size_eq_length, Tree.keys_eq_map, List.length_map]

theorem zoom_leaf_keys {comp : α → α → Bool} {k : α} {T : Tree α} {p1 : Path α}
    (hz : zoom comp k T Path.top = (p1, Tree.leaf)) : T.keys = p1.before ++ p1.after := by
  have hfill := zoom_fill comp k T Path.top
  rw [hz] at hfill
  simp only [Path.fill] at hfill
  rw [← hfill, Path.keys_fill]
  simp [Tree.keys]

/-- What the descent tells when it stops at a leaf link: the stored values split
around the new value. -/
theorem zoom_leaf_split {comp : α → α → Bool} (hswo : StrictWeakOrder comp) {k : α} {T : Tree α}
    {p1 : Path α} (hinc : Increasing comp T.keys)
    (hz : zoom comp k T Path.top = (p1, Tree.leaf)) :
    (∀ x ∈ p1.before, comp x k = true) ∧ (∀ x ∈ p1.after, comp k x = true) := by
  have hb := zoom_bounds hswo.trans k T Path.top hinc (by simp [Path.before])
    (by simp [Path.after])
  rw [hz] at hb
  exact hb

theorem Tree.ins_new_keys {comp : α → α → Bool} {k : α} {T : Tree α} {p1 : Path α} (z : Nat)
    (hz : zoom comp k T Path.top = (p1, Tree.leaf)) :
    (T.ins comp z k).keys = p1.before ++ k :: p1.after := by
  rw [Tree.ins_of_leaf z hz, Tree.keys_paint, fixupT_keys, Path.keys_fill]
  simp [Tree.keys]

theorem Tree.ins_new_entry {comp : α → α → Bool} {k : α} {T : Tree α} {p1 : Path α} (z : Nat)
    (hz : zoom comp k T Path.top = (p1, Tree.leaf)) :
    (z, k) ∈ (T.ins comp z k).entries := by
  rw [Tree.ins_of_leaf z hz, Tree.entries_paint, fixupT_entries]
  exact mem_entries_focus _ _ _ _ _ _

theorem increasing_insert {comp : α → α → Bool} {k : α} {l1 l2 : List α}
    (h : Increasing comp (l1 ++ l2)) (h1 : ∀ x ∈ l1, comp x k = true)
    (h2 : ∀ x ∈ l2, comp k x = true) : Increasing comp (l1 ++ k :: l2) := by
  simp only [Increasing, List.pairwise_append, List.pairwise_cons, List.mem_cons] at h ⊢
  obtain ⟨ha, hb, hc⟩ := h
  refine ⟨ha, ⟨h2, hb⟩, ?_⟩
  intro x hx y hy
  rcases hy with rfl | hy
  · exact h1 x hx
  · exact hc x hx y hy

theorem Tree.ins_increasing {comp : α → α → Bool} (hswo : StrictWeakOrder comp) {T : Tree α}
    (z : Nat) (k : α) (hinc : Increasing comp T.keys) : Increasing comp (T.ins comp z k).keys := by
  rcases hz : zoom comp k T Path.top with ⟨p1, t1⟩
  cases t1 with
  | node c l a v r =>
    rw [Tree.ins_of_node z hz]
    exact hinc
  | leaf =>
    obtain ⟨hb, ha⟩ := zoom_leaf_split hswo hinc hz
    rw [Tree.ins_new_keys z hz]
    exact increasing_insert (zoom_leaf_keys hz ▸ hinc) hb ha

theorem Tree.ins_shape (comp : α → α → Bool) {T : Tree α} (z : Nat)
    (k : α) (hrb : T.rootColor = Black) (hbal : T.Balanced) (hnrr : T.NoRedRed) :
    (T.ins comp z k).rootColor = Black ∧ (T.ins comp z k).Balanced ∧
      (T.ins comp z k).NoRedRed := by
  rcases hz : zoom comp k T Path.top with ⟨p1, t1⟩
  cases t1 with
  | node c l a v r =>
    rw [Tree.ins_of_node z hz]
    exact ⟨hrb, hbal, hnrr⟩
  | leaf =>
    have hfill := zoom_fill comp k T Path.top
    rw [hz] at hfill
    simp only [Path.fill] at hfill
    rw [← hfill, Path.balanced_fill] at hbal
    rw [← hfill, Path.noRedRed_fill] at hnrr
    have hinv := fixupT_inv p1 (Tree.node Red Tree.leaf z k Tree.leaf) 0 hbal.1 hnrr.1
      (Path.rootBlack_of_fill p1 Tree.leaf (hfill ▸ hrb)) (by simp [Tree.Balanced])
      (by simp [Tree.blackHeight]) (by simp [Tree.NoRedRed]) rfl
    rw [Tree.ins_of_leaf z hz]
    exact ⟨Tree.rootColor_paint_black _, Tree.balanced_paint _ _ hinv.1,
      Tree.noRedRed_paint_black _ hinv.2⟩

theorem Tree.ins_size {comp : α → α → Bool} {T : Tree α} (z : Nat) (k : α) {p1 : Path α}
    (hz : zoom comp k T Path.top = (p1, Tree.leaf)) :
    (T.ins comp z k).size = T.size + 1 := by
  rw [Tree.size_eq_length_keys, Tree.size_eq_length_keys, Tree.ins_new_keys z hz,
    zoom_leaf_keys hz]
  simp
  omega

/-! ### One call of `insert` -/

theorem insert_inv {h : Heap α} {t : rb_tree α} {T : Tree α} (hi : Inv h t T) (k : α) :
    ∃ h1 t1 it b, t.insert h k = some (h1, t1, it, b) ∧ Inv h1 t1 (T.ins t._comp h.next k) ∧
      t1._comp = t._comp ∧ t1._nil = t._nil := by
  obtain ⟨hrb1, hbal1, hnrr1⟩ := Tree.ins_shape t._comp h.next k hi.rootBlack
    hi.balanced hi.noRedRed
  rcases hz : zoom t._comp k T Path.top with ⟨p1, t1⟩
  cases t1 with
  | node c l a v r =>
    refine ⟨h, t, _, _, insert_found hi.models k hz, ?_, rfl, rfl⟩
    rw [Tree.ins_of_node _ hz]
    exact hi
  | leaf =>
    obtain ⟨h1, he, hm1⟩ := insert_new hi.models hi.rootBlack k hz
    refine ⟨h1, _, _, _, he, ⟨hm1, ?_, hrb1, hbal1, hnrr1⟩, rfl, rfl⟩
    simp only [Tree.ins_size h.next k hz, hi.size]

theorem fresh_inv (comp : α → α → Bool) : Inv (fresh comp).1 (fresh comp).2 Tree.leaf := by
  refine ⟨⟨trivial, rfl, List.nodup_nil, rfl, rfl, ?_⟩, rfl, rfl, trivial, trivial⟩
  intro p hp
  simp only [fresh, rb_tree.new, Heap.init, Heap.next_alloc] at hp
  have : p ≠ 1 := by omega
  simp [fresh, rb_tree.new, Heap.init, Heap.read, Heap.alloc, this]

/-! ### Equivalent values -/

theorem Equiv.self {comp : α → α → Bool} (hswo : StrictWeakOrder comp) (a : α) :
    Equiv comp a a := ⟨hswo.irrefl a, hswo.irrefl a⟩

theorem Equiv.symm {comp : α → α → Bool} {a b : α} (h : Equiv comp a b) : Equiv comp b a :=
  ⟨h.2, h.1⟩

theorem not_equiv_of_lt {comp : α → α → Bool} {a b : α} (h : comp a b = true) :
    ¬ Equiv comp a b := fun e => by simp [e.1] at h

theorem not_equiv_of_gt {comp : α → α → Bool} {a b : α} (h : comp b a = true) :
    ¬ Equiv comp a b := fun e => by simp [e.2] at h

/-- In a strictly increasing list, equivalent members are the same member. -/
theorem eq_of_equiv_of_increasing {β : Type} {c : α → α → Bool} (f : β → α) {l : List β}
    (hinc : Increasing c (l.map f)) {x y : β} (hx : x ∈ l) (hy : y ∈ l)
    (he : Equiv c (f x) (f y)) : x = y := by
  by_contra hne
  have hp : l.Pairwise (fun a b => c (f a) (f b) = true ∨ c (f b) (f a) = true) := by
    rw [Increasing, List.pairwise_map] at hinc
    exact hinc.imp (fun h => Or.inl h)
  have := hp.forall (fun a b h => h.symm) hx hy hne
  rcases this with h | h
  · exact not_equiv_of_lt h he
  · exact not_equiv_of_gt h he

/-- The descent stops at a node exactly when an equivalent value is stored. -/
theorem zoom_leaf_not_equiv {comp : α → α → Bool} (hswo : StrictWeakOrder comp) {k : α}
    {T : Tree α} {p1 : Path α} (hinc : Increasing comp T.keys)
    (hz : zoom comp k T Path.top = (p1, Tree.leaf)) : ∀ v ∈ T.keys, ¬ Equiv comp k v := by
  obtain ⟨hb, ha⟩ := zoom_leaf_split hswo hinc hz
  intro v hv
  rw [zoom_leaf_keys hz, List.mem_append] at hv
  rcases hv with hv | hv
  · exact not_equiv_of_gt (hb v hv)
  · exact not_equiv_of_lt (ha v hv)

theorem zoom_node_entry {comp : α → α → Bool} {k : α} {T : Tree α} {p1 : Path α}
    {c : rb_tree_node_color} {l : Tree α} {a : Nat} {v : α} {r : Tree α}
    (hz : zoom comp k T Path.top = (p1, Tree.node c l a v r)) :
    (a, v) ∈ T.entries ∧ Equiv comp k v := by
  have hfill := zoom_fill comp k T Path.top
  rw [hz] at hfill
  simp only [Path.fill] at hfill
  exact ⟨hfill ▸ mem_entries_focus p1 c l a v r, zoom_node_equiv _ _ _ _ _ _ _ _ _ _ hz⟩

/-! ### The values stored after an insertion -/

theorem Tree.ins_keys_cases {comp : α → α → Bool} (hswo : StrictWeakOrder comp) {T : Tree α}
    (z : Nat) (k : α) (hinc : Increasing comp T.keys) :
    (T.ins comp z k = T ∧ ∃ a v, (a, v) ∈ T.entries ∧ Equiv comp k v) ∨
      ((∀ v ∈ T.keys, ¬ Equiv comp k v) ∧ (z, k) ∈ (T.ins comp z k).entries ∧
        ∃ l1 l2, T.keys = l1 ++ l2 ∧ (T.ins comp z k).keys = l1 ++ k :: l2 ∧
          (∀ x ∈ l1, comp x k = true) ∧ (∀ x ∈ l2, comp k x = true)) := by
  rcases hz : zoom comp k T Path.top with ⟨p1, t1⟩
  cases t1 with
  | node c l a v r =>
    exact Or.inl ⟨Tree.ins_of_node z hz, a, v, zoom_node_entry hz⟩
  | leaf =>
    obtain ⟨hb, ha⟩ := zoom_leaf_split hswo hinc hz
    exact Or.inr ⟨zoom_leaf_not_equiv hswo hinc hz, Tree.ins_new_entry z hz, p1.before, p1.after,
      zoom_leaf_keys hz, Tree.ins_new_keys z hz, hb, ha⟩

theorem Tree.mem_keys_of_entry {T : Tree α} {a : Nat} {v : α} (h : (a, v) ∈ T.entries) :
    v ∈ T.keys := by
  rw [Tree.keys_eq_map]
  exact List.mem_map.2 ⟨(a, v), h, rfl⟩

/-! ### Sequences of calls -/

theorem insertAll_inv : ∀ (ks : List α) {h : Heap α} {t : rb_tree α} {T : Tree α}, Inv h t T →
    ∃ h1 t1 T1, insertAll ks (h, t) = some (h1, t1) ∧ Inv h1 t1 T1 ∧ t1._comp = t._comp ∧
      t1._nil = t._nil
  | [], h, t, T, hi => ⟨h, t, T, rfl, hi, rfl, rfl⟩
  | k :: ks, h, t, T, hi => by
    obtain ⟨h1, t1, it, b, he, hi1, hc1, hn1⟩ := insert_inv hi k
    obtain ⟨h2, t2, T2, he2, hi2, hc2, hn2⟩ := insertAll_inv ks hi1
    exact ⟨h2, t2, T2, by simp [insertAll, he, he2], hi2, hc2.trans hc1, hn2.trans hn1⟩

theorem insertAll_keys : ∀ (ks : List α) {h : Heap α} {t : rb_tree α} {T : Tree α},
    StrictWeakOrder t._comp → Inv h t T → Increasing t._comp T.keys →
    ∃ h1 t1 T1, insertAll ks (h, t) = some (h1, t1) ∧ Inv h1 t1 T1 ∧ t1._comp = t._comp ∧
      t1._nil = t._nil ∧ Increasing t._comp T1.keys ∧
      (∀ v ∈ T1.keys, v ∈ T.keys ∨ v ∈ ks) ∧ (∀ v ∈ T.keys, v ∈ T1.keys) ∧
      (∀ k ∈ ks, ∃ v ∈ T1.keys, Equiv t._comp k v) ∧
      (ks.Pairwise (fun a b => ¬ Equiv t._comp a b) →
        (∀ k ∈ ks, ∀ v ∈ T.keys, ¬ Equiv t._comp k v) → T1.keys.Perm (T.keys ++ ks))
  | [], h, t, T, _, hi, hinc =>
    ⟨h, t, T, rfl, hi, rfl, rfl, hinc, fun v hv => Or.inl hv, fun v hv => hv,
      fun k hk => by simp at hk, fun _ _ => by simp⟩
  | k :: ks, h, t, T, hswo, hi, hinc => by
    obtain ⟨h1, t1, it, b, he, hi1, hc1, hn1⟩ := insert_inv hi k
    have hinc1 := Tree.ins_increasing hswo h.next k hinc
    have hcases := Tree.ins_keys_cases hswo h.next k hinc
    obtain ⟨h2, t2, T2, he2, hi2, hc2, hn2, hinc2, hk1, hk2, hk3, hk4⟩ :=
      insertAll_keys ks (hc1 ▸ hswo) hi1 (hc1 ▸ hinc1)
    rw [hc1] at hinc2 hk3 hk4
    have hsub : ∀ v ∈ (T.ins t._comp h.next k).keys, v ∈ T.keys ∨ v = k := by
      rcases hcases with ⟨e, _⟩ | ⟨_, _, l1, l2, e1, e2, _, _⟩
      · rw [e]; exact fun v hv => Or.inl hv
      · rw [e1, e2]
        intro v hv
        simp only [List.mem_append, List.mem_cons] at hv ⊢
        tauto
    have hsup : ∀ v ∈ T.keys, v ∈ (T.ins t._comp h.next k).keys := by
      rcases hcases with ⟨e, _⟩ | ⟨_, _, l1, l2, e1, e2, _, _⟩
      · rw [e]; exact fun v hv => hv
      · rw [e1, e2]
        intro v hv
        simp only [List.mem_append, List.mem_cons] at hv ⊢
        tauto
    have hk : ∃ v ∈ (T.ins t._comp h.next k).keys, Equiv t._comp k v := by
      rcases hcases with ⟨e, a, v, hm, hev⟩ | ⟨_, hm, _⟩
      · rw [e]; exact ⟨v, Tree.mem_keys_of_entry hm, hev⟩
      · exact ⟨k, Tree.mem_keys_of_entry hm, Equiv.self hswo k⟩
    refine ⟨h2, t2, T2, by simp [insertAll, he, he2], hi2, hc2.trans hc1, hn2.trans hn1, hinc2,
      ?_, fun v hv => hk2 v (hsup v hv), ?_, ?_⟩
    · intro v hv
      rcases hk1 v hv with h3 | h3
      · rcases hsub v h3 with h4 | h4
        · exact Or.inl h4
        · exact Or.inr (by simp [h4])
      · exact Or.inr (by simp [h3])
    · intro k1 hk1m
      rcases List.mem_cons.1 hk1m with rfl | hk1m
      · obtain ⟨v, hv, hev⟩ := hk
        exact ⟨v, hk2 v hv, hev⟩
      · exact hk3 k1 hk1m
    · intro hpw hne
      rw [List.pairwise_cons] at hpw
      rcases hcases with ⟨_, a, v, hm, hev⟩ | ⟨_, _, l1, l2, e1, e2, _, _⟩
      · exact absurd hev (hne k (by simp) v (Tree.mem_keys_of_entry hm))
      · have hp := hk4 hpw.2 (by
          intro k1 hk1m v hv
          rcases hsub v hv with h4 | rfl
          · exact hne k1 (by simp [hk1m]) v h4
          · exact fun e => hpw.1 k1 hk1m e.symm)
        refine hp.trans ?_
        rw [e1, e2]
        simp only [List.append_assoc, List.cons_append]
        refine List.Perm.append_left l1 ?_
        exact (@List.perm_middle _ k l2 ks).symm

open rb_tree_base_node

/-! ### The link navigator -/

theorem Tree.addrs_ne_nil_of_node (c : rb_tree_node_color) (l : Tree α) (a : Nat) (v : α)
    (r : Tree α) : (Tree.node c l a v r).addrs ≠ [] := by
  simp [Tree.addrs]

theorem Tree.headD_addrs_node (c : rb_tree_node_color) (l : Tree α) (a : Nat) (v : α)
    (r : Tree α) (d : Nat) : (Tree.node c l a v r).addrs.headD d = l.addrs.headD a := by
  cases hl : l.addrs with
  | nil => simp [Tree.addrs, hl]
  | cons x xs => simp [Tree.addrs, hl]

theorem Tree.headD_reverse_addrs_node (c : rb_tree_node_color) (l : Tree α) (a : Nat) (v : α)
    (r : Tree α) (d : Nat) :
    (Tree.node c l a v r).addrs.reverse.headD d = r.addrs.reverse.headD a := by
  cases hr : r.addrs.reverse with
  | nil => simp [Tree.addrs, hr]
  | cons x xs => simp [Tree.addrs, hr]

theorem minimum_loop_refines {h : Heap α} {nil : Nat} :
    ∀ (l : Tree α) (c : rb_tree_node_color) (a : Nat) (v : α) (r : Tree α) (par fuel : Nat),
      Rep h nil (Tree.node c l a v r) par → (Tree.node c l a v r).height ≤ fuel →
      _minimum_loop h nil fuel a = some ((Tree.node c l a v r).addrs.headD nil)
  | Tree.leaf, c, a, v, r, par, fuel, hrep, hf => by
    obtain ⟨f, rfl⟩ : ∃ f, fuel = f + 1 := ⟨fuel - 1, by simp [Tree.height] at hf; omega⟩
    simp [_minimum_loop, hrep.2.1, Tree.addrs]
  | Tree.node lc ll la lv lr, c, a, v, r, par, fuel, hrep, hf => by
    obtain ⟨f, rfl⟩ : ∃ f, fuel = f + 1 := ⟨fuel - 1, by simp [Tree.height] at hf; omega⟩
    have ih := minimum_loop_refines ll lc la lv lr a f hrep.2.2.1
      (by simp only [Tree.height] at hf ⊢; omega)
    rw [Tree.headD_addrs_node] at ih
    rw [Tree.headD_addrs_node, Tree.headD_addrs_node, ← ih]
    simp [_minimum_loop, hrep.2.1, hrep.2.2.1.1]

theorem maximum_loop_refines {h : Heap α} {nil : Nat} :
    ∀ (r : Tree α) (c : rb_tree_node_color) (l : Tree α) (a : Nat) (v : α) (par fuel : Nat),
      Rep h nil (Tree.node c l a v r) par → (Tree.node c l a v r).height ≤ fuel →
      _maximum_loop h nil fuel a = some ((Tree.node c l a v r).addrs.reverse.headD nil)
  | Tree.leaf, c, l, a, v, par, fuel, hrep, hf => by
    obtain ⟨f, rfl⟩ : ∃ f, fuel = f + 1 := ⟨fuel - 1, by simp [Tree.height] at hf; omega⟩
    simp [_maximum_loop, hrep.2.1, Tree.addrs]
  | Tree.node rc rl ra rv rr, c, l, a, v, par, fuel, hrep, hf => by
    obtain ⟨f, rfl⟩ : ∃ f, fuel = f + 1 := ⟨fuel - 1, by simp [Tree.height] at hf; omega⟩
    have ih := maximum_loop_refines rr rc rl ra rv a f hrep.2.2.2
      (by simp only [Tree.height] at hf ⊢; omega)
    rw [Tree.headD_reverse_addrs_node] at ih
    rw [Tree.headD_reverse_addrs_node, Tree.headD_reverse_addrs_node, ← ih]
    simp [_maximum_loop, hrep.2.1, hrep.2.2.2.1]

theorem minimum_refines {h : Heap α} {nil : Nat} {T : Tree α} {par : Nat}
    (hrep : Rep h nil T par) (hf : T.height < h.fuel) :
    _minimum h (T.ptr nil) nil = some (T.addrs.headD nil) := by
  cases T with
  | leaf => simp [_minimum, Tree.addrs]
  | node c l a v r =>
    simp only [_minimum, Tree.ptr_node, hrep.1, if_false]
    exact minimum_loop_refines l c a v r par h.fuel hrep (by omega)

theorem maximum_refines {h : Heap α} {nil : Nat} {T : Tree α} {par : Nat}
    (hrep : Rep h nil T par) (hf : T.height < h.fuel) :
    _maximum h (T.ptr nil) nil = some (T.addrs.reverse.headD nil) := by
  cases T with
  | leaf => simp [_maximum, Tree.addrs]
  | node c l a v r =>
    simp only [_maximum, Tree.ptr_node, hrep.1, if_false]
    exact maximum_loop_refines r c l a v par h.fuel hrep (by omega)

theorem next_loop_refines {h : Heap α} {nil : Nat} :
    ∀ (path : Path α) (a fuel : Nat), RepPath h nil path a → a ≠ nil → a ∉ path.addrs →
      path.addrs.Nodup → path.depth < fuel →
      _next_loop h nil fuel a (path.parent nil) = some (path.nextUp nil)
  | Path.top, a, fuel, _, _, _, _, hf => by
    obtain ⟨f, rfl⟩ : ∃ f, fuel = f + 1 := ⟨fuel - 1, by omega⟩
    simp [_next_loop, Path.nextUp]
  | Path.left c q qv qr up, a, fuel, hrep, ha, hm, _, hf => by
    obtain ⟨f, rfl⟩ : ∃ f, fuel = f + 1 := ⟨fuel - 1, by omega⟩
    have hne : a ≠ qr.ptr nil := Tree.ptr_ne ha (fun hmem => hm (by simp [Path.addrs, hmem]))
    simp [_next_loop, Path.nextUp, hrep.1, hrep.2.1, hne]
  | Path.right c ql q qv up, a, fuel, hrep, ha, hm, hnd, hf => by
    obtain ⟨f, rfl⟩ : ∃ f, fuel = f + 1 := ⟨fuel - 1, by omega⟩
    simp only [Path.addrs, List.nodup_cons, List.mem_append, not_or, List.nodup_append] at hnd
    have ih := next_loop_refines up q f hrep.2.2.2 hrep.1 hnd.1.2 hnd.2.2.1
      (by simp only [Path.depth] at hf; omega)
    simp [_next_loop, Path.nextUp, hrep.1, hrep.2.1, ih]

theorem prev_loop_refines {h : Heap α} {nil : Nat} :
    ∀ (path : Path α) (a fuel : Nat), RepPath h nil path a → a ≠ nil → a ∉ path.addrs →
      path.addrs.Nodup → path.depth < fuel →
      _prev_loop h nil fuel a (path.parent nil) = some (path.prevUp nil)
  | Path.top, a, fuel, _, _, _, _, hf => by
    obtain ⟨f, rfl⟩ : ∃ f, fuel = f + 1 := ⟨fuel - 1, by omega⟩
    simp [_prev_loop, Path.prevUp]
  | Path.right c ql q qv up, a, fuel, hrep, ha, hm, _, hf => by
    obtain ⟨f, rfl⟩ : ∃ f, fuel = f + 1 := ⟨fuel - 1, by omega⟩
    have hne : a ≠ ql.ptr nil := Tree.ptr_ne ha (fun hmem => hm (by simp [Path.addrs, hmem]))
    simp [_prev_loop, Path.prevUp, hrep.1, hrep.2.1, hne]
  | Path.left c q qv qr up, a, fuel, hrep, ha, hm, hnd, hf => by
    obtain ⟨f, rfl⟩ : ∃ f, fuel = f + 1 := ⟨fuel - 1, by omega⟩
    simp only [Path.addrs, List.nodup_cons, List.mem_append, not_or, List.nodup_append] at hnd
    have ih := prev_loop_refines up q f hrep.2.2.2 hrep.1 hnd.1.2 hnd.2.2.1
      (by simp only [Path.depth] at hf; omega)
    simp [_prev_loop, Path.prevUp, hrep.1, hrep.2.1, ih]

open rb_tree_base_node

/-! ### Successor, predecessor and the two scans -/

theorem next_refines {h : Heap α} {nil : Nat} {path : Path α} {c : rb_tree_node_color}
    {l : Tree α} {a : Nat} {v : α} {r : Tree α}
    (hrep : Rep h nil (path.fill (Tree.node c l a v r)) nil)
    (hnd : (path.fill (Tree.node c l a v r)).addrs.Nodup)
    (hf : (path.fill (Tree.node c l a v r)).size < h.fuel) :
    _next h a nil = some (r.addrs.headD (path.nextUp nil)) := by
  have hr := read_focus hrep
  have hsz := Path.depth_add_size_le path (Tree.node c l a v r)
  simp only [Tree.size] at hsz
  rw [rep_fill] at hrep
  rw [Path.nodup_fill] at hnd
  obtain ⟨hpath, hne, -, -, hrr⟩ := hrep
  simp only [Tree.addrs, List.nodup_append, List.nodup_cons, List.mem_append, List.mem_cons,
    not_or, List.disjoint_cons_left, List.disjoint_cons_right, List.disjoint_append_left,
    List.disjoint_append_right, List.cons_append, List.append_assoc] at hnd
  cases r with
  | leaf =>
    have := next_loop_refines path a h.fuel hpath hne (by tauto) (by tauto) (by omega)
    simp [_next, hne, hr, this, Tree.addrs]
  | node rc rl ra rv rr =>
    have hmin := minimum_refines hrr (by
      have := Tree.height_le_size (Tree.node rc rl ra rv rr)
      omega)
    simp only [Tree.ptr_node] at hmin
    simp only [_next, hne, hr, if_false, Tree.ptr_node, hrr.1, ne_eq, not_false_eq_true, if_true,
      hmin]
    rw [Tree.headD_addrs_node, Tree.headD_addrs_node]

theorem prev_refines {h : Heap α} {nil : Nat} {path : Path α} {c : rb_tree_node_color}
    {l : Tree α} {a : Nat} {v : α} {r : Tree α}
    (hrep : Rep h nil (path.fill (Tree.node c l a v r)) nil)
    (hnd : (path.fill (Tree.node c l a v r)).addrs.Nodup)
    (hf : (path.fill (Tree.node c l a v r)).size < h.fuel) :
    _prev h a nil = some (l.addrs.reverse.headD (path.prevUp nil)) := by
  have hr := read_focus hrep
  have hsz := Path.depth_add_size_le path (Tree.node c l a v r)
  simp only [Tree.size] at hsz
  rw [rep_fill] at hrep
  rw [Path.nodup_fill] at hnd
  obtain ⟨hpath, hne, -, hll, -⟩ := hrep
  simp only [Tree.addrs, List.nodup_append, List.nodup_cons, List.mem_append, List.mem_cons,
    not_or, List.disjoint_cons_left, List.disjoint_cons_right, List.disjoint_append_left,
    List.disjoint_append_right, List.cons_append, List.append_assoc] at hnd
  cases l with
  | leaf =>
    have := prev_loop_refines path a h.fuel hpath hne (by tauto) (by tauto) (by omega)
    simp [_prev, hne, hr, this, Tree.addrs]
  | node lc ll la lv lr =>
    have hmax := maximum_refines hll (by
      have := Tree.height_le_size (Tree.node lc ll la lv lr)
      omega)
    simp only [Tree.ptr_node] at hmax
    simp only [_prev, hne, hr, if_false, Tree.ptr_node, hll.1, ne_eq, not_false_eq_true, if_true,
      hmax]
    rw [Tree.headD_reverse_addrs_node, Tree.headD_reverse_addrs_node]

theorem forward_loop_mono {h : Heap α} : ∀ (f f1 : Nat) (it : rb_tree_iterator) (r : List Nat),
    forward_loop h f it = some r → f ≤ f1 → forward_loop h f1 it = some r
  | 0, _, _, _, h0, _ => by simp [forward_loop] at h0
  | f + 1, f1, it, r, h0, hle => by
    obtain ⟨g, rfl⟩ : ∃ g, f1 = g + 1 := ⟨f1 - 1, by omega⟩
    simp only [forward_loop] at h0 ⊢
    split at h0
    · rename_i hne
      rw [if_pos hne]
      cases hi : rb_tree_iterator.inc h it with
      | none => simp [hi] at h0
      | some it1 =>
        simp only [hi] at h0 ⊢
        cases hl : forward_loop h f it1 with
        | none => simp [hl] at h0
        | some rest =>
          simp only [hl] at h0
          rw [forward_loop_mono f g it1 rest hl (by omega)]
          exact h0
    · rename_i hne
      rw [if_neg hne]
      exact h0

/-- Scanning forward from the first node of a subtree visits the subtree in
order and goes on from the first ancestor reached from a left child. -/
theorem forward_loop_subtree {h : Heap α} {nil : Nat} :
    ∀ (t : Tree α) (path : Path α) (fuel : Nat) (rest : List Nat),
      Rep h nil (path.fill t) nil → (path.fill t).addrs.Nodup → (path.fill t).size < h.fuel →
      forward_loop h fuel ⟨path.nextUp nil, nil⟩ = some rest →
      forward_loop h (fuel + t.size) ⟨t.addrs.headD (path.nextUp nil), nil⟩ =
        some (t.addrs ++ rest)
  | Tree.leaf, path, fuel, rest, _, _, _, h0 => by simpa [Tree.addrs, Tree.size] using h0
  | Tree.node c l a v r, path, fuel, rest, hrep, hnd, hf, h0 => by
    have ihr := forward_loop_subtree r (Path.right c l a v path) fuel rest hrep hnd hf
      (by simpa [Path.nextUp] using h0)
    simp only [Path.nextUp] at ihr
    have hnext := next_refines hrep hnd hf
    have hane : a ≠ nil := ((rep_fill _ _).1 hrep).2.1
    have hstep : forward_loop h (fuel + r.size + 1) ⟨a, nil⟩ = some (a :: (r.addrs ++ rest)) := by
      simp only [forward_loop, ne_eq, hane, not_false_eq_true, if_true, rb_tree_iterator.inc,
        hnext, ihr]
    have ihl := forward_loop_subtree l (Path.left c a v r path) (fuel + r.size + 1)
      (a :: (r.addrs ++ rest)) hrep hnd hf (by simpa [Path.nextUp] using hstep)
    simp only [Path.nextUp] at ihl
    rw [Tree.headD_addrs_node]
    have e : fuel + (Tree.node c l a v r).size = fuel + r.size + 1 + l.size := by
      simp only [Tree.size]; omega
    rw [e, ihl]
    simp [Tree.addrs]

theorem Models.size_lt_fuel {h : Heap α} {t : rb_tree α} {T : Tree α} (hm : Models h t T) :
    T.size < h.fuel := by
  have h1 := Rep.size_lt_next hm.rep hm.nodup hm.sentinel hm.bound
  simp only [Heap.fuel]
  omega

theorem forward_refines {h : Heap α} {t : rb_tree α} {T : Tree α} (hm : Models h t T) :
    forward h t = some T.addrs := by
  have hmin := minimum_refines hm.rep hm.height_lt_fuel
  have h1 := forward_loop_subtree T Path.top 1 [] hm.rep hm.nodup hm.size_lt_fuel
    (by simp [forward_loop, Path.nextUp])
  have h2 := forward_loop_mono _ h.fuel _ _ h1 (by have := hm.size_lt_fuel; omega)
  simp only [Path.nextUp, List.append_nil] at h2
  simp only [forward, rb_tree.min, hm.root, hmin, h2]

theorem valuesAt_append {h : Heap α} : ∀ (l1 l2 : List Nat) (v1 v2 : List α),
    valuesAt h l1 = some v1 → valuesAt h l2 = some v2 → valuesAt h (l1 ++ l2) = some (v1 ++ v2)
  | [], l2, v1, v2, h1, h2 => by
    simp only [valuesAt, Option.some.injEq] at h1
    subst h1
    simpa using h2
  | p :: ps, l2, v1, v2, h1, h2 => by
    simp only [valuesAt, List.cons_append] at h1 ⊢
    cases hv : h.value p with
    | none => simp [hv] at h1
    | some v =>
      cases hr : valuesAt h ps with
      | none => simp [hv, hr] at h1
      | some vs =>
        simp only [hv, hr, Option.some.injEq] at h1
        subst h1
        simp [valuesAt_append ps l2 vs v2 hr h2]

theorem valuesAt_addrs {h : Heap α} {nil : Nat} : ∀ (T : Tree α) (par : Nat), Rep h nil T par →
    valuesAt h T.addrs = some T.keys
  | Tree.leaf, _, _ => rfl
  | Tree.node c l a v r, par, hrep => by
    have h1 := valuesAt_addrs l a hrep.2.2.1
    have h2 := valuesAt_addrs r a hrep.2.2.2
    have h3 : valuesAt h (a :: r.addrs) = some (v :: r.keys) := by
      simp [valuesAt, Heap.value, hrep.2.1, h2]
    exact valuesAt_append _ _ _ _ h1 h3

theorem height_go_refines {h : Heap α} {nil : Nat} : ∀ (T : Tree α) (par fuel : Nat),
    Rep h nil T par → T.height < fuel →
    _height_rb_tree_go h nil fuel (T.ptr nil) = some T.height
  | Tree.leaf, _, fuel, _, hf => by
    obtain ⟨f, rfl⟩ : ∃ f, fuel = f + 1 := ⟨fuel - 1, by omega⟩
    simp [_height_rb_tree_go, Tree.height]
  | Tree.node c l a v r, par, fuel, hrep, hf => by
    obtain ⟨f, rfl⟩ : ∃ f, fuel = f + 1 := ⟨fuel - 1, by omega⟩
    simp only [Tree.height] at hf
    have ihl := height_go_refines l a f hrep.2.2.1 (by omega)
    have ihr := height_go_refines r a f hrep.2.2.2 (by omega)
    simp [_height_rb_tree_go, hrep.1, hrep.2.1, ihl, ihr, Tree.height]

theorem height_refines {h : Heap α} {t : rb_tree α} {T : Tree α} (hm : Models h t T) :
    t.height h = some T.height := by
  rw [rb_tree.height, _height_rb_tree, hm.root]
  exact height_go_refines T _ _ hm.rep hm.height_lt_fuel

theorem Tree.pow_blackHeight_le : ∀ (T : Tree α), T.Balanced → 2 ^ T.blackHeight ≤ T.size + 1
  | Tree.leaf, _ => by simp [Tree.blackHeight, Tree.size]
  | Tree.node c l a v r, hb => by
    have h1 := Tree.pow_blackHeight_le l hb.1
    have h2 := Tree.pow_blackHeight_le r hb.2.1
    rw [← hb.2.2] at h2
    simp only [Tree.blackHeight, Tree.size]
    split
    · rw [pow_succ]; omega
    · omega

theorem Tree.height_le_blackHeight : ∀ (T : Tree α), T.Balanced → T.NoRedRed →
    T.height ≤ 2 * T.blackHeight + (if T.rootColor = Red then 1 else 0)
  | Tree.leaf, _, _ => by simp [Tree.height]
  | Tree.node c l a v r, hb, hn => by
    have h1 := Tree.height_le_blackHeight l hb.1 hn.2.1
    have h2 := Tree.height_le_blackHeight r hb.2.1 hn.2.2
    rw [← hb.2.2] at h2
    simp only [Tree.height, Tree.blackHeight, Tree.rootColor_node]
    cases c with
    | Red =>
      have := hn.1 rfl
      simp only [this.1, this.2] at h1 h2
      simp at h1 h2 ⊢
      omega
    | Black =>
      simp only [if_true]
      split at h1 <;> split at h2 <;> simp <;> omega

/-- The red-black height guarantee. -/
theorem Tree.height_le_log {T : Tree α} (hrb : T.rootColor = Black) (hb : T.Balanced)
    (hn : T.NoRedRed) : T.height ≤ 2 * Nat.log 2 (T.size + 1) ∧ 2 ^ T.height ≤ (T.size + 1) ^ 2 := by
  have h1 := Tree.height_le_blackHeight T hb hn
  have h2 := Tree.pow_blackHeight_le T hb
  simp only [hrb] at h1
  simp at h1
  constructor
  · have := Nat.le_log_of_pow_le (by norm_num : 1 < 2) h2
    omega
  · calc 2 ^ T.height ≤ 2 ^ (2 * T.blackHeight) := Nat.pow_le_pow_right (by norm_num) h1
      _ = (2 ^ T.blackHeight) ^ 2 := by rw [mul_comm, pow_mul]
      _ ≤ (T.size + 1) ^ 2 := Nat.pow_le_pow_left h2 2

/-- Every entry of `blackCounts` of a balanced tree is its black height. -/
theorem Tree.blackCounts_eq : ∀ (T : Tree α), T.Balanced → ∀ x ∈ T.blackCounts, x = T.blackHeight
  | Tree.leaf, _, x, hx => by simpa [Tree.blackCounts, Tree.blackHeight] using hx
  | Tree.node c l a v r, hb, x, hx => by
    simp only [Tree.blackCounts, List.mem_map, List.mem_append] at hx
    obtain ⟨y, hy, rfl⟩ := hx
    have hy1 : y = l.blackHeight := by
      rcases hy with hy | hy
      · exact Tree.blackCounts_eq l hb.1 y hy
      · rw [hb.2.2]; exact Tree.blackCounts_eq r hb.2.1 y hy
    simp only [Tree.blackHeight, hy1]

theorem Tree.balanced_of_mem_subtrees : ∀ (T : Tree α), T.Balanced → ∀ s ∈ T.subtrees, s.Balanced
  | Tree.leaf, _, s, hs => by simp [Tree.subtrees] at hs
  | Tree.node c l a v r, hb, s, hs => by
    simp only [Tree.subtrees, List.mem_cons, List.mem_append] at hs
    rcases hs with rfl | hs | hs
    · exact hb
    · exact Tree.balanced_of_mem_subtrees l hb.1 s hs
    · exact Tree.balanced_of_mem_subtrees r hb.2.1 s hs

theorem Tree.uniform_of_balanced {T : Tree α} (hb : T.Balanced) :
    ∀ s ∈ T.subtrees, ∀ x ∈ s.blackCounts, ∀ y ∈ s.blackCounts, x = y := by
  intro s hs x hx y hy
  have hsb := Tree.balanced_of_mem_subtrees T hb s hs
  rw [Tree.blackCounts_eq s hsb x hx, Tree.blackCounts_eq s hsb y hy]

/-! ### `clear` -/

theorem clear_go_refines {nil : Nat} : ∀ (T : Tree α) (h : Heap α) (par fuel : Nat),
    Rep h nil T par → T.addrs.Nodup → T.height < fuel →
    ∃ h1, _clear_rb_tree_go nil fuel h (T.ptr nil) = some h1 ∧
      (∀ q, q ∉ T.addrs → h1.read q = h.read q) ∧ (∀ q ∈ T.addrs, h1.read q = none) ∧
      h1.next = h.next
  | Tree.leaf, h, _, fuel, _, _, hf => by
    obtain ⟨f, rfl⟩ : ∃ f, fuel = f + 1 := ⟨fuel - 1, by omega⟩
    exact ⟨h, by simp [_clear_rb_tree_go], fun _ _ => rfl, fun q hq => by simp [Tree.addrs] at hq,
      rfl⟩
  | Tree.node c l a v r, h, par, fuel, hrep, hnd, hf => by
    obtain ⟨f, rfl⟩ : ∃ f, fuel = f + 1 := ⟨fuel - 1, by omega⟩
    simp only [Tree.height] at hf
    simp only [Tree.addrs, List.nodup_append, List.nodup_cons, List.mem_cons, not_or,
      List.disjoint_cons_right] at hnd
    obtain ⟨hndl, ⟨har, hndr⟩, hal, hdis⟩ := hnd
    obtain ⟨h1, e1, f1, g1, n1⟩ := clear_go_refines l h a f hrep.2.2.1 hndl (by omega)
    have hr1 : Rep h1 nil r a := Rep.frame (fun b hb => f1 b (fun hbl => hdis hbl hb)) hrep.2.2.2
    obtain ⟨h2, e2, f2, g2, n2⟩ := clear_go_refines r h1 a f hr1 hndr (by omega)
    have ha1 : h1.read a = h.read a := f1 a hal
    have ha2 : h2.read a = h.read a := (f2 a har).trans ha1
    refine ⟨⟨fun q => if q = a then none else h2.cells q, h2.next⟩, ?_, ?_, ?_, by
      simp [n2, n1]⟩
    · simp [_clear_rb_tree_go, hrep.1, hrep.2.1, e1, ha1, e2, Heap.free, ha2]
    · intro q hq
      simp only [Tree.addrs, List.mem_append, List.mem_cons, not_or] at hq
      show (if q = a then none else h2.cells q) = h.read q
      rw [if_neg hq.2.1]
      exact (f2 q hq.2.2).trans (f1 q hq.1)
    · intro q hq
      simp only [Tree.addrs, List.mem_append, List.mem_cons] at hq
      show (if q = a then none else h2.cells q) = none
      by_cases hqa : q = a
      · rw [if_pos hqa]
      · rw [if_neg hqa]
        rcases hq with hq | hq | hq
        · by_cases hqr : q ∈ r.addrs
          · exact g2 q hqr
          · exact (f2 q hqr).trans (g1 q hq)
        · exact absurd hq hqa
        · exact g2 q hq

theorem clear_inv {h : Heap α} {t : rb_tree α} {T : Tree α} (hi : Inv h t T) :
    ∃ h1, t.clear h = some (h1, { t with _root := t._nil, _size := 0 }) ∧
      Inv h1 { t with _root := t._nil, _size := 0 } Tree.leaf := by
  have hm := hi.models
  obtain ⟨h1, e1, f1, g1, n1⟩ := clear_go_refines T h t._nil h.fuel hm.rep hm.nodup
    hm.height_lt_fuel
  have hkeep : ∀ q, h.read q = none → h1.read q = none := by
    intro q hq
    by_cases hqa : q ∈ T.addrs
    · exact g1 q hqa
    · exact (f1 q hqa).trans hq
  refine ⟨h1, ?_, ⟨trivial, rfl, List.nodup_nil, ?_, hkeep 0 hm.null, ?_⟩, rfl, rfl, trivial,
    trivial⟩
  · simp [rb_tree.clear, _clear_rb_tree, hm.root, e1]
  · exact (f1 _ (Rep.nil_not_mem hm.rep)).trans hm.sentinel
  · intro p hp
    exact hkeep p (hm.bound p (by omega))

theorem runCalls_inv : ∀ (cs : List (Call α)) {h : Heap α} {t : rb_tree α} {T : Tree α},
    Inv h t T → ∃ h1 t1 T1, runCalls cs (h, t) = some (h1, t1) ∧ Inv h1 t1 T1
  | [], h, t, T, hi => ⟨h, t, T, rfl, hi⟩
  | Call.insert k :: cs, h, t, T, hi => by
    obtain ⟨h1, t1, it, b, he, hi1, -, -⟩ := insert_inv hi k
    obtain ⟨h2, t2, T2, he2, hi2⟩ := runCalls_inv cs hi1
    exact ⟨h2, t2, T2, by simp [runCalls, he, he2], hi2⟩
  | Call.clear :: cs, h, t, T, hi => by
    obtain ⟨h1, he, hi1⟩ := clear_inv hi
    obtain ⟨h2, t2, T2, he2, hi2⟩ := runCalls_inv cs hi1
    exact ⟨h2, t2, T2, by simp [runCalls, he, he2], hi2⟩

/-! ### The tree held by a store is unique -/

theorem Rep.unique {h : Heap α} {nil : Nat} : ∀ (T T1 : Tree α) (par par1 : Nat),
    Rep h nil T par → Rep h nil T1 par1 → T.ptr nil = T1.ptr nil → T = T1
  | Tree.leaf, Tree.leaf, _, _, _, _, _ => rfl
  | Tree.leaf, Tree.node c l a v r, _, _, _, h1, e => by
    simp only [Tree.ptr_leaf, Tree.ptr_node] at e
    exact absurd e.symm h1.1
  | Tree.node c l a v r, Tree.leaf, _, _, h0, _, e => by
    simp only [Tree.ptr_leaf, Tree.ptr_node] at e
    exact absurd e h0.1
  | Tree.node c l a v r, Tree.node c1 l1 a1 v1 r1, par, par1, h0, h1, e => by
    simp only [Tree.ptr_node] at e
    subst e
    have hr := h0.2.1.symm.trans h1.2.1
    simp only [Option.some.injEq, rb_tree_node.mk.injEq] at hr
    obtain ⟨-, hl, hrr, hc, hv⟩ := hr
    rw [Rep.unique l l1 a a h0.2.2.1 h1.2.2.1 hl, Rep.unique r r1 a a h0.2.2.2 h1.2.2.2 hrr, hc, hv]

theorem Models.tree_unique {h : Heap α} {t : rb_tree α} {T T1 : Tree α} (h0 : Models h t T)
    (h1 : Models h t T1) : T = T1 :=
  Rep.unique T T1 _ _ h0.rep h1.rep (h0.root.symm.trans h1.root)

theorem Rep.entry {h : Heap α} {nil : Nat} : ∀ (T : Tree α) (par : Nat), Rep h nil T par →
    ∀ a v, (a, v) ∈ T.entries → h.value a = some v ∧ a ≠ nil ∧ a ∈ T.addrs
  | Tree.leaf, _, _, a, v, hm => by simp [Tree.entries] at hm
  | Tree.node c l b w r, par, hrep, a, v, hm => by
    simp only [Tree.entries, List.mem_append, List.mem_cons, Prod.mk.injEq] at hm
    simp only [Tree.addrs, List.mem_append, List.mem_cons]
    rcases hm with hm | ⟨rfl, rfl⟩ | hm
    · have := Rep.entry l b hrep.2.2.1 a v hm
      exact ⟨this.1, this.2.1, Or.inl this.2.2⟩
    · exact ⟨by simp [Heap.value, hrep.2.1], hrep.1, Or.inr (Or.inl rfl)⟩
    · have := Rep.entry r b hrep.2.2.2 a v hm
      exact ⟨this.1, this.2.1, Or.inr (Or.inr this.2.2)⟩

theorem Models.entry_live {h : Heap α} {t : rb_tree α} {T : Tree α} (hm : Models h t T) {a : Nat}
    {v : α} (he : (a, v) ∈ T.entries) :
    h.value a = some v ∧ a ≠ t._nil ∧ a ≠ 0 ∧ a ∈ T.addrs := by
  obtain ⟨h1, h2, h3⟩ := Rep.entry T _ hm.rep a v he
  refine ⟨h1, h2, ?_, h3⟩
  rintro rfl
  simp [Heap.value, hm.null] at h1

/-! ### `search` -/

theorem search_found {h : Heap α} {t : rb_tree α} {T : Tree α} (hm : Models h t T) (k : α)
    {p1 : Path α} {c : rb_tree_node_color} {l : Tree α} {a : Nat} {v : α} {r : Tree α}
    (hz : zoom t._comp k T Path.top = (p1, Tree.node c l a v r)) :
    t.search h k = some a := by
  obtain ⟨he, e1, e2⟩ := zoom_node_entry hz
  obtain ⟨hv, hne, -, -⟩ := hm.entry_live he
  simp [rb_tree.search, search_refines hm, hz, stopPtr, hne, rb_tree._values_equivalent, hv,
    e1, e2]

theorem search_missing {h : Heap α} {t : rb_tree α} {T : Tree α} (hm : Models h t T) (k : α)
    {p1 : Path α} (hz : zoom t._comp k T Path.top = (p1, Tree.leaf)) :
    t.search h k = some 0 := by
  have hfill := zoom_fill t._comp k T Path.top
  rw [hz] at hfill
  simp only [Path.fill] at hfill
  have hrep := hm.rep
  rw [← hfill, rep_fill] at hrep
  obtain ⟨hpath, -⟩ := hrep
  rcases zoom_leaf_cases _ _ _ _ _ hz with rfl | ⟨c, a, v, r, up, rfl, hc⟩ |
    ⟨c, l, a, v, up, rfl, hc1, hc2⟩
  · simp [rb_tree.search, search_refines hm, hz, stopPtr]
  · simp [rb_tree.search, search_refines hm, hz, stopPtr, hpath.1, rb_tree._values_equivalent,
      Heap.value, hpath.2.1, hc]
  · simp [rb_tree.search, search_refines hm, hz, stopPtr, hpath.1, rb_tree._values_equivalent,
      Heap.value, hpath.2.1, hc1, hc2]

/-- Inserting a value equivalent to a stored one changes nothing and returns
the node that stores it. -/
theorem insert_found_entry {h : Heap α} {t : rb_tree α} {T : Tree α}
    (hswo : StrictWeakOrder t._comp) (hm : Models h t T) (hinc : Increasing t._comp T.keys)
    {a : Nat} {v : α} (he : (a, v) ∈ T.entries) {k : α} (hk : Equiv t._comp k v) :
    t.insert h k = some (h, t, ⟨a, t._nil⟩, false) := by
  rcases hz : zoom t._comp k T Path.top with ⟨p1, t1⟩
  cases t1 with
  | leaf => exact absurd hk (zoom_leaf_not_equiv hswo hinc hz v (Tree.mem_keys_of_entry he))
  | node c l a1 v1 r =>
    obtain ⟨he1, hk1⟩ := zoom_node_entry hz
    have hvv : Equiv t._comp v v1 := hswo.equiv_trans _ _ _ hk.symm hk1
    have := eq_of_equiv_of_increasing (c := t._comp) Prod.snd
      (by rw [← Tree.keys_eq_map]; exact hinc) he he1 hvv
    simp only [Prod.mk.injEq] at this
    obtain ⟨rfl, rfl⟩ := this
    exact insert_found hm k hz

theorem search_found_entry {h : Heap α} {t : rb_tree α} {T : Tree α}
    (hswo : StrictWeakOrder t._comp) (hm : Models h t T) (hinc : Increasing t._comp T.keys)
    {a : Nat} {v : α} (he : (a, v) ∈ T.entries) {k : α} (hk : Equiv t._comp k v) :
    t.search h k = some a := by
  rcases hz : zoom t._comp k T Path.top with ⟨p1, t1⟩
  cases t1 with
  | leaf => exact absurd hk (zoom_leaf_not_equiv hswo hinc hz v (Tree.mem_keys_of_entry he))
  | node c l a1 v1 r =>
    obtain ⟨he1, hk1⟩ := zoom_node_entry hz
    have hvv : Equiv t._comp v v1 := hswo.equiv_trans _ _ _ hk.symm hk1
    have := eq_of_equiv_of_increasing (c := t._comp) Prod.snd
      (by rw [← Tree.keys_eq_map]; exact hinc) he he1 hvv
    simp only [Prod.mk.injEq] at this
    obtain ⟨rfl, rfl⟩ := this
    exact search_found hm k hz

theorem search_not_equiv {h : Heap α} {t : rb_tree α} {T : Tree α} (hm : Models h t T) {k : α}
    (hk : ∀ v ∈ T.keys, ¬ Equiv t._comp k v) : t.search h k = some 0 := by
  rcases hz : zoom t._comp k T Path.top with ⟨p1, t1⟩
  cases t1 with
  | leaf => exact search_missing hm k hz
  | node c l a1 v1 r =>
    obtain ⟨he1, hk1⟩ := zoom_node_entry hz
    exact absurd hk1 (hk v1 (Tree.mem_keys_of_entry he1))

theorem Tree.mem_entries_of_key {T : Tree α} {v : α} (h : v ∈ T.keys) :
    ∃ a, (a, v) ∈ T.entries := by
  rw [Tree.keys_eq_map, List.mem_map] at h
  obtain ⟨⟨a, w⟩, hm, rfl⟩ := h
  exact ⟨a, hm⟩

/-! ### The comparators of the examples -/

theorem less_strictWeakOrder : StrictWeakOrder less := by
  refine ⟨fun a => by simp [less], fun a b c h1 h2 => ?_, fun a b c h1 h2 => ?_⟩
  · simp only [less, decide_eq_true_eq] at h1 h2 ⊢
    omega
  · simp only [Equiv, less, decide_eq_false_iff_not] at h1 h2 ⊢
    omega

theorem halfLess_strictWeakOrder : StrictWeakOrder halfLess := by
  refine ⟨fun a => by simp [halfLess], fun a b c h1 h2 => ?_, fun a b c h1 h2 => ?_⟩
  · simp only [halfLess, decide_eq_true_eq] at h1 h2 ⊢
    omega
  · simp only [Equiv, halfLess, decide_eq_false_iff_not] at h1 h2 ⊢
    omega

/-! ### Trees reached by insertions from the empty tree -/

theorem reach_inv (comp : α → α → Bool) (ks : List α) :
    ∃ h t T, insertAll ks (fresh comp) = some (h, t) ∧ Inv h t T ∧ t._comp = comp := by
  obtain ⟨h, t, T, he, hi, hc, -⟩ := insertAll_inv ks (fresh_inv comp)
  exact ⟨h, t, T, he, hi, hc⟩

theorem reach_keys {comp : α → α → Bool} (hswo : StrictWeakOrder comp) (ks : List α) :
    ∃ h t T, insertAll ks (fresh comp) = some (h, t) ∧ Inv h t T ∧ t._comp = comp ∧
      Increasing comp T.keys ∧ (∀ v ∈ T.keys, v ∈ ks) ∧
      (∀ k ∈ ks, ∃ v ∈ T.keys, Equiv comp k v) ∧
      (ks.Pairwise (fun a b => ¬ Equiv comp a b) → T.keys.Perm ks) := by
  obtain ⟨h, t, T, he, hi, hc, -, hinc, h1, -, h3, h4⟩ :=
    insertAll_keys ks (h := (fresh comp).1) (t := (fresh comp).2) hswo (fresh_inv comp)
      List.Pairwise.nil
  refine ⟨h, t, T, he, hi, hc, hinc, ?_, h3, ?_⟩
  · intro v hv
    rcases h1 v hv with h5 | h5
    · simp [Tree.keys] at h5
    · exact h5
  · intro hp
    simpa [Tree.keys] using h4 hp (by simp [Tree.keys])

/-- The sequence of insertions determines the state reached and the tree it holds. -/
theorem reach_unique {comp : α → α → Bool} {ks : List α} {h : Heap α} {t : rb_tree α}
    {T : Tree α} (hswo : StrictWeakOrder comp)
    (hrun : insertAll ks (fresh comp) = some (h, t)) (hm : Models h t T) :
    Inv h t T ∧ t._comp = comp ∧ Increasing comp T.keys ∧ (∀ v ∈ T.keys, v ∈ ks) ∧
      (∀ k ∈ ks, ∃ v ∈ T.keys, Equiv comp k v) := by
  obtain ⟨h1, t1, T1, he, hi, hc, hinc, hk1, hk3, -⟩ := reach_keys hswo ks
  rw [hrun] at he
  simp only [Option.some.injEq, Prod.mk.injEq] at he
  obtain ⟨rfl, rfl⟩ := he
  have := Models.tree_unique hm hi.models
  subst this
  exact ⟨hi, hc, hinc, hk1, hk3⟩

theorem Tree.size_eq_zero_iff (T : Tree α) : T.size = 0 ↔ T = Tree.leaf := by
  cases T with
  | leaf => simp [Tree.size]
  | node c l a v r => simp [Tree.size]

theorem Models.root_eq_nil_iff {h : Heap α} {t : rb_tree α} {T : Tree α} (hm : Models h t T) :
    t._root = t._nil ↔ T = Tree.leaf := by
  rw [hm.root]
  cases T with
  | leaf => simp
  | node c l a v r => simpa using hm.rep.1

theorem Models.root_color {h : Heap α} {t : rb_tree α} {T : Tree α} (hm : Models h t T) :
    h.color t._root = some T.rootColor := by
  rw [hm.root]
  cases T with
  | leaf => simp [Heap.color, hm.sentinel]
  | node c l a v r => simp [Heap.color, hm.rep.2.1]

/-- What one call of `insert` does in a state reached with a strict weak ordering. -/
theorem insert_cases {h : Heap α} {t : rb_tree α} {T : Tree α}
    (hswo : StrictWeakOrder t._comp) (hi : Inv h t T) (hinc : Increasing t._comp T.keys) (k : α) :
    (∃ a v, (a, v) ∈ T.entries ∧ Equiv t._comp k v ∧
        t.insert h k = some (h, t, ⟨a, t._nil⟩, false)) ∨
      ((∀ v ∈ T.keys, ¬ Equiv t._comp k v) ∧
        ∃ h1 r T1, t.insert h k = some (h1, { t with _root := r, _size := t._size + 1 },
            ⟨h.next, t._nil⟩, true) ∧
          Inv h1 { t with _root := r, _size := t._size + 1 } T1 ∧
          Increasing t._comp T1.keys ∧ (h.next, k) ∈ T1.entries ∧
          ∃ l1 l2, T.keys = l1 ++ l2 ∧ T1.keys = l1 ++ k :: l2 ∧
            (∀ x ∈ l1, t._comp x k = true) ∧ (∀ x ∈ l2, t._comp k x = true)) := by
  rcases hz : zoom t._comp k T Path.top with ⟨p1, t1⟩
  cases t1 with
  | node c l a v r =>
    obtain ⟨he, hk⟩ := zoom_node_entry hz
    exact Or.inl ⟨a, v, he, hk, insert_found hi.models k hz⟩
  | leaf =>
    obtain ⟨h1, he, hm1⟩ := insert_new hi.models hi.rootBlack k hz
    obtain ⟨hrb1, hbal1, hnrr1⟩ := Tree.ins_shape t._comp h.next k hi.rootBlack
      hi.balanced hi.noRedRed
    obtain ⟨hb, ha⟩ := zoom_leaf_split hswo hinc hz
    refine Or.inr ⟨zoom_leaf_not_equiv hswo hinc hz, h1, _, _, he,
      ⟨hm1, ?_, hrb1, hbal1, hnrr1⟩, Tree.ins_increasing hswo h.next k hinc,
      Tree.ins_new_entry h.next hz, p1.before, p1.after, zoom_leaf_keys hz,
      Tree.ins_new_keys h.next hz, hb, ha⟩
    simp only [Tree.ins_size h.next k hz, hi.size]

/-! ### Trees up to addresses -/

theorem Tree.keys_mapAddr (f : Nat → Nat) : ∀ (t : Tree α), (t.mapAddr f).keys = t.keys
  | Tree.leaf => rfl
  | Tree.node _ l _ _ r => by
    simp [Tree.mapAddr, Tree.keys, Tree.keys_mapAddr f l, Tree.keys_mapAddr f r]

theorem Tree.size_mapAddr (f : Nat → Nat) : ∀ (t : Tree α), (t.mapAddr f).size = t.size
  | Tree.leaf => rfl
  | Tree.node _ l _ _ r => by
    simp [Tree.mapAddr, Tree.size, Tree.size_mapAddr f l, Tree.size_mapAddr f r]

theorem Tree.height_mapAddr (f : Nat → Nat) : ∀ (t : Tree α), (t.mapAddr f).height = t.height
  | Tree.leaf => rfl
  | Tree.node _ l _ _ r => by
    simp [Tree.mapAddr, Tree.height, Tree.height_mapAddr f l, Tree.height_mapAddr f r]

theorem Tree.rootColor_mapAddr (f : Nat → Nat) : ∀ (t : Tree α),
    (t.mapAddr f).rootColor = t.rootColor
  | Tree.leaf => rfl
  | Tree.node _ _ _ _ _ => rfl

theorem Tree.paint_mapAddr (f : Nat → Nat) (c : rb_tree_node_color) : ∀ (t : Tree α),
    (t.paint c).mapAddr f = (t.mapAddr f).paint c
  | Tree.leaf => rfl
  | Tree.node _ _ _ _ _ => rfl

theorem Tree.mapAddr_mapAddr (f g : Nat → Nat) : ∀ (t : Tree α),
    (t.mapAddr f).mapAddr g = t.mapAddr (g ∘ f)
  | Tree.leaf => rfl
  | Tree.node _ l _ _ r => by
    simp [Tree.mapAddr, Tree.mapAddr_mapAddr f g l, Tree.mapAddr_mapAddr f g r]

theorem Path.fill_mapAddr (f : Nat → Nat) : ∀ (path : Path α) (t : Tree α),
    (path.fill t).mapAddr f = (path.mapAddr f).fill (t.mapAddr f)
  | Path.top, _ => rfl
  | Path.left c a v r up, t => by
    simp [Path.fill, Path.mapAddr, Path.fill_mapAddr f up, Tree.mapAddr]
  | Path.right c l a v up, t => by
    simp [Path.fill, Path.mapAddr, Path.fill_mapAddr f up, Tree.mapAddr]

theorem zoom_mapAddr (comp : α → α → Bool) (k : α) (f : Nat → Nat) :
    ∀ (t : Tree α) (path : Path α),
      zoom comp k (t.mapAddr f) (path.mapAddr f) =
        ((zoom comp k t path).1.mapAddr f, (zoom comp k t path).2.mapAddr f)
  | Tree.leaf, path => by simp [zoom, Tree.mapAddr]
  | Tree.node c l a v r, path => by
    simp only [zoom, Tree.mapAddr]
    split
    · have := zoom_mapAddr comp k f l (Path.left c a v r path)
      simpa [Path.mapAddr] using this
    · split
      · have := zoom_mapAddr comp k f r (Path.right c l a v path)
        simpa [Path.mapAddr] using this
      · simp [Tree.mapAddr]

theorem fixupT_mapAddr (f : Nat → Nat) (path : Path α) (zt : Tree α) :
    fixupT (path.mapAddr f) (zt.mapAddr f) = (fixupT path zt).mapAddr f := by
  induction path, zt using fixupT.induct with
  | case1 p pv pr c g gv up zt ul ua uv ur ih =>
    simpa [Path.mapAddr, Tree.mapAddr, fixupT] using ih
  | case3 pl p pv gc g gv up zt ul ua uv ur ih =>
    simpa [Path.mapAddr, Tree.mapAddr, fixupT] using ih
  | case6 p pv pr gc g gv up zt ul ua uv ur ih =>
    simpa [Path.mapAddr, Tree.mapAddr, fixupT] using ih
  | case9 pl p pv c g gv up zt ul ua uv ur ih =>
    simpa [Path.mapAddr, Tree.mapAddr, fixupT] using ih
  | case2 p pv pr c g gv u up zt hu =>
    have e := Tree.rootColor_black_of_not_red hu
    rw [fixupT_ll_black _ _ _ _ _ _ _ _ _ e]
    simp only [Path.mapAddr]
    rw [fixupT_ll_black _ _ _ _ _ _ _ _ _ ((Tree.rootColor_mapAddr f u).trans e)]
    simp [Path.fill_mapAddr, Tree.mapAddr]
  | case10 pl p pv c u g gv up zt hu =>
    have e := Tree.rootColor_black_of_not_red hu
    rw [fixupT_rr_black _ _ _ _ _ _ _ _ _ e]
    simp only [Path.mapAddr]
    rw [fixupT_rr_black _ _ _ _ _ _ _ _ _ ((Tree.rootColor_mapAddr f u).trans e)]
    simp [Path.fill_mapAddr, Tree.mapAddr]
  | case4 pl p pv gc g gv u up c zl z zv zr hu =>
    have e := Tree.rootColor_black_of_not_red hu
    rw [fixupT_rl_black _ _ _ _ _ _ _ _ _ _ _ _ _ e]
    simp only [Path.mapAddr, Tree.mapAddr]
    rw [fixupT_rl_black _ _ _ _ _ _ _ _ _ _ _ _ _ ((Tree.rootColor_mapAddr f u).trans e)]
    simp [Path.fill_mapAddr, Tree.mapAddr]
  | case7 p pv pr gc u g gv up c zl z zv zr hu =>
    have e := Tree.rootColor_black_of_not_red hu
    rw [fixupT_lr_black _ _ _ _ _ _ _ _ _ _ _ _ _ e]
    simp only [Path.mapAddr, Tree.mapAddr]
    rw [fixupT_lr_black _ _ _ _ _ _ _ _ _ _ _ _ _ ((Tree.rootColor_mapAddr f u).trans e)]
    simp [Path.fill_mapAddr, Tree.mapAddr]
  | case5 pl p pv gc g gv u up hu =>
    have e := Tree.rootColor_black_of_not_red hu
    cases u with
    | leaf => simp [fixupT, Path.mapAddr, Tree.mapAddr, Path.fill_mapAddr, Path.fill]
    | node uc ul ua uv ur =>
      cases uc with
      | Red => simp [Tree.rootColor] at e
      | Black => simp [fixupT, Path.mapAddr, Tree.mapAddr, Path.fill_mapAddr, Path.fill]
  | case8 p pv pr gc u g gv up hu =>
    have e := Tree.rootColor_black_of_not_red hu
    cases u with
    | leaf => simp [fixupT, Path.mapAddr, Tree.mapAddr, Path.fill_mapAddr, Path.fill]
    | node uc ul ua uv ur =>
      cases uc with
      | Red => simp [Tree.rootColor] at e
      | Black => simp [fixupT, Path.mapAddr, Tree.mapAddr, Path.fill_mapAddr, Path.fill]
  | case11 path zt h1 h2 h3 h4 =>
    cases path with
    | top => simp [fixupT_top, Path.mapAddr]
    | left pc p pv pr up =>
      cases pc with
      | Black => simp [fixupT_left_black, Path.mapAddr, Path.fill_mapAddr]
      | Red =>
        cases up with
        | top => simp [fixupT, Path.mapAddr, Path.fill_mapAddr, Path.fill, Tree.mapAddr]
        | left gc g gv u up2 => exact (h1 _ _ _ _ _ _ _ _ rfl).elim
        | right gc u g gv up2 => exact (h3 _ _ _ _ _ _ _ _ rfl).elim
    | right pc pl p pv up =>
      cases pc with
      | Black => simp [fixupT_right_black, Path.mapAddr, Path.fill_mapAddr]
      | Red =>
        cases up with
        | top => simp [fixupT, Path.mapAddr, Path.fill_mapAddr, Path.fill, Tree.mapAddr]
        | left gc g gv u up2 => exact (h2 _ _ _ _ _ _ _ _ rfl).elim
        | right gc u g gv up2 => exact (h4 _ _ _ _ _ _ _ _ rfl).elim

theorem Tree.ins_mapAddr (comp : α → α → Bool) (f : Nat → Nat) (z : Nat) (k : α) (T : Tree α) :
    (T.ins comp z k).mapAddr f = (T.mapAddr f).ins comp (f z) k := by
  have hz := zoom_mapAddr comp k f T Path.top
  simp only [Path.mapAddr] at hz
  unfold Tree.ins
  rw [hz]
  rcases hzz : zoom comp k T Path.top with ⟨p1, t1⟩
  cases t1 with
  | leaf =>
    simp only [Tree.mapAddr]
    rw [Tree.paint_mapAddr, ← fixupT_mapAddr]
    simp [Tree.mapAddr]
  | node c l a v r => simp [Tree.mapAddr]

/-! ### Reading the shape, and inserting into trees of the same shape -/

theorem Tree.mapAddr_eq_leaf (f : Nat → Nat) (t : Tree α) :
    t.mapAddr f = Tree.leaf ↔ t = Tree.leaf := by
  cases t <;> simp [Tree.mapAddr]

theorem Tree.shape_shape (T : Tree α) : T.shape.shape = T.shape := by
  simp [Tree.shape, Tree.mapAddr_mapAddr]
  rfl

theorem shapeBelow_refines {h : Heap α} {nil : Nat} : ∀ (T : Tree α) (par fuel : Nat),
    Rep h nil T par → T.height < fuel → shapeBelow h nil fuel (T.ptr nil) = some T.shape
  | Tree.leaf, _, fuel, _, hf => by
    obtain ⟨f, rfl⟩ : ∃ f, fuel = f + 1 := ⟨fuel - 1, by omega⟩
    simp [shapeBelow, Tree.shape, Tree.mapAddr]
  | Tree.node c l a v r, par, fuel, hrep, hf => by
    obtain ⟨f, rfl⟩ : ∃ f, fuel = f + 1 := ⟨fuel - 1, by omega⟩
    simp only [Tree.height] at hf
    have ihl := shapeBelow_refines l a f hrep.2.2.1 (by omega)
    have ihr := shapeBelow_refines r a f hrep.2.2.2 (by omega)
    simp [shapeBelow, hrep.1, hrep.2.1, ihl, ihr, Tree.shape, Tree.mapAddr]

theorem shape_refines {h : Heap α} {t : rb_tree α} {T : Tree α} (hm : Models h t T) :
    t.shape h = some T.shape := by
  rw [rb_tree.shape, hm.root]
  exact shapeBelow_refines T _ _ hm.rep hm.height_lt_fuel

theorem zoom_shape_leaf (comp : α → α → Bool) (k : α) (T : Tree α) :
    (zoom comp k T.shape Path.top).2 = Tree.leaf ↔ (zoom comp k T Path.top).2 = Tree.leaf := by
  have hz := zoom_mapAddr comp k (fun _ => 0) T Path.top
  simp only [Path.mapAddr] at hz
  rw [Tree.shape, hz]
  exact Tree.mapAddr_eq_leaf _ _

/-- The flag `insert` returns tells whether the descent stopped at a leaf link. -/
theorem insert_flag {h : Heap α} {t : rb_tree α} {T : Tree α} (hi : Inv h t T) (k : α)
    {h1 : Heap α} {t1 : rb_tree α} {it : rb_tree_iterator} {b : Bool}
    (he : t.insert h k = some (h1, t1, it, b)) :
    b = true ↔ (zoom t._comp k T Path.top).2 = Tree.leaf := by
  rcases hz : zoom t._comp k T Path.top with ⟨p1, t2⟩
  cases t2 with
  | leaf =>
    obtain ⟨h2, he2, -⟩ := insert_new hi.models hi.rootBlack k hz
    rw [he] at he2
    simp only [Option.some.injEq, Prod.mk.injEq] at he2
    simp [he2.2.2.2]
  | node c l a v r =>
    have he2 := insert_found hi.models k hz
    rw [he] at he2
    simp only [Option.some.injEq, Prod.mk.injEq] at he2
    simp [he2.2.2.2]

theorem insertFlags_sim : ∀ (ks : List α) {h g : Heap α} {t u : rb_tree α} {T U : Tree α},
    Inv h t T → Inv g u U → u._comp = t._comp → U.shape = T.shape →
    ∃ flags a b A B, insertFlags ks (h, t) = some (flags, a) ∧
      insertFlags ks (g, u) = some (flags, b) ∧ Inv a.1 a.2 A ∧ Inv b.1 b.2 B ∧
      B.shape = A.shape
  | [], h, g, t, u, T, U, hi, hj, _, hs => ⟨[], (h, t), (g, u), T, U, rfl, rfl, hi, hj, hs⟩
  | k :: ks, h, g, t, u, T, U, hi, hj, hc, hs => by
    obtain ⟨h1, t1, it, b, he, hi1, hc1, -⟩ := insert_inv hi k
    obtain ⟨g1, u1, jt, d, je, hj1, jc1, -⟩ := insert_inv hj k
    have hb := insert_flag hi k he
    have hd := insert_flag hj k je
    have hbd : d = b := by
      rw [← zoom_shape_leaf] at hb hd
      rw [hc, hs] at hd
      cases b <;> cases d <;> simp_all
    have hs1 : (U.ins u._comp g.next k).shape = (T.ins t._comp h.next k).shape := by
      simp only [Tree.shape, Tree.ins_mapAddr]
      rw [hc]
      exact congrArg (fun s => Tree.ins t._comp 0 k s) hs
    obtain ⟨flags, a, c, A, B, e1, e2, ia, ib, hab⟩ :=
      insertFlags_sim ks hi1 hj1 (jc1.trans (hc.trans hc1.symm)) hs1
    subst hbd
    exact ⟨d :: flags, a, c, A, B, by simp [insertFlags, he, e1], by simp [insertFlags, je, e2],
      ia, ib, hab⟩

theorem scan_values {h : Heap α} {t : rb_tree α} {T : Tree α} (hm : Models h t T) :
    (forward h t).bind (valuesAt h) = some T.keys := by
  rw [forward_refines hm]
  exact valuesAt_addrs T _ hm.rep

theorem Tree.keys_shape (T : Tree α) : T.shape.keys = T.keys := Tree.keys_mapAddr _ T

theorem Tree.size_shape (T : Tree α) : T.shape.size = T.size := Tree.size_mapAddr _ T

theorem Tree.height_shape (T : Tree α) : T.shape.height = T.height := Tree.height_mapAddr _ T

open rb_tree_node_color rb_tree_base_node

/-! ### Positions in the in-order sequence -/

/-- Every node of a tree is the focus of a position in it. -/
theorem Tree.focus_of_entry : ∀ (T : Tree α) (path : Path α) (a : Nat) (v : α),
    (a, v) ∈ T.entries → ∃ (p1 : Path α) (c : rb_tree_node_color) (l r : Tree α),
      path.fill T = p1.fill (Tree.node c l a v r)
  | Tree.leaf, _, _, _, h => by simp [Tree.entries] at h
  | Tree.node c l b w r, path, a, v, h => by
    simp only [Tree.entries, List.mem_append, List.mem_cons, Prod.mk.injEq] at h
    rcases h with h | ⟨rfl, rfl⟩ | h
    · exact Tree.focus_of_entry l (Path.left c b w r path) a v h
    · exact ⟨path, c, l, r, rfl⟩
    · exact Tree.focus_of_entry r (Path.right c l b w path) a v h

theorem Tree.entry_of_addr (T : Tree α) {a : Nat} (h : a ∈ T.addrs) :
    ∃ v, (a, v) ∈ T.entries := by
  rw [Tree.addrs_eq_map] at h
  obtain ⟨⟨b, v⟩, hb, rfl⟩ := List.mem_map.1 h
  exact ⟨v, hb⟩

/-- The in-order sequence around a position: what comes before the subtree put
at the position and what comes after it. -/
theorem Path.entries_fill_split : ∀ (path : Path α),
    ∃ E1 E2 : List (Nat × α), (∀ t, (path.fill t).entries = E1 ++ t.entries ++ E2) ∧
      E1.map Prod.fst = path.addrsBefore ∧ E2.map Prod.fst = path.addrsAfter ∧
      E1.map Prod.snd = path.before ∧ E2.map Prod.snd = path.after
  | Path.top => ⟨[], [], by simp [Path.fill], rfl, rfl, rfl, rfl⟩
  | Path.left c a v r up => by
    obtain ⟨E1, E2, he, h1, h2, h3, h4⟩ := Path.entries_fill_split up
    refine ⟨E1, (a, v) :: (r.entries ++ E2), ?_, ?_, ?_, ?_, ?_⟩
    · intro t
      simp [Path.fill, he, Tree.entries]
    · simpa [Path.addrsBefore] using h1
    · simp [Path.addrsAfter, h2, Tree.addrs_eq_map]
    · simpa [Path.before] using h3
    · simp [Path.after, h4, Tree.keys_eq_map]
  | Path.right c l a v up => by
    obtain ⟨E1, E2, he, h1, h2, h3, h4⟩ := Path.entries_fill_split up
    refine ⟨E1 ++ (l.entries ++ [(a, v)]), E2, ?_, ?_, ?_, ?_, ?_⟩
    · intro t
      simp [Path.fill, he, Tree.entries]
    · simp [Path.addrsBefore, h1, Tree.addrs_eq_map]
    · simpa [Path.addrsAfter] using h2
    · simp [Path.before, h3, Tree.keys_eq_map]
    · simpa [Path.after] using h4

theorem Path.headD_addrsAfter (nil : Nat) : ∀ (path : Path α),
    path.addrsAfter.headD nil = path.nextUp nil
  | Path.top => rfl
  | Path.left _ _ _ _ _ => rfl
  | Path.right _ _ _ _ up => Path.headD_addrsAfter nil up

theorem Path.headD_reverse_addrsBefore (nil : Nat) : ∀ (path : Path α),
    path.addrsBefore.reverse.headD nil = path.prevUp nil
  | Path.top => rfl
  | Path.left _ _ _ _ up => Path.headD_reverse_addrsBefore nil up
  | Path.right _ l a _ up => by simp [Path.addrsBefore, Path.prevUp]

theorem headD_append_headD (l1 l2 : List Nat) (d : Nat) :
    (l1 ++ l2).headD d = l1.headD (l2.headD d) := by
  cases l1 <;> simp

/-- The two navigation steps at a node, given the in-order sequence split at
the node: `_next` returns the first node after it and `_prev` the last node
before it, the sentinel standing for "none". -/
theorem nav_split {h : Heap α} {t : rb_tree α} {T : Tree α} (hm : Models h t T)
    {E1 E2 : List (Nat × α)} {x : Nat} {v : α} (hsplit : T.entries = E1 ++ (x, v) :: E2) :
    _next h x t._nil = some ((E2.map Prod.fst).headD t._nil) ∧
      _prev h x t._nil = some ((E1.map Prod.fst).reverse.headD t._nil) := by
  have hmem : (x, v) ∈ T.entries := by rw [hsplit]; simp
  obtain ⟨p1, c, l, r, hfill⟩ := Tree.focus_of_entry T Path.top x v hmem
  simp only [Path.fill] at hfill
  obtain ⟨F1, F2, hF, f1, f2, -, -⟩ := Path.entries_fill_split p1
  have hrep := hm.rep
  have hnd := hm.nodup
  have hsz := hm.size_lt_fuel
  rw [hfill] at hrep hnd hsz
  have hn := next_refines hrep hnd hsz
  have hp := prev_refines hrep hnd hsz
  have hnd2 : (T.entries.map Prod.fst).Nodup := by
    rw [← Tree.addrs_eq_map]; exact hm.nodup
  have hE : E1 ++ (x, v) :: E2 = (F1 ++ l.entries) ++ (x, v) :: (r.entries ++ F2) := by
    rw [← hsplit, hfill, hF]
    simp [Tree.entries]
  have hA := congrArg (List.map Prod.fst) hE
  simp only [List.map_append, List.map_cons] at hA
  rw [hsplit] at hnd2
  simp only [List.map_append, List.map_cons] at hnd2
  have hx1 : x ∉ E1.map Prod.fst := by
    intro hx
    exact (List.nodup_append.1 hnd2).2.2 hx (List.mem_cons_self _ _)
  have hx2 : x ∉ E2.map Prod.fst := by
    have := (List.nodup_append.1 hnd2).2.1
    exact (List.nodup_cons.1 this).1
  obtain ⟨e1, -, e2⟩ := (List.append_cons_inj_of_not_mem hx1 hx2).1 hA
  constructor
  · rw [hn, e2, f2, ← Tree.addrs_eq_map, headD_append_headD, Path.headD_addrsAfter]
  · rw [hp, e1, f1, ← Tree.addrs_eq_map, List.reverse_append, headD_append_headD,
      Path.headD_reverse_addrsBefore]

/-- The split of the sequence at a given entry. -/
theorem Tree.split_of_entry (T : Tree α) {x : Nat} {v : α} (h : (x, v) ∈ T.entries) :
    ∃ E1 E2, T.entries = E1 ++ (x, v) :: E2 :=
  List.append_of_mem h

open rb_tree_node_color rb_tree_base_node

/-! ### Order facts about a strictly increasing sequence -/

theorem StrictWeakOrder.asymm {comp : α → α → Bool} (hswo : StrictWeakOrder comp) {a b : α}
    (h : comp a b = true) : comp b a = false := by
  cases hb : comp b a with
  | false => rfl
  | true =>
    have := hswo.trans a b a h hb
    rw [hswo.irrefl a] at this
    exact absurd this (by simp)

theorem Models.entry_iff {h : Heap α} {t : rb_tree α} {T : Tree α} (hm : Models h t T)
    (z : Nat) (vz : α) : (z, vz) ∈ T.entries ↔ z ∈ T.addrs ∧ h.value z = some vz := by
  constructor
  · intro he
    obtain ⟨h1, -, -, h4⟩ := hm.entry_live he
    exact ⟨h4, h1⟩
  · rintro ⟨hz, hv⟩
    obtain ⟨w, hw⟩ := Tree.entry_of_addr T hz
    obtain ⟨h1, -⟩ := hm.entry_live hw
    rw [hv] at h1
    simp only [Option.some.injEq] at h1
    rw [h1]
    exact hw

theorem increasing_split {comp : α → α → Bool} {E1 E2 : List (Nat × α)} {x : Nat} {vx : α}
    (hinc : Increasing comp ((E1 ++ (x, vx) :: E2).map Prod.snd)) :
    (∀ e ∈ E1, comp e.2 vx = true) ∧ (∀ e ∈ E2, comp vx e.2 = true) ∧
      Increasing comp (E1.map Prod.snd) ∧ Increasing comp (E2.map Prod.snd) := by
  unfold Increasing at hinc ⊢
  rw [List.map_append, List.map_cons, List.pairwise_append, List.pairwise_cons] at hinc
  obtain ⟨h1, ⟨h2, h3⟩, h4⟩ := hinc
  refine ⟨fun e he => ?_, fun e he => ?_, h1, h3⟩
  · exact h4 e.2 (List.mem_map_of_mem _ he) vx (List.mem_cons_self _ _)
  · exact h2 e.2 (List.mem_map_of_mem _ he)

/-- The node `_next` returns is the sentinel exactly when no stored value is
greater than the value at `x`; otherwise it holds the least stored value that
is greater. -/
theorem next_order {h : Heap α} {t : rb_tree α} {T : Tree α}
    (hswo : StrictWeakOrder t._comp) (hm : Models h t T) (hinc : Increasing t._comp T.keys)
    {x : Nat} {vx : α} (hx : (x, vx) ∈ T.entries) :
    ∃ y, _next h x t._nil = some y ∧
      (y = t._nil ↔ ∀ z vz, (z, vz) ∈ T.entries → t._comp vx vz = false) ∧
      (y ≠ t._nil → ∃ vy, (y, vy) ∈ T.entries ∧ t._comp vx vy = true ∧
        ∀ z vz, (z, vz) ∈ T.entries → t._comp vx vz = true → z = y ∨ t._comp vy vz = true) := by
  obtain ⟨E1, E2, hsplit⟩ := Tree.split_of_entry T hx
  obtain ⟨hn, -⟩ := nav_split hm hsplit
  rw [Tree.keys_eq_map, hsplit] at hinc
  obtain ⟨hb, ha, -, hinc2⟩ := increasing_split hinc
  have hlow : ∀ z vz, (z, vz) ∈ E1 ++ [(x, vx)] → t._comp vx vz = false := by
    intro z vz hz
    simp only [List.mem_append, List.mem_singleton, Prod.mk.injEq] at hz
    rcases hz with hz | ⟨-, rfl⟩
    · exact hswo.asymm (hb _ hz)
    · exact hswo.irrefl _
  cases E2 with
  | nil =>
    refine ⟨t._nil, by simpa using hn, ?_, fun hne => absurd rfl hne⟩
    simp only [true_iff]
    intro z vz hz
    rw [hsplit] at hz
    exact hlow z vz (by simpa using hz)
  | cons e E3 =>
    obtain ⟨y, vy⟩ := e
    have hy : (y, vy) ∈ T.entries := by rw [hsplit]; simp
    have hyn : y ≠ t._nil := (hm.entry_live hy).2.1
    refine ⟨y, by simpa using hn, ?_, fun _ => ⟨vy, hy, ha _ (List.mem_cons_self _ _), ?_⟩⟩
    · constructor
      · intro e; exact absurd e hyn
      · intro hall
        have h1 := hall y vy hy
        rw [ha (y, vy) (List.mem_cons_self _ _)] at h1
        exact absurd h1 (by simp)
    · intro z vz hz hgt
      rw [hsplit] at hz
      simp only [List.mem_append, List.mem_cons, Prod.mk.injEq] at hz
      rcases hz with hz | ⟨rfl, rfl⟩ | ⟨rfl, rfl⟩ | hz
      · rw [hlow z vz (by simp [hz])] at hgt
        exact absurd hgt (by simp)
      · rw [hswo.irrefl] at hgt
        exact absurd hgt (by simp)
      · exact Or.inl rfl
      · right
        unfold Increasing at hinc2
        rw [List.map_cons, List.pairwise_cons] at hinc2
        exact hinc2.1 vz (List.mem_map_of_mem Prod.snd hz)

/-- Climbing from a position through right-child links ends below the first
ancestor reached from a left child: the subtree put at the position is at the
right end of the left subtree of that ancestor. -/
theorem Path.nextUp_left : ∀ (path : Path α) (nil : Nat) (t : Tree α) (e : Nat),
    (∀ d, t.addrs.reverse.headD d = e) → path.nextUp nil ≠ nil →
    ∃ (c : rb_tree_node_color) (y : Nat) (v : α) (r : Tree α) (up : Path α) (L : Tree α),
      path.fill t = up.fill (Tree.node c L y v r) ∧ path.nextUp nil = y ∧
        ∀ d, L.addrs.reverse.headD d = e
  | Path.top, nil, _, _, _, hne => absurd rfl hne
  | Path.left c a v r up, _, t, _, ht, _ => ⟨c, a, v, r, up, t, rfl, rfl, ht⟩
  | Path.right c l a v up, nil, t, e, ht, hne => by
    have := Path.nextUp_left up nil (Tree.node c l a v t) e
      (fun d => by rw [Tree.headD_reverse_addrs_node]; exact ht a) hne
    simpa [Path.fill, Path.nextUp] using this

/-- The mirror image of `Path.nextUp_left`. -/
theorem Path.prevUp_right : ∀ (path : Path α) (nil : Nat) (t : Tree α) (e : Nat),
    (∀ d, t.addrs.headD d = e) → path.prevUp nil ≠ nil →
    ∃ (c : rb_tree_node_color) (l : Tree α) (y : Nat) (v : α) (up : Path α) (R : Tree α),
      path.fill t = up.fill (Tree.node c l y v R) ∧ path.prevUp nil = y ∧
        ∀ d, R.addrs.headD d = e
  | Path.top, nil, _, _, _, hne => absurd rfl hne
  | Path.right c l a v up, _, t, _, ht, _ => ⟨c, l, a, v, up, t, rfl, rfl, ht⟩
  | Path.left c a v r up, nil, t, e, ht, hne => by
    have := Path.prevUp_right up nil (Tree.node c t a v r) e
      (fun d => by rw [Tree.headD_addrs_node]; exact ht a) hne
    simpa [Path.fill, Path.prevUp] using this

theorem Models.subtree_height_lt {h : Heap α} {t : rb_tree α} {T : Tree α} (hm : Models h t T)
    (path : Path α) (s : Tree α) (hfill : T = path.fill s) : s.height < h.fuel := by
  have h1 := Tree.height_le_size s
  have h2 := Path.depth_add_size_le path s
  have h3 := hm.size_lt_fuel
  rw [hfill] at h3
  omega

/-- The structure of `_next`: with a right child it is the minimum below that
child; without one, the node returned (if real) has `x` at the right end of its
left subtree. -/
theorem next_structure {h : Heap α} {t : rb_tree α} {T : Tree α} (hm : Models h t T)
    {x : Nat} {vx : α} (hx : (x, vx) ∈ T.entries) :
    ∃ xn y, h.read x = some xn ∧ xn._value = some vx ∧ _next h x t._nil = some y ∧
      (xn._right ≠ t._nil → _minimum h xn._right t._nil = some y) ∧
      (xn._right = t._nil → y ≠ t._nil →
        ∃ yn, h.read y = some yn ∧ _maximum h yn._left t._nil = some x) := by
  obtain ⟨p1, c, l, r, hfill⟩ := Tree.focus_of_entry T Path.top x vx hx
  simp only [Path.fill] at hfill
  have hrep := hm.rep
  have hnd := hm.nodup
  have hsz := hm.size_lt_fuel
  rw [hfill] at hrep hnd hsz
  have hread := read_focus hrep
  have hn := next_refines hrep hnd hsz
  have hxn : x ≠ t._nil := (hm.entry_live hx).2.1
  refine ⟨_, _, hread, rfl, hn, ?_, ?_⟩
  · intro hr
    rw [← hn]
    simp [_next, hxn, hread, hr]
  · intro hr hy
    simp only at hr
    have hrl : r = Tree.leaf := by
      cases r with
      | leaf => rfl
      | node rc rl ra rv rr =>
        have : ra ∈ (p1.fill (Tree.node c l x vx (Tree.node rc rl ra rv rr))).addrs := by
          rw [Path.mem_addrs_fill]
          left
          simp [Tree.addrs]
        exact absurd hr (by
          simp only [Tree.ptr_node]
          intro e
          exact Rep.nil_not_mem hrep (e ▸ this))
    subst hrl
    simp only [Tree.addrs, List.headD_nil] at hy ⊢
    obtain ⟨c1, y, v1, r1, up, L, hf2, hy2, hL⟩ :=
      Path.nextUp_left p1 t._nil (Tree.node c l x vx Tree.leaf) x
        (fun d => by rw [Tree.headD_reverse_addrs_node]; simp [Tree.addrs]) hy
    rw [hf2] at hrep
    have hready := read_focus hrep
    rw [rep_fill] at hrep
    obtain ⟨-, -, -, hrepL, -⟩ := hrep
    have hmax := maximum_refines hrepL
      (hm.subtree_height_lt (Path.left c1 y v1 r1 up) L (by rw [hfill, hf2]; rfl))
    rw [hy2]
    exact ⟨_, hready, by rw [hmax, hL]⟩

open rb_tree_node_color rb_tree_base_node

/-! ### `min()` and `max()` -/

theorem minimum_loop_left {h : Heap α} {nil : Nat} : ∀ (fuel x m : Nat),
    _minimum_loop h nil fuel x = some m → ∃ n, h.read m = some n ∧ n._left = nil
  | 0, _, _, e => by simp [_minimum_loop] at e
  | fuel + 1, x, m, e => by
    simp only [_minimum_loop] at e
    cases hx : h.read x with
    | none => simp [hx] at e
    | some n =>
      simp only [hx] at e
      by_cases hl : n._left = nil
      · simp only [hl, ne_eq, not_true_eq_false, if_false, Option.some.injEq] at e
        subst e
        exact ⟨n, hx, hl⟩
      · simp only [ne_eq, hl, not_false_eq_true, if_true] at e
        exact minimum_loop_left fuel _ m e

theorem maximum_loop_right {h : Heap α} {nil : Nat} : ∀ (fuel x m : Nat),
    _maximum_loop h nil fuel x = some m → ∃ n, h.read m = some n ∧ n._right = nil
  | 0, _, _, e => by simp [_maximum_loop] at e
  | fuel + 1, x, m, e => by
    simp only [_maximum_loop] at e
    cases hx : h.read x with
    | none => simp [hx] at e
    | some n =>
      simp only [hx] at e
      by_cases hl : n._right = nil
      · simp only [hl, ne_eq, not_true_eq_false, if_false, Option.some.injEq] at e
        subst e
        exact ⟨n, hx, hl⟩
      · simp only [ne_eq, hl, not_false_eq_true, if_true] at e
        exact maximum_loop_right fuel _ m e

theorem Tree.entries_ne_nil {T : Tree α} (hT : T ≠ Tree.leaf) : T.entries ≠ [] := by
  cases T with
  | leaf => exact absurd rfl hT
  | node c l a v r => simp [Tree.entries]

/-- On a non-empty tree `min()` returns the first node of the in-order
sequence: no stored value is less than its value, and it has no left child. -/
theorem min_spec {h : Heap α} {t : rb_tree α} {T : Tree α} (hswo : StrictWeakOrder t._comp)
    (hm : Models h t T) (hinc : Increasing t._comp T.keys) (hT : T ≠ Tree.leaf) :
    ∃ m mn vm, t.min h = some m ∧ (m, vm) ∈ T.entries ∧ h.read m = some mn ∧
      mn._left = t._nil ∧ ∀ z vz, (z, vz) ∈ T.entries → t._comp vz vm = false := by
  obtain ⟨⟨m, vm⟩, E, hE⟩ := List.exists_cons_of_ne_nil (Tree.entries_ne_nil hT)
  have hmin : t.min h = some m := by
    rw [rb_tree.min, hm.root, minimum_refines hm.rep hm.height_lt_fuel, Tree.addrs_eq_map, hE]
    rfl
  have hroot : t._root ≠ t._nil := fun e => hT (hm.root_eq_nil_iff.1 e)
  have hloop : _minimum_loop h t._nil h.fuel t._root = some m := by
    simpa [rb_tree.min, _minimum, hroot] using hmin
  obtain ⟨mn, hr, hl⟩ := minimum_loop_left _ _ _ hloop
  have hE2 : T.entries = [] ++ (m, vm) :: E := by simpa using hE
  rw [Tree.keys_eq_map, hE2] at hinc
  obtain ⟨-, ha, -, -⟩ := increasing_split hinc
  refine ⟨m, mn, vm, hmin, by rw [hE]; simp, hr, hl, fun z vz hz => ?_⟩
  rw [hE] at hz
  simp only [List.mem_cons, Prod.mk.injEq] at hz
  rcases hz with ⟨-, rfl⟩ | hz
  · exact hswo.irrefl _
  · exact hswo.asymm (ha _ hz)

/-- On a non-empty tree `max()` returns the last node of the in-order
sequence: no stored value is greater than its value, and it has no right
child. -/
theorem max_spec {h : Heap α} {t : rb_tree α} {T : Tree α} (hswo : StrictWeakOrder t._comp)
    (hm : Models h t T) (hinc : Increasing t._comp T.keys) (hT : T ≠ Tree.leaf) :
    ∃ m mn vm, t.max h = some m ∧ (m, vm) ∈ T.entries ∧ h.read m = some mn ∧
      mn._right = t._nil ∧ ∀ z vz, (z, vz) ∈ T.entries → t._comp vm vz = false := by
  rcases List.eq_nil_or_concat T.entries with hnil | ⟨E, ⟨m, vm⟩, hE⟩
  · exact absurd hnil (Tree.entries_ne_nil hT)
  have hmax : t.max h = some m := by
    rw [rb_tree.max, hm.root, maximum_refines hm.rep hm.height_lt_fuel, Tree.addrs_eq_map, hE]
    simp
  have hroot : t._root ≠ t._nil := fun e => hT (hm.root_eq_nil_iff.1 e)
  have hloop : _maximum_loop h t._nil h.fuel t._root = some m := by
    simpa [rb_tree.max, _maximum, hroot] using hmax
  obtain ⟨mn, hr, hl⟩ := maximum_loop_right _ _ _ hloop
  have hE2 : T.entries = E ++ (m, vm) :: [] := by simpa using hE
  rw [Tree.keys_eq_map, hE2] at hinc
  obtain ⟨hb, -, -, -⟩ := increasing_split hinc
  refine ⟨m, mn, vm, hmax, by rw [hE]; simp, hr, hl, fun z vz hz => ?_⟩
  rw [hE2] at hz
  simp only [List.mem_append, List.mem_singleton, Prod.mk.injEq] at hz
  rcases hz with hz | ⟨-, rfl⟩
  · exact hswo.asymm (hb _ hz)
  · exact hswo.irrefl _

/-! ### `_next` and `_prev` undo each other -/

theorem next_prev_inverse {h : Heap α} {t : rb_tree α} {T : Tree α} (hm : Models h t T)
    {x : Nat} {vx : α} (hx : (x, vx) ∈ T.entries) :
    ∃ y w, _next h x t._nil = some y ∧ _prev h x t._nil = some w ∧
      (y ≠ t._nil → y ∈ T.addrs ∧ _prev h y t._nil = some x) ∧
      (w ≠ t._nil → w ∈ T.addrs ∧ _next h w t._nil = some x) := by
  obtain ⟨E1, E2, hsplit⟩ := Tree.split_of_entry T hx
  obtain ⟨hn, hp⟩ := nav_split hm hsplit
  refine ⟨_, _, hn, hp, ?_, ?_⟩
  · intro hy
    cases E2 with
    | nil => simp at hy
    | cons e E3 =>
      obtain ⟨y, vy⟩ := e
      have hs2 : T.entries = (E1 ++ [(x, vx)]) ++ (y, vy) :: E3 := by simpa using hsplit
      have hmem : (y, vy) ∈ T.entries := by rw [hs2]; simp
      obtain ⟨-, hp2⟩ := nav_split hm hs2
      exact ⟨(hm.entry_live hmem).2.2.2, by simpa using hp2⟩
  · intro hw
    rcases List.eq_nil_or_concat E1 with rfl | ⟨E0, ⟨w, vw⟩, rfl⟩
    · simp at hw
    · have hs2 : T.entries = E0 ++ (w, vw) :: ((x, vx) :: E2) := by simpa using hsplit
      have hmem : (w, vw) ∈ T.entries := by rw [hs2]; simp
      obtain ⟨hn2, -⟩ := nav_split hm hs2
      exact ⟨by simpa using (hm.entry_live hmem).2.2.2, by simpa using hn2⟩

/-! ### Parent links -/

theorem parent_links {h : Heap α} {t : rb_tree α} {T : Tree α} (hm : Models h t T) :
    (t._root ≠ t._nil → ∃ rn, h.read t._root = some rn ∧ rn._parent = t._nil) ∧
      ∀ x ∈ T.addrs, ∃ n, h.read x = some n ∧
        (n._left ≠ t._nil → ∃ ln, h.read n._left = some ln ∧ ln._parent = x) ∧
        (n._right ≠ t._nil → ∃ rn, h.read n._right = some rn ∧ rn._parent = x) := by
  constructor
  · intro hroot
    have hrep := hm.rep
    have hr := hm.root
    cases T with
    | leaf => exact absurd hr hroot
    | node c l a v r =>
      rw [hr]
      exact ⟨_, hrep.2.1, rfl⟩
  · intro x hx
    obtain ⟨vx, hxe⟩ := Tree.entry_of_addr T hx
    obtain ⟨p1, c, l, r, hfill⟩ := Tree.focus_of_entry T Path.top x vx hxe
    simp only [Path.fill] at hfill
    have hrep := hm.rep
    rw [hfill] at hrep
    refine ⟨_, read_focus hrep, ?_, ?_⟩
    · intro hl
      cases l with
      | leaf => exact absurd rfl hl
      | node lc ll la lv lr =>
        have hrep2 : Rep h t._nil
            ((Path.left c x vx r p1).fill (Tree.node lc ll la lv lr)) t._nil := hrep
        exact ⟨_, read_focus hrep2, rfl⟩
    · intro hr
      cases r with
      | leaf => exact absurd rfl hr
      | node rc rl ra rv rr =>
        have hrep2 : Rep h t._nil
            ((Path.right c l x vx p1).fill (Tree.node rc rl ra rv rr)) t._nil := hrep
        exact ⟨_, read_focus hrep2, rfl⟩

/-! ### Height as the longest path -/

theorem Tree.height_mem_pathLengths : ∀ (T : Tree α), T.height ∈ T.pathLengths
  | Tree.leaf => by simp [Tree.height, Tree.pathLengths]
  | Tree.node _ l _ _ r => by
    have hl := Tree.height_mem_pathLengths l
    have hr := Tree.height_mem_pathLengths r
    simp only [Tree.height, Tree.pathLengths, List.mem_map, List.mem_append]
    rcases Nat.le_total l.height r.height with hle | hle
    · exact ⟨r.height, Or.inr hr, by rw [Nat.max_eq_right hle]; omega⟩
    · exact ⟨l.height, Or.inl hl, by rw [Nat.max_eq_left hle]; omega⟩

theorem Tree.le_height_of_mem_pathLengths : ∀ (T : Tree α) (n : Nat),
    n ∈ T.pathLengths → n ≤ T.height
  | Tree.leaf, n, h => by simp [Tree.pathLengths] at h; simp [h]
  | Tree.node _ l _ _ r, n, h => by
    simp only [Tree.pathLengths, List.mem_map, List.mem_append] at h
    obtain ⟨m, hm, rfl⟩ := h
    simp only [Tree.height]
    rcases hm with hm | hm
    · have := Tree.le_height_of_mem_pathLengths l m hm
      omega
    · have := Tree.le_height_of_mem_pathLengths r m hm
      omega

open rb_tree_node_color rb_tree_base_node

/-! ### What `_search` returns -/

theorem Tree.ne_leaf_of_entry {T : Tree α} {e : Nat × α} (h : e ∈ T.entries) : T ≠ Tree.leaf := by
  rintro rfl
  simp [Tree.entries] at h

theorem locate_spec {h : Heap α} {t : rb_tree α} {T : Tree α} (hswo : StrictWeakOrder t._comp)
    (hm : Models h t T) (hinc : Increasing t._comp T.keys) (k : α) :
    ∃ p, t._search h k = some p ∧ (p = t._nil ↔ T = Tree.leaf) ∧
      (∀ a v, (a, v) ∈ T.entries → Equiv t._comp k v → p = a) ∧
      ((∀ v ∈ T.keys, ¬ Equiv t._comp k v) → T ≠ Tree.leaf →
        ∃ pn pv, (p, pv) ∈ T.entries ∧ h.read p = some pn ∧ pn._value = some pv ∧
          (if t._comp k pv = true then pn._left else pn._right) = t._nil ∧
          ∃ l1 l2, T.keys = l1 ++ l2 ∧ Increasing t._comp (l1 ++ k :: l2) ∧
            (t._comp k pv = true → l2.head? = some pv) ∧
            (t._comp k pv = false → l1.getLast? = some pv)) := by
  refine ⟨_, search_refines hm k, ?_⟩
  have hfill := zoom_fill t._comp k T Path.top
  simp only [Path.fill] at hfill
  rcases hz : zoom t._comp k T Path.top with ⟨p1, t1⟩
  rw [hz] at hfill
  simp only at hfill
  cases t1 with
  | node c l a1 v1 r =>
    obtain ⟨he1, hk1⟩ := zoom_node_entry hz
    refine ⟨?_, ?_, ?_⟩
    · simp only [stopPtr]
      constructor
      · intro e; exact absurd e (hm.entry_live he1).2.1
      · intro e; exact absurd e (Tree.ne_leaf_of_entry he1)
    · intro a v he hk
      have hvv : Equiv t._comp v v1 := hswo.equiv_trans _ _ _ hk.symm hk1
      have := eq_of_equiv_of_increasing (c := t._comp) Prod.snd
        (by rw [← Tree.keys_eq_map]; exact hinc) he he1 hvv
      simp only [Prod.mk.injEq] at this
      simp [stopPtr, this.1]
    · intro hno
      exact absurd hk1 (hno v1 (Tree.mem_keys_of_entry he1))
  | leaf =>
    have hkeys := zoom_leaf_keys hz
    obtain ⟨hb, ha⟩ := zoom_leaf_split hswo hinc hz
    have hins : Increasing t._comp (p1.before ++ k :: p1.after) :=
      increasing_insert (by rw [← hkeys]; exact hinc) hb ha
    have hrep := hm.rep
    rw [← hfill] at hrep
    refine ⟨?_, ?_, ?_⟩
    · rcases zoom_leaf_cases _ _ _ _ _ hz with rfl | ⟨c, a, v, r, up, rfl, hc⟩ |
        ⟨c, l, a, v, up, rfl, hc1, hc2⟩
      · simp only [Path.fill] at hfill
        simp [stopPtr, Path.parent, hfill.symm]
      · have he : (a, v) ∈ T.entries := by
          rw [← hfill]; exact mem_entries_focus up c Tree.leaf a v r
        simp only [stopPtr, Path.parent]
        constructor
        · intro e; exact absurd e (hm.entry_live he).2.1
        · intro e; exact absurd e (Tree.ne_leaf_of_entry he)
      · have he : (a, v) ∈ T.entries := by
          rw [← hfill]; exact mem_entries_focus up c l a v Tree.leaf
        simp only [stopPtr, Path.parent]
        constructor
        · intro e; exact absurd e (hm.entry_live he).2.1
        · intro e; exact absurd e (Tree.ne_leaf_of_entry he)
    · intro a v he hk
      exact absurd hk (zoom_leaf_not_equiv hswo hinc hz v (Tree.mem_keys_of_entry he))
    · intro _ hT
      rcases zoom_leaf_cases _ _ _ _ _ hz with rfl | ⟨c, a, v, r, up, rfl, hc⟩ |
        ⟨c, l, a, v, up, rfl, hc1, hc2⟩
      · simp only [Path.fill] at hfill
        exact absurd hfill.symm hT
      · have he : (a, v) ∈ T.entries := by
          rw [← hfill]; exact mem_entries_focus up c Tree.leaf a v r
        have hread : h.read a = some ⟨up.parent t._nil, t._nil, r.ptr t._nil, c, some v⟩ :=
          read_focus (P := up) (l := Tree.leaf) hrep
        refine ⟨_, v, he, hread, rfl, by simp [hc], _, _, hkeys, hins, ?_, ?_⟩
        · intro _; simp [Path.after]
        · intro e; rw [hc] at e; exact absurd e (by simp)
      · have he : (a, v) ∈ T.entries := by
          rw [← hfill]; exact mem_entries_focus up c l a v Tree.leaf
        have hread : h.read a = some ⟨up.parent t._nil, l.ptr t._nil, t._nil, c, some v⟩ :=
          read_focus (P := up) (r := Tree.leaf) hrep
        refine ⟨_, v, he, hread, rfl, by simp [hc1], _, _, hkeys, hins, ?_, ?_⟩
        · intro e; rw [hc1] at e; exact absurd e (by simp)
        · intro _
          simp only [Path.before]
          rw [← List.append_assoc, List.getLast?_append]
          simp

open rb_tree_node_color rb_tree_base_node

/-! ### `insert` over an allocation function that may fail -/

/-- When storage is found, the evaluation over the fallible allocation function
is the evaluation of `insert`. -/
theorem insert_checked_avail (h : Heap α) (t : rb_tree α) (k : α) :
    rb_tree.insert_checked true h t k =
      match t.insert h k with
      | some r => Outcome.ok r
      | none => Outcome.undefined := by
  unfold rb_tree.insert_checked rb_tree._insert_checked rb_tree.insert rb_tree._insert
  cases hs : t._search h k with
  | none => rfl
  | some parent =>
    simp only [Option.bind_eq_bind, Option.some_bind, Option.pure_def, create_node_checked,
      Heap.alloc_checked, Outcome.noexcept, create_node, if_true]
    by_cases hp : parent = t._nil
    · simp only [hp, ne_eq, not_true_eq_false, if_false, if_true, Bool.false_eq_true]
      cases hmod : (h.alloc ⟨0, t._nil, t._nil, Red, some k⟩).1.modify
            (h.alloc ⟨0, t._nil, t._nil, Red, some k⟩).2 (rb_tree_node.set_parent t._nil) with
      | none => rfl
      | some h1 =>
        simp only [Option.some_bind]
        cases hfix : _insert_fixup h1 (h.alloc ⟨0, t._nil, t._nil, Red, some k⟩).2
            (h.alloc ⟨0, t._nil, t._nil, Red, some k⟩).2 t._nil with
        | none => rfl
        | some r => rfl
    · simp only [hp, ne_eq, not_false_eq_true, if_false, if_true]
      cases hv : t._values_equivalent h parent k with
      | none => rfl
      | some found =>
        cases found with
        | true => rfl
        | false =>
          simp only [Option.some_bind, Bool.false_eq_true, if_false]
          cases hmod : (h.alloc ⟨0, t._nil, t._nil, Red, some k⟩).1.modify
              (h.alloc ⟨0, t._nil, t._nil, Red, some k⟩).2 (rb_tree_node.set_parent parent) with
          | none => rfl
          | some h1 =>
            simp only [Option.some_bind]
            cases hnv : h1.value (h.alloc ⟨0, t._nil, t._nil, Red, some k⟩).2 with
            | none => rfl
            | some nv =>
              cases hpv : h1.value parent with
              | none => rfl
              | some pv =>
                simp only
                by_cases hc : t._comp nv pv = true
                · simp only [hc, if_true]
                  cases hm2 : h1.modify parent
                      (rb_tree_node.set_left (h.alloc ⟨0, t._nil, t._nil, Red, some k⟩).2) with
                  | none => rfl
                  | some h2 =>
                    simp only [Option.map_some', Option.some_bind]
                    cases hfix : _insert_fixup h2 (h.alloc ⟨0, t._nil, t._nil, Red, some k⟩).2
                        t._root t._nil with
                    | none => rfl
                    | some r => rfl
                · simp only [hc, if_false, Bool.false_eq_true]
                  cases hm2 : h1.modify parent
                      (rb_tree_node.set_right (h.alloc ⟨0, t._nil, t._nil, Red, some k⟩).2) with
                  | none => rfl
                  | some h2 =>
                    simp only [Option.map_some', Option.some_bind]
                    cases hfix : _insert_fixup h2 (h.alloc ⟨0, t._nil, t._nil, Red, some k⟩).2
                        t._root t._nil with
                    | none => rfl
                    | some r => rfl

/-- When no storage is found, `insert` of a value that is stored (up to
equivalence) returns as usual, no allocation being attempted; `insert` of any
other value ends in `std::terminate`, the store and the tree object being those
the call was given. -/
theorem insert_checked_fail {h : Heap α} {t : rb_tree α} {T : Tree α} (hi : Inv h t T) (k : α) :
    (∃ it, t.insert h k = some (h, t, it, false) ∧
        rb_tree.insert_checked false h t k = Outcome.ok (h, t, it, false)) ∨
      (∃ h1 t1 it, t.insert h k = some (h1, t1, it, true) ∧
        rb_tree.insert_checked false h t k = Outcome.terminate (h, t)) := by
  have hm := hi.models
  have hfill := zoom_fill t._comp k T Path.top
  rcases hz : zoom t._comp k T Path.top with ⟨p1, t1⟩
  rw [hz] at hfill
  simp only [Path.fill] at hfill
  have hrep := hm.rep
  rw [← hfill, rep_fill] at hrep
  cases t1 with
  | node c l a v r =>
    left
    obtain ⟨-, hne, hr, -, -⟩ := hrep
    obtain ⟨e1, e2⟩ := zoom_node_equiv _ _ _ _ _ _ _ _ _ _ hz
    refine ⟨_, insert_found hm k hz, ?_⟩
    simp [rb_tree.insert_checked, rb_tree._insert_checked, search_refines hm, hz, stopPtr, hne,
      rb_tree._values_equivalent, Heap.value, hr, e1, e2]
  | leaf =>
    right
    obtain ⟨h1, he, -⟩ := insert_new hm hi.rootBlack k hz
    refine ⟨_, _, _, he, ?_⟩
    obtain ⟨hpath, -⟩ := hrep
    rcases zoom_leaf_cases _ _ _ _ _ hz with rfl | ⟨c, a, v, r, up, rfl, hc⟩ |
      ⟨c, l, a, v, up, rfl, hc1, hc2⟩
    · simp [rb_tree.insert_checked, rb_tree._insert_checked, search_refines hm, hz, stopPtr,
        Path.parent, create_node_checked, Heap.alloc_checked, Outcome.noexcept]
    · simp [rb_tree.insert_checked, rb_tree._insert_checked, search_refines hm, hz, stopPtr,
        Path.parent, hpath.1, rb_tree._values_equivalent, Heap.value, hpath.2.1, hc,
        create_node_checked, Heap.alloc_checked, Outcome.noexcept]
    · simp [rb_tree.insert_checked, rb_tree._insert_checked, search_refines hm, hz, stopPtr,
        Path.parent, hpath.1, rb_tree._values_equivalent, Heap.value, hpath.2.1, hc1, hc2,
        create_node_checked, Heap.alloc_checked, Outcome.noexcept]

open rb_tree_node_color rb_tree_base_node

/-! ### The copy constructor -/

theorem search_null_sentinel (h : Heap α) (sz : Nat) (comp : α → α → Bool) (v : α) :
    rb_tree._search h ⟨0, 0, sz, comp⟩ v = some 0 := by
  simp [rb_tree._search, Heap.fuel, rb_tree._search_loop]

/-- The fix-up of a node whose parent link is null reads through the null
pointer. -/
theorem insert_fixup_null_parent (g : Heap α) (z root nil : Nat) (zn : rb_tree_node α)
    (hz : g.read z = some zn) (hp : zn._parent = 0) (hnull : g.read 0 = none) :
    _insert_fixup g z root nil = none := by
  simp [_insert_fixup, Heap.fuel, _insert_fixup_loop, hz, hp, hnull]

/-- On a tree object whose sentinel pointer is null, `insert` links the new
node with a null parent and the fix-up then reads the colour of that parent
through the null pointer. -/
theorem insert_null_sentinel (h : Heap α) (hnull : h.read 0 = none) (hnext : h.next ≠ 0)
    (sz : Nat) (comp : α → α → Bool) (v : α) :
    rb_tree.insert h ⟨0, 0, sz, comp⟩ v = none := by
  have hne : ¬ (0 = h.next) := fun e => hnext e.symm
  have hc : h.cells 0 = none := hnull
  have hmod : (create_node h v 0).1.modify h.next (rb_tree_node.set_parent 0) =
      some ((create_node h v 0).1.put h.next ⟨0, 0, 0, Red, some v⟩) := by
    simp [create_node, Heap.alloc, Heap.modify, Heap.read, rb_tree_node.set_parent]
  have hfix : _insert_fixup ((create_node h v 0).1.put h.next ⟨0, 0, 0, Red, some v⟩) h.next
      h.next 0 = none :=
    insert_fixup_null_parent _ _ _ _ ⟨0, 0, 0, Red, some v⟩
      (by simp [Heap.read, Heap.put]) rfl
      (by simp [Heap.read, Heap.put, create_node, Heap.alloc, hne, hc])
  have hcn : (create_node h v 0).2 = h.next := rfl
  simp only [rb_tree.insert, rb_tree._insert, search_null_sentinel, Option.bind_eq_bind,
    Option.some_bind, ne_eq, not_true_eq_false, if_false, if_true, Bool.false_eq_true, hcn, hmod,
    hfix, Option.none_bind]

/-- The copy constructor has no defined result on a non-empty source. -/
theorem new_copy_nonempty {h : Heap α} {t : rb_tree α} {T : Tree α} (hm : Models h t T)
    (hT : T ≠ Tree.leaf) : t.new_copy h = none := by
  have hroot : t._root ≠ t._nil := fun e => hT (hm.root_eq_nil_iff.1 e)
  have hnext : h.next ≠ 0 := by
    have := hm.nil_lt_next
    omega
  have hrep := hm.rep
  have hr := hm.root
  cases T with
  | leaf => exact absurd rfl hT
  | node c l a v r =>
    simp only [Tree.ptr_node] at hr
    have hv : h.value t._root = some v := by
      rw [hr]
      simp [Heap.value, hrep.2.1]
    simp [rb_tree.new_copy, rb_tree._copy, Heap.fuel, rb_tree._copy_go, hroot, hv,
      insert_null_sentinel h hm.null hnext]

/-- The copy of an empty source: a tree object with a null root, a null
sentinel and size 0; the store is not touched. -/
theorem new_copy_empty {h : Heap α} {t : rb_tree α} (hm : Models h t Tree.leaf) :
    t.new_copy h = some (h, ⟨0, 0, t._size, t._comp⟩) := by
  have hr := hm.root
  simp only [Tree.ptr_leaf] at hr
  simp [rb_tree.new_copy, rb_tree._copy, Heap.fuel, rb_tree._copy_go, hr]

open rb_tree_node_color rb_tree_base_node

/-! ### What an insertion leaves alone

The refinement of `insert` once more, this time keeping track of the cells the
call does not touch: every cell off the tree, the new node apart. -/

theorem insert_tail_frame {h g : Heap α} {t : rb_tree α} {T : Tree α} (hm : Models h t T)
    (hrb : T.rootColor = Black) (k : α) {p1 : Path α} (hfill : p1.fill Tree.leaf = T)
    (hrep3 : Rep g t._nil (p1.fill (Tree.node Red Tree.leaf h.next k Tree.leaf)) t._nil)
    (hn3 : g.next = h.next + 1)
    (hf3 : ∀ q, h.read q = none → q ≠ h.next → g.read q = none)
    (hs3 : g.read t._nil = some ⟨0, 0, 0, Black, none⟩) :
    ∃ h4, _insert_fixup g h.next ((p1.fill (Tree.node Red Tree.leaf h.next k Tree.leaf)).ptr t._nil)
        t._nil = some (h4, ((fixupT p1 (Tree.node Red Tree.leaf h.next k Tree.leaf)).paint
          Black).ptr t._nil) ∧
      Models h4 { t with
          _root := ((fixupT p1 (Tree.node Red Tree.leaf h.next k Tree.leaf)).paint Black).ptr t._nil
          _size := t._size + 1 }
        ((fixupT p1 (Tree.node Red Tree.leaf h.next k Tree.leaf)).paint Black) ∧
      SameOff (p1.fill (Tree.node Red Tree.leaf h.next k Tree.leaf)).addrs g h4 := by
  have hlt := Rep.lt_next hm.rep hm.bound
  have hnilt := hm.nil_lt_next
  have hb3 : ∀ p, g.next ≤ p → g.read p = none := fun p hp =>
    hf3 p (hm.bound p (by omega)) (by omega)
  have hnd3 : (p1.fill (Tree.node Red Tree.leaf h.next k Tree.leaf)).addrs.Nodup := by
    rw [Path.nodup_fill]
    have h1 := hm.nodup
    rw [← hfill, Path.nodup_fill] at h1
    simp only [Tree.addrs, List.nil_append, List.singleton_append, List.nodup_cons] at h1 ⊢
    refine ⟨fun hmem => ?_, h1⟩
    have := hlt h.next (by rw [← hfill, Path.mem_addrs_fill]; exact Or.inr hmem)
    omega
  have hrb1 : p1.RootBlack := Path.rootBlack_of_fill p1 Tree.leaf (hfill ▸ hrb)
  obtain ⟨h4, he, hrep4, hso4⟩ := insert_fixup_refines hrb1 hs3 hb3 hrep3 hnd3 rfl
  have hA : ((fixupT p1 (Tree.node Red Tree.leaf h.next k Tree.leaf)).paint Black).addrs =
      (p1.fill (Tree.node Red Tree.leaf h.next k Tree.leaf)).addrs := by
    rw [Tree.addrs_paint, fixupT_addrs]
  refine ⟨h4, he, ⟨hrep4, rfl, hA ▸ hnd3, hso4.sentinel (Rep.nil_not_mem hrep3) hs3, ?_, ?_⟩, hso4⟩
  · exact SameOff.read_none hrep3 hso4 (hf3 0 hm.null (by omega))
  · intro p hp
    rw [hso4.2, hn3] at hp
    exact SameOff.read_none hrep3 hso4 (hf3 p (hm.bound p (by omega)) (by omega))


set_option maxHeartbeats 1000000 in
theorem insert_new_frame {h : Heap α} {t : rb_tree α} {T : Tree α} (hm : Models h t T)
    (hrb : T.rootColor = Black) (k : α) {p1 : Path α}
    (hz : zoom t._comp k T Path.top = (p1, Tree.leaf)) :
    ∃ h1, t.insert h k = some (h1,
        { t with _root := (T.ins t._comp h.next k).ptr t._nil, _size := t._size + 1 },
        ⟨h.next, t._nil⟩, true) ∧
      Models h1 { t with _root := (T.ins t._comp h.next k).ptr t._nil, _size := t._size + 1 }
        (T.ins t._comp h.next k) ∧
      (∀ q, q ∉ T.addrs → q ≠ h.next → h1.read q = h.read q) ∧ h1.next = h.next + 1 := by
  have hfill := zoom_fill t._comp k T Path.top
  rw [hz] at hfill
  simp only [Path.fill] at hfill
  have hlt := Rep.lt_next hm.rep hm.bound
  have hnilt := hm.nil_lt_next
  have hznil : h.next ≠ t._nil := by omega
  have hrep := hm.rep
  have hnd := hm.nodup
  rw [← hfill, rep_fill] at hrep
  rw [← hfill, Path.nodup_fill] at hnd
  have hmemp : ∀ a ∈ p1.addrs, a < h.next := fun a ha =>
    hlt a (by rw [← hfill, Path.mem_addrs_fill]; exact Or.inr ha)
  rw [Tree.ins_of_leaf h.next hz]
  obtain ⟨hpath, -⟩ := hrep
  rcases zoom_leaf_cases _ _ _ _ _ hz with rfl | ⟨c, a, v, r, up, rfl, hc⟩ |
    ⟨c, l, a, v, up, rfl, hc1, hc2⟩
  · -- the tree was empty
    obtain ⟨h4, he, hm4, hso4⟩ := insert_tail_frame (g := (h.alloc ⟨0, t._nil, t._nil, Red, some k⟩).1.put h.next
      ⟨t._nil, t._nil, t._nil, Red, some k⟩) hm hrb k hfill
      (by simp [Path.fill, Rep, hznil]) rfl
      (fun q hq hne => by simp [hne, hq]) (by simp [hznil.symm, hm.sentinel])
    refine ⟨h4, ?_, hm4, (fun q hq hne => by
      refine (hso4.1 q ?_).trans (by simp [hne])
      rw [← hfill, Path.mem_addrs_fill] at hq
      rw [Path.mem_addrs_fill]
      simpa [Tree.addrs, hne] using hq), by rw [hso4.2]; rfl⟩
    simp only [Path.fill, Tree.ptr_node] at he
    simp [rb_tree.insert, rb_tree._insert, search_refines hm, hz, stopPtr, create_node,
      Heap.modify, rb_tree_node.set_parent, he]
  · obtain ⟨han, ha, hsib, hup⟩ := hpath
    simp only [Tree.ptr_leaf] at ha
    simp only [Path.addrs, Tree.addrs, List.nil_append, List.nodup_cons, List.nodup_append,
      List.mem_append, not_or] at hnd
    have haz : a ≠ h.next := by
      have := hmemp a (by simp [Path.addrs])
      omega
    have hfr : ∀ b, b ≠ a → b ≠ h.next →
        (((h.alloc ⟨0, t._nil, t._nil, Red, some k⟩).1.put h.next
          ⟨a, t._nil, t._nil, Red, some k⟩).put a ⟨up.parent t._nil, h.next, r.ptr t._nil, c, some v⟩).read b = h.read b := by
      intro b h1 h2
      simp [h1, h2]
    obtain ⟨h4, he, hm4, hso4⟩ := insert_tail_frame (g := ((h.alloc ⟨0, t._nil, t._nil, Red, some k⟩).1.put
      h.next ⟨a, t._nil, t._nil, Red, some k⟩).put a ⟨up.parent t._nil, h.next, r.ptr t._nil, c, some v⟩) hm hrb k hfill
      (by
        rw [rep_fill]
        refine ⟨⟨han, by simp, Rep.frame (fun b hb => hfr b ?_ ?_) hsib,
          RepPath.frame_path (fun b hb => hfr b ?_ ?_) hup⟩, hznil, by simp [haz.symm], trivial, trivial⟩
        · rintro rfl; tauto
        · have := hmemp b (by simp [Path.addrs, hb]); omega
        · rintro rfl; tauto
        · have := hmemp b (by simp [Path.addrs, hb]); omega) rfl
      (fun q hq hne => by
        have : q ≠ a := by rintro rfl; rw [ha] at hq; simp at hq
        rw [hfr q this hne, hq])
      (by rw [hfr _ han.symm hznil.symm, hm.sentinel])
    refine ⟨h4, ?_, hm4, (fun q hq hne => by
      have hqa : q ≠ a := by
        rintro rfl
        apply hq
        rw [← hfill, Path.mem_addrs_fill]
        right
        simp [Path.addrs]
      refine (hso4.1 q ?_).trans (hfr q hqa hne)
      rw [← hfill, Path.mem_addrs_fill] at hq
      rw [Path.mem_addrs_fill]
      simpa [Tree.addrs, hne] using hq), by rw [hso4.2]; rfl⟩
    simp only [Path.fill, Tree.ptr_node] at he
    have hroot : t._root = (up.fill (Tree.node c (Tree.node Red Tree.leaf h.next k Tree.leaf) a v r)).ptr t._nil := by
      rw [hm.root, ← hfill]
      exact Path.ptr_fill_congr t._nil up rfl
    simp [rb_tree.insert, rb_tree._insert, search_refines hm, hz, stopPtr, create_node,
      Heap.modify, rb_tree_node.set_parent, rb_tree_node.set_left, han, haz, haz.symm, ha,
      rb_tree._values_equivalent, Heap.value, hc, hroot, he]
  · obtain ⟨han, ha, hsib, hup⟩ := hpath
    simp only [Tree.ptr_leaf] at ha
    simp only [Path.addrs, Tree.addrs, List.nil_append, List.nodup_cons, List.nodup_append,
      List.mem_append, not_or] at hnd
    have haz : a ≠ h.next := by
      have := hmemp a (by simp [Path.addrs])
      omega
    have hfr : ∀ b, b ≠ a → b ≠ h.next →
        (((h.alloc ⟨0, t._nil, t._nil, Red, some k⟩).1.put h.next
          ⟨a, t._nil, t._nil, Red, some k⟩).put a ⟨up.parent t._nil, l.ptr t._nil, h.next, c, some v⟩).read b = h.read b := by
      intro b h1 h2
      simp [h1, h2]
    obtain ⟨h4, he, hm4, hso4⟩ := insert_tail_frame (g := ((h.alloc ⟨0, t._nil, t._nil, Red, some k⟩).1.put
      h.next ⟨a, t._nil, t._nil, Red, some k⟩).put a ⟨up.parent t._nil, l.ptr t._nil, h.next, c, some v⟩) hm hrb k hfill
      (by
        rw [rep_fill]
        refine ⟨⟨han, by simp, Rep.frame (fun b hb => hfr b ?_ ?_) hsib,
          RepPath.frame_path (fun b hb => hfr b ?_ ?_) hup⟩, hznil, by simp [haz.symm], trivial, trivial⟩
        · rintro rfl; tauto
        · have := hmemp b (by simp [Path.addrs, hb]); omega
        · rintro rfl; tauto
        · have := hmemp b (by simp [Path.addrs, hb]); omega) rfl
      (fun q hq hne => by
        have : q ≠ a := by rintro rfl; rw [ha] at hq; simp at hq
        rw [hfr q this hne, hq])
      (by rw [hfr _ han.symm hznil.symm, hm.sentinel])
    refine ⟨h4, ?_, hm4, (fun q hq hne => by
      have hqa : q ≠ a := by
        rintro rfl
        apply hq
        rw [← hfill, Path.mem_addrs_fill]
        right
        simp [Path.addrs]
      refine (hso4.1 q ?_).trans (hfr q hqa hne)
      rw [← hfill, Path.mem_addrs_fill] at hq
      rw [Path.mem_addrs_fill]
      simpa [Tree.addrs, hne] using hq), by rw [hso4.2]; rfl⟩
    simp only [Path.fill, Tree.ptr_node] at he
    have hroot : t._root = (up.fill (Tree.node c l a v (Tree.node Red Tree.leaf h.next k Tree.leaf))).ptr t._nil := by
      rw [hm.root, ← hfill]
      exact Path.ptr_fill_congr t._nil up rfl
    simp [rb_tree.insert, rb_tree._insert, search_refines hm, hz, stopPtr, create_node,
      Heap.modify, rb_tree_node.set_parent, rb_tree_node.set_right, han, haz, haz.symm, ha,
      rb_tree._values_equivalent, Heap.value, hc1, hc2, hroot, he]

open rb_tree_node_color rb_tree_base_node

/-! ### Inserting next to cells that belong to something else -/

theorem Tree.mem_addrs_ins (comp : α → α → Bool) (z : Nat) (k : α) (T : Tree α) :
    ∀ q ∈ (T.ins comp z k).addrs, q ∈ T.addrs ∨ q = z := by
  intro q hq
  have hfill := zoom_fill comp k T Path.top
  rcases hz : zoom comp k T Path.top with ⟨p1, t1⟩
  rw [hz] at hfill
  simp only [Path.fill] at hfill
  cases t1 with
  | node c l a v r =>
    rw [Tree.ins_of_node z hz] at hq
    exact Or.inl hq
  | leaf =>
    rw [Tree.ins_of_leaf z hz, Tree.addrs_paint, fixupT_addrs, Path.mem_addrs_fill] at hq
    rw [← hfill, Path.mem_addrs_fill]
    simp only [Tree.addrs, List.nil_append, List.mem_singleton, List.not_mem_nil, false_or] at hq ⊢
    tauto

/-- One call of `insert`, with the cells it leaves alone: every cell that is
neither a node of the tree nor the newly allocated one. -/
theorem insert_guard {h : Heap α} {t : rb_tree α} {T : Tree α} (hi : Inv h t T) (k : α) :
    ∃ h1 t1 it b, t.insert h k = some (h1, t1, it, b) ∧ Inv h1 t1 (T.ins t._comp h.next k) ∧
      t1._comp = t._comp ∧ t1._nil = t._nil ∧
      (∀ q, q ∉ T.addrs → q ≠ h.next → h1.read q = h.read q) ∧ h.next ≤ h1.next := by
  obtain ⟨hrb1, hbal1, hnrr1⟩ := Tree.ins_shape t._comp h.next k hi.rootBlack
    hi.balanced hi.noRedRed
  rcases hz : zoom t._comp k T Path.top with ⟨p1, t1⟩
  cases t1 with
  | node c l a v r =>
    refine ⟨h, t, _, _, insert_found hi.models k hz, ?_, rfl, rfl, fun _ _ _ => rfl, le_refl _⟩
    rw [Tree.ins_of_node _ hz]
    exact hi
  | leaf =>
    obtain ⟨h1, he, hm1, hfr, hn⟩ := insert_new_frame hi.models hi.rootBlack k hz
    refine ⟨h1, _, _, _, he, ⟨hm1, ?_, hrb1, hbal1, hnrr1⟩, rfl, rfl, hfr, by omega⟩
    simp only [Tree.ins_size h.next k hz, hi.size]

theorem insertAll_append : ∀ (l1 l2 : List α) (s : Heap α × rb_tree α),
    insertAll (l1 ++ l2) s = (insertAll l1 s).bind (insertAll l2)
  | [], _, _ => rfl
  | k :: l1, l2, s => by
    simp only [List.cons_append, insertAll]
    cases rb_tree.insert s.1 s.2 k with
    | none => rfl
    | some r => exact insertAll_append l1 l2 _

/-- A run of `insert` calls leaves the cells of a guarded list `B` alone: cells
that are live and are not nodes of the tree. -/
theorem insertAll_guard (B : List Nat) : ∀ (ks : List α) {h : Heap α} {t : rb_tree α}
    {T : Tree α}, Inv h t T → (∀ q ∈ B, q ∉ T.addrs ∧ q < h.next) →
    ∃ h1 t1 T1, insertAll ks (h, t) = some (h1, t1) ∧ Inv h1 t1 T1 ∧ t1._comp = t._comp ∧
      t1._nil = t._nil ∧ (∀ q ∈ B, h1.read q = h.read q) ∧
      (∀ q ∈ B, q ∉ T1.addrs ∧ q < h1.next)
  | [], h, t, T, hi, hg => ⟨h, t, T, rfl, hi, rfl, rfl, fun _ _ => rfl, hg⟩
  | k :: ks, h, t, T, hi, hg => by
    obtain ⟨h1, t1, it, b, he, hi1, hc1, hn1, hfr, hle⟩ := insert_guard hi k
    have hg1 : ∀ q ∈ B, q ∉ (T.ins t._comp h.next k).addrs ∧ q < h1.next := by
      intro q hq
      obtain ⟨h1q, h2q⟩ := hg q hq
      refine ⟨fun hmem => ?_, by omega⟩
      rcases Tree.mem_addrs_ins _ _ _ _ q hmem with hm | hm
      · exact h1q hm
      · omega
    obtain ⟨h2, t2, T2, he2, hi2, hc2, hn2, hfr2, hg2⟩ := insertAll_guard B ks hi1 hg1
    refine ⟨h2, t2, T2, by simp [insertAll, he, he2], hi2, hc2.trans hc1, hn2.trans hn1, ?_, hg2⟩
    intro q hq
    obtain ⟨h1q, h2q⟩ := hg q hq
    rw [hfr2 q hq, hfr q h1q (by omega)]

/-- The recursion of `_copy` over a source tree held by the same store, apart
from the destination: it is the run of `insert` calls on the values of the
source in pre-order, and it leaves the source alone. -/
theorem copy_go_refines (B : List Nat) (nil1 : Nat) : ∀ (S : Tree α) (par fuel : Nat)
    {h : Heap α} {t : rb_tree α} {T : Tree α}, Inv h t T → Rep h nil1 S par →
    (∀ q ∈ S.addrs, q ∈ B) → (∀ q ∈ B, q ∉ T.addrs ∧ q < h.next) → S.height < fuel →
    ∃ h1 t1 T1, rb_tree._copy_go nil1 fuel h t (S.ptr nil1) = some (h1, t1) ∧
      insertAll S.preorder (h, t) = some (h1, t1) ∧ Inv h1 t1 T1 ∧ t1._comp = t._comp ∧
      t1._nil = t._nil ∧ (∀ q ∈ B, h1.read q = h.read q) ∧
      (∀ q ∈ B, q ∉ T1.addrs ∧ q < h1.next)
  | Tree.leaf, _, fuel, h, t, T, hi, _, _, hg, hf => by
    obtain ⟨f, rfl⟩ : ∃ f, fuel = f + 1 := ⟨fuel - 1, by omega⟩
    exact ⟨h, t, T, by simp [rb_tree._copy_go], rfl, hi, rfl, rfl, fun _ _ => rfl, hg⟩
  | Tree.node c l a v r, par, fuel, h, t, T, hi, hrep, hB, hg, hf => by
    obtain ⟨f, rfl⟩ : ∃ f, fuel = f + 1 := ⟨fuel - 1, by omega⟩
    simp only [Tree.height] at hf
    obtain ⟨hane, hread, hrl, hrr⟩ := hrep
    have haB : a ∈ B := hB a (by simp [Tree.addrs])
    have hlB : ∀ q ∈ l.addrs, q ∈ B := fun q hq => hB q (by simp [Tree.addrs, hq])
    have hrB : ∀ q ∈ r.addrs, q ∈ B := fun q hq => hB q (by simp [Tree.addrs, hq])
    obtain ⟨h1, t1, it, b, he, hi1, hc1, hn1, hfr, hle⟩ := insert_guard hi v
    have hfrB : ∀ q ∈ B, h1.read q = h.read q := fun q hq =>
      hfr q (hg q hq).1 (by have := (hg q hq).2; omega)
    have hg1 : ∀ q ∈ B, q ∉ (T.ins t._comp h.next v).addrs ∧ q < h1.next := by
      intro q hq
      obtain ⟨h1q, h2q⟩ := hg q hq
      refine ⟨fun hmem => ?_, by omega⟩
      rcases Tree.mem_addrs_ins _ _ _ _ q hmem with hm | hm
      · exact h1q hm
      · omega
    obtain ⟨h2, t2, T2, e2, a2, hi2, hc2, hn2, hfr2, hg2⟩ :=
      copy_go_refines B nil1 l a f hi1
        (Rep.frame (fun q hq => hfrB q (hlB q hq)) hrl) hlB hg1 (by omega)
    have hfr02 : ∀ q ∈ B, h2.read q = h.read q := fun q hq =>
      (hfr2 q hq).trans (hfrB q hq)
    obtain ⟨h3, t3, T3, e3, a3, hi3, hc3, hn3, hfr3, hg3⟩ :=
      copy_go_refines B nil1 r a f hi2
        (Rep.frame (fun q hq => hfr02 q (hrB q hq)) hrr) hrB hg2 (by omega)
    refine ⟨h3, t3, T3, ?_, ?_, hi3, hc3.trans (hc2.trans hc1), hn3.trans (hn2.trans hn1),
      fun q hq => (hfr3 q hq).trans (hfr02 q hq), hg3⟩
    · have hv : h.value a = some v := by simp [Heap.value, hread]
      have hr1 : h1.read a = some ⟨par, l.ptr nil1, r.ptr nil1, c, some v⟩ :=
        (hfrB a haB).trans hread
      have hr2 : h2.read a = some ⟨par, l.ptr nil1, r.ptr nil1, c, some v⟩ :=
        (hfr02 a haB).trans hread
      simp [rb_tree._copy_go, Tree.ptr_node, hane, hv, he, hr1, e2, hr2, e3]
    · simp only [Tree.preorder, insertAll, he]
      rw [insertAll_append, a2]
      exact a3

open rb_tree_node_color rb_tree_base_node

/-! ### Copy assignment -/

theorem Tree.preorder_perm : ∀ (T : Tree α), T.preorder.Perm T.keys
  | Tree.leaf => List.Perm.refl _
  | Tree.node _ l _ v r => by
    simp only [Tree.preorder, Tree.keys]
    exact ((List.Perm.append (Tree.preorder_perm l) (Tree.preorder_perm r)).cons v).trans
      List.perm_middle.symm

/-- Two strictly increasing lists with the same members are the same list. -/
theorem increasing_unique {comp : α → α → Bool} (hswo : StrictWeakOrder comp) {l1 l2 : List α}
    (hp : l1.Perm l2) (h1 : Increasing comp l1) (h2 : Increasing comp l2) : l1 = l2 := by
  haveI : IsAntisymm α (fun a b => comp a b = true) :=
    ⟨fun a b hab hba => by
      have := hswo.asymm hab
      rw [hba] at this
      exact absurd this (by simp)⟩
  exact List.eq_of_perm_of_sorted hp h1 h2

theorem pairwise_not_equiv_of_increasing {comp : α → α → Bool} {l : List α}
    (h : Increasing comp l) : l.Pairwise (fun a b => ¬ Equiv comp a b) :=
  List.Pairwise.imp (fun hab => not_equiv_of_lt hab) h

/-- `clear()` with the cells it leaves alone. -/
theorem clear_guard {h : Heap α} {t : rb_tree α} {T : Tree α} (hi : Inv h t T) :
    ∃ h1, t.clear h = some (h1, { t with _root := t._nil, _size := 0 }) ∧
      Inv h1 { t with _root := t._nil, _size := 0 } Tree.leaf ∧
      (∀ q, q ∉ T.addrs → h1.read q = h.read q) ∧ h1.next = h.next := by
  obtain ⟨h1, he, hi1⟩ := clear_inv hi
  have hm := hi.models
  obtain ⟨h2, e2, f2, -, n2⟩ := clear_go_refines T h t._nil h.fuel hm.rep hm.nodup
    hm.height_lt_fuel
  have : h1 = h2 := by
    simp only [rb_tree.clear, _clear_rb_tree, hm.root, e2, Option.some.injEq,
      Prod.mk.injEq] at he
    exact he.1.symm
  subst this
  exact ⟨h1, he, hi1, f2, n2⟩

/-- Copy assignment between two different tree objects held apart in one store:
the destination ends up with the in-order values of the source and its size,
and the source is where and what it was. -/
theorem assign_refines {h : Heap α} {a b : rb_tree α} {A B : Tree α} (hia : Inv h a A)
    (hib : Inv h b B) (hswo : StrictWeakOrder b._comp) (hinc : Increasing b._comp B.keys)
    (hAB : ∀ q ∈ B.addrs, q ∉ A.addrs) (hnil : b._nil ∉ A.addrs) {p q : Nat} (hpq : p ≠ q) :
    ∃ h1 a1 A1, a.assign h p q b = some (h1, a1) ∧ Inv h1 a1 A1 ∧ A1.keys = B.keys ∧
      a1._size = b._size ∧ a1._comp = b._comp ∧ a1._nil = a._nil ∧ Inv h1 b B ∧
      (∀ x ∈ B.addrs, h1.read x = h.read x) := by
  obtain ⟨h1, hcl, hi1, hf1, hn1⟩ := clear_guard hia
  have hmb := hib.models
  -- the source after `clear()`
  have hrepB1 : Rep h1 b._nil B b._nil := Rep.frame (fun x hx => hf1 x (hAB x hx)) hmb.rep
  have hmb1 : Models h1 b B :=
    ⟨hrepB1, hmb.root, hmb.nodup, (hf1 _ hnil).trans hmb.sentinel, hi1.models.null,
      hi1.models.bound⟩
  -- the destination with the comparator of the source
  have hi2 : Inv h1 { a with _root := a._nil, _size := 0, _comp := b._comp } Tree.leaf :=
    ⟨⟨hi1.models.rep, hi1.models.root, hi1.models.nodup, hi1.models.sentinel,
      hi1.models.null, hi1.models.bound⟩, hi1.size, hi1.rootBlack, hi1.balanced, hi1.noRedRed⟩
  have hltB := Rep.lt_next hmb1.rep hmb1.bound
  have hguard : ∀ x ∈ B.addrs ++ [b._nil],
      x ∉ (Tree.leaf : Tree α).addrs ∧ x < h1.next := by
    intro x hx
    refine ⟨by simp [Tree.addrs], ?_⟩
    simp only [List.mem_append, List.mem_singleton] at hx
    rcases hx with hx | rfl
    · exact hltB x hx
    · exact hmb1.nil_lt_next
  obtain ⟨h3, t3, T3, e3, a3, hi3, hc3, hn3, hfr3, hg3⟩ :=
    copy_go_refines (B.addrs ++ [b._nil]) b._nil B b._nil h1.fuel hi2 hrepB1
      (fun x hx => by simp [hx]) hguard hmb1.height_lt_fuel
  -- the values of the destination
  obtain ⟨h4, t4, T4, e4, hi4, -, -, hinc4, -, -, -, hperm4⟩ :=
    insertAll_keys B.preorder (h := h1)
      (t := { a with _root := a._nil, _size := 0, _comp := b._comp }) hswo hi2
      (by simp [Tree.keys, Increasing])
  rw [a3] at e4
  simp only [Option.some.injEq, Prod.mk.injEq] at e4
  obtain ⟨rfl, rfl⟩ := e4
  have hT : T3 = T4 := Models.tree_unique hi3.models hi4.models
  subst hT
  have hpw : B.preorder.Pairwise (fun x y => ¬ Equiv b._comp x y) :=
    (List.Perm.pairwise_iff (fun hxy hyx => hxy hyx.symm) (Tree.preorder_perm B)).2
      (pairwise_not_equiv_of_increasing hinc)
  have hperm : T3.keys.Perm B.keys := by
    have := hperm4 hpw (fun k _ v hv => by simp [Tree.keys] at hv)
    simp only [Tree.keys, List.nil_append] at this
    exact this.trans (Tree.preorder_perm B)
  have hkeys : T3.keys = B.keys := increasing_unique hswo hperm hinc4 hinc
  have hsize : b._size = T3.size := by
    rw [hib.size, Tree.size_eq_length_keys, Tree.size_eq_length_keys, hkeys]
  have hm3 := hi3.models
  refine ⟨h3, { t3 with _size := b._size }, T3, ?_,
    ⟨⟨hm3.rep, hm3.root, hm3.nodup, hm3.sentinel, hm3.null, hm3.bound⟩, hsize, hi3.rootBlack,
      hi3.balanced, hi3.noRedRed⟩, hkeys, rfl, hc3, hn3, ?_, ?_⟩
  · simp [rb_tree.assign, hpq, hcl, rb_tree._copy, hmb.root, e3]
  · refine ⟨⟨Rep.frame (fun x hx => hfr3 x (by simp [hx])) hrepB1, hmb.root, hmb.nodup,
      (hfr3 _ (by simp)).trans hmb1.sentinel, hm3.null, hm3.bound⟩, hib.size, hib.rootBlack,
      hib.balanced, hib.noRedRed⟩
  · intro x hx
    rw [hfr3 x (by simp [hx]), hf1 x (hAB x hx)]

open rb_tree_node_color rb_tree_base_node

/-! ### Two trees in one store -/

/-- Constructing a second tree next to a first one: the new tree is empty, its
sentinel is the newly allocated cell, and the first tree is as it was. -/
theorem new_guard {h : Heap α} {a : rb_tree α} {A : Tree α} (hia : Inv h a A)
    (comp : α → α → Bool) :
    Inv (rb_tree.new h comp).1 (rb_tree.new h comp).2 Tree.leaf ∧
      Inv (rb_tree.new h comp).1 a A ∧ (rb_tree.new h comp).2._nil = h.next ∧
      (rb_tree.new h comp).2._comp = comp ∧ (rb_tree.new h comp).1.next = h.next + 1 := by
  have hm := hia.models
  have hlt := Rep.lt_next hm.rep hm.bound
  have hnl := hm.nil_lt_next
  have hread : ∀ q, q ≠ h.next → (rb_tree.new h comp).1.read q = h.read q := by
    intro q hq
    simp [rb_tree.new, Heap.alloc, Heap.read, hq]
  have hnull : (rb_tree.new h comp).1.read 0 = none := by
    rw [hread 0 (by omega)]
    exact hm.null
  have hbound : ∀ p, (rb_tree.new h comp).1.next ≤ p → (rb_tree.new h comp).1.read p = none := by
    intro p hp
    have hp1 : h.next + 1 ≤ p := hp
    rw [hread p (by omega)]
    exact hm.bound p (by omega)
  refine ⟨⟨⟨trivial, rfl, List.nodup_nil, ?_, hnull, hbound⟩, rfl, rfl, trivial, trivial⟩,
    ⟨⟨Rep.frame (fun q hq => hread q ?_) hm.rep, hm.root, hm.nodup, ?_, hnull, hbound⟩,
      hia.size, hia.rootBlack, hia.balanced, hia.noRedRed⟩, rfl, rfl, rfl⟩
  · simp [rb_tree.new, Heap.alloc, Heap.read]
  · have := hlt q hq
    omega
  · rw [hread _ (by omega)]
    exact hm.sentinel

/-- The state `twoTrees` builds: both trees satisfy the invariant of the
container in the common store, they share no node, neither sentinel is a node of
the other tree, and the values of the second tree are strictly increasing when
its comparator is a strict weak ordering. -/
theorem twoTrees_inv (compA compB : α → α → Bool) (ka kb : List α) :
    ∃ h a b A B, twoTrees compA compB ka kb = some (h, a, b) ∧ Inv h a A ∧ Inv h b B ∧
      a._comp = compA ∧ b._comp = compB ∧ (∀ q ∈ B.addrs, q ∉ A.addrs) ∧
      b._nil ∉ A.addrs ∧ a._nil ∉ B.addrs ∧ a._nil ≠ b._nil ∧
      (StrictWeakOrder compB → Increasing compB B.keys) := by
  obtain ⟨h0, a, A, he0, hia0, hca⟩ := reach_inv compA ka
  obtain ⟨hib0, hia1, hbn, hbc, hnx⟩ := new_guard hia0 compB
  have hlt := Rep.lt_next hia0.models.rep hia0.models.bound
  have hnl := hia0.models.nil_lt_next
  have hg : ∀ q ∈ A.addrs ++ [a._nil],
      q ∉ (Tree.leaf : Tree α).addrs ∧ q < (rb_tree.new h0 compB).1.next := by
    intro q hq
    refine ⟨by simp [Tree.addrs], ?_⟩
    simp only [List.mem_append, List.mem_singleton] at hq
    rw [hnx]
    rcases hq with hq | rfl
    · have := hlt q hq
      omega
    · omega
  obtain ⟨h1, b, B, he1, hib, hc1, hn1, hfr, hg1⟩ :=
    insertAll_guard (A.addrs ++ [a._nil]) kb hib0 hg
  have hm1 := hib.models
  have hia : Inv h1 a A :=
    ⟨⟨Rep.frame (fun q hq => hfr q (by simp [hq])) hia1.models.rep, hia1.models.root,
      hia1.models.nodup, (hfr _ (by simp)).trans hia1.models.sentinel, hm1.null, hm1.bound⟩,
      hia1.size, hia1.rootBlack, hia1.balanced, hia1.noRedRed⟩
  have hbnil : b._nil = h0.next := hn1.trans hbn
  refine ⟨h1, a, b, A, B, ?_, hia, hib, hca, hc1.trans hbc, fun q hq hqa =>
    (hg1 q (by simp [hqa])).1 hq, ?_, (hg1 _ (by simp)).1, ?_, fun hswo => ?_⟩
  · have he1b : insertAll kb (rb_tree.new h0 compB) = some (h1, b) := he1
    simp [twoTrees, he0, he1b]
  · rw [hbnil]
    intro hmem
    have := hlt _ hmem
    omega
  · rw [hbnil]
    omega
  · obtain ⟨h2, b2, B2, he2, hi2, -, -, hinc2, -⟩ :=
      insertAll_keys kb (h := (rb_tree.new h0 compB).1) (t := (rb_tree.new h0 compB).2)
        (by rw [hbc]; exact hswo) hib0 (by simp [Tree.keys, Increasing])
    rw [he1] at he2
    simp only [Option.some.injEq, Prod.mk.injEq] at he2
    obtain ⟨rfl, rfl⟩ := he2
    have hT : B = B2 := Models.tree_unique hib.models hi2.models
    subst hT
    rw [hbc] at hinc2
    exact hinc2

open rb_tree_node_color rb_tree_base_node

/-! ### Height against the number of nodes -/

theorem Tree.size_lt_pow_height : ∀ (T : Tree α), T.size + 1 ≤ 2 ^ T.height
  | Tree.leaf => by simp [Tree.size, Tree.height]
  | Tree.node _ l _ _ r => by
    have hl := Tree.size_lt_pow_height l
    have hr := Tree.size_lt_pow_height r
    have h1 : 2 ^ l.height ≤ 2 ^ max l.height r.height :=
      Nat.pow_le_pow_right (by omega) (le_max_left _ _)
    have h2 : 2 ^ r.height ≤ 2 ^ max l.height r.height :=
      Nat.pow_le_pow_right (by omega) (le_max_right _ _)
    simp only [Tree.size, Tree.height]
    rw [Nat.add_comm 1, pow_succ]
    omega

theorem Tree.height_eq_zero_iff (T : Tree α) : T.height = 0 ↔ T = Tree.leaf := by
  cases T with
  | leaf => simp [Tree.height]
  | node c l a v r => simp [Tree.height]

theorem Tree.addrs_eq_nil_iff (T : Tree α) : T.addrs = [] ↔ T = Tree.leaf := by
  cases T with
  | leaf => simp [Tree.addrs]
  | node c l a v r => simp [Tree.addrs]

/-- At the root and at every node of a tree held by a store, `_height_rb_tree`
and the reading of the shape return, with the height and the shape of the
subtree rooted there. -/
theorem subtree_height_shape {h : Heap α} {t : rb_tree α} {T : Tree α} (hm : Models h t T)
    {x : Nat} (hx : x = t._root ∨ x ∈ T.addrs) :
    ∃ s : Tree α, _height_rb_tree h x t._nil = some s.height ∧
      shapeBelow h t._nil h.fuel x = some s.shape := by
  rcases hx with rfl | hx
  · refine ⟨T, ?_, ?_⟩
    · rw [_height_rb_tree, hm.root]
      exact height_go_refines T _ _ hm.rep hm.height_lt_fuel
    · rw [hm.root]
      exact shapeBelow_refines T _ _ hm.rep hm.height_lt_fuel
  · obtain ⟨v, hxe⟩ := Tree.entry_of_addr T hx
    obtain ⟨p1, c, l, r, hfill⟩ := Tree.focus_of_entry T Path.top x v hxe
    simp only [Path.fill] at hfill
    have hrep := hm.rep
    rw [hfill, rep_fill] at hrep
    have hlt := hm.subtree_height_lt p1 (Tree.node c l x v r) hfill
    refine ⟨Tree.node c l x v r, ?_, ?_⟩
    · rw [_height_rb_tree]
      exact height_go_refines (Tree.node c l x v r) _ _ hrep.2 hlt
    · exact shapeBelow_refines (Tree.node c l x v r) _ _ hrep.2 hlt

/-! ## The claims -/

/-- C1: after any finite sequence of `insert` calls on a freshly constructed empty
tree, every call returns and the store holds a tree `T` below `_root` such that
(1) the root is Black, the tree being empty exactly when `_root` is the sentinel,
(2) no Red node has a Red child, and (3) for every node, all paths from it down
to a leaf link meet the same number of Black nodes.  This holds for every
comparator, a strict weak ordering or not. -/
theorem insert_colour_invariants (comp : α → α → Bool) (ks : List α) :
    ∃ h t T, insertAll ks (fresh comp) = some (h, t) ∧ Models h t T ∧
      h.color t._root = some Black ∧ (T = Tree.leaf ↔ t._root = t._nil) ∧
      T.NoRedRed ∧
      (∀ s ∈ T.subtrees, ∀ x ∈ s.blackCounts, ∀ y ∈ s.blackCounts, x = y) := by
  obtain ⟨h, t, T, he, hi, -⟩ := reach_inv comp ks
  refine ⟨h, t, T, he, hi.models, ?_, hi.models.root_eq_nil_iff.symm, hi.noRedRed,
    Tree.uniform_of_balanced hi.balanced⟩
  rw [hi.models.root_color, hi.rootBlack]

/-- C2: after any finite sequence of `insert` calls on an empty tree whose
comparator is a strict weak ordering, the in-order sequence of the values
reachable from the root is strictly increasing under the comparator, and no two
nodes hold equivalent values. -/
theorem insert_keys_increasing (comp : α → α → Bool) (hswo : StrictWeakOrder comp)
    (ks : List α) :
    ∃ h t T, insertAll ks (fresh comp) = some (h, t) ∧ Models h t T ∧
      Increasing comp T.keys ∧
      (∀ x ∈ T.entries, ∀ y ∈ T.entries, Equiv comp x.2 y.2 → x = y) := by
  obtain ⟨h, t, T, he, hi, -, hinc, -⟩ := reach_keys hswo ks
  refine ⟨h, t, T, he, hi.models, hinc, fun x hx y hy hxy => ?_⟩
  exact eq_of_equiv_of_increasing Prod.snd (by rw [← Tree.keys_eq_map]; exact hinc) hx hy hxy

/-- Witness of C2: the keys 2, 1, 3 under the default comparator. -/
theorem insert_keys_increasing_witness :
    StrictWeakOrder less ∧
      ∃ h t T, insertAll [2, 1, 3] (fresh less) = some (h, t) ∧ Models h t T ∧
        Increasing less T.keys ∧
        (∀ x ∈ T.entries, ∀ y ∈ T.entries, Equiv less x.2 y.2 → x = y) :=
  ⟨less_strictWeakOrder, insert_keys_increasing less less_strictWeakOrder [2, 1, 3]⟩

/-- C3: in every state reached from a freshly constructed empty tree by a
sequence of `insert` and `clear` calls, every call returns, `size()` is the
number of real nodes reachable from the root, and `empty()` is true exactly
when the root is the sentinel. -/
theorem size_counts_nodes (comp : α → α → Bool) (cs : List (Call α)) :
    ∃ h t T, runCalls cs (fresh comp) = some (h, t) ∧ Models h t T ∧
      t.size = T.size ∧ (t.empty = true ↔ t._root = t._nil) := by
  obtain ⟨h, t, T, he, hi⟩ := runCalls_inv cs (fresh_inv comp)
  refine ⟨h, t, T, he, hi.models, hi.size, ?_⟩
  rw [hi.models.root_eq_nil_iff, ← Tree.size_eq_zero_iff, ← hi.size]
  simp [rb_tree.empty]

/-- C4: in a state reached by insertions (comparator a strict weak ordering),
`insert(k)` of a key with no equivalent stored key returns `inserted = true`
and a position at a node of the new tree that holds `k`, increases `size()` by
one, and the new in-order sequence is the old one with `k` put between the
smaller and the larger values: nothing else is added, removed or changed. -/
theorem insert_new_key (comp : α → α → Bool) (hswo : StrictWeakOrder comp) (ks : List α)
    (k : α) (h : Heap α) (t : rb_tree α) (T : Tree α)
    (hrun : insertAll ks (fresh comp) = some (h, t)) (hm : Models h t T)
    (hk : ∀ v ∈ T.keys, ¬ Equiv comp k v) :
    ∃ h1 t1 T1 it, t.insert h k = some (h1, t1, it, true) ∧ Models h1 t1 T1 ∧
      it._node ∈ T1.addrs ∧ h1.value it._node = some k ∧ t1.size = t.size + 1 ∧
      ∃ l1 l2, T.keys = l1 ++ l2 ∧ T1.keys = l1 ++ k :: l2 ∧
        (∀ x ∈ l1, comp x k = true) ∧ (∀ x ∈ l2, comp k x = true) ∧
        Increasing comp T1.keys := by
  obtain ⟨hi, hc, hinc, -, -⟩ := reach_unique hswo hrun hm
  subst hc
  rcases insert_cases hswo hi hinc k with ⟨a, v, he, hkv, -⟩ |
    ⟨-, h1, r, T1, he, hi1, hinc1, hent, l1, l2, e1, e2, hb, ha⟩
  · exact absurd hkv (hk v (Tree.mem_keys_of_entry he))
  · obtain ⟨hv, -, -, hmem⟩ := hi1.models.entry_live hent
    exact ⟨h1, _, T1, _, he, hi1.models, hmem, hv, rfl, l1, l2, e1, e2, hb, ha, hinc1⟩

/-- Witness of C4: inserting 5 after 2, 1, 3 under the default comparator. -/
theorem insert_new_key_witness :
    ∃ h t T, insertAll [2, 1, 3] (fresh less) = some (h, t) ∧ Models h t T ∧
      (∀ v ∈ T.keys, ¬ Equiv less 5 v) ∧
      ∃ h1 t1 T1 it, t.insert h 5 = some (h1, t1, it, true) ∧ Models h1 t1 T1 ∧
        it._node ∈ T1.addrs ∧ h1.value it._node = some 5 ∧ t1.size = t.size + 1 ∧
        ∃ l1 l2, T.keys = l1 ++ l2 ∧ T1.keys = l1 ++ 5 :: l2 ∧
          (∀ x ∈ l1, less x 5 = true) ∧ (∀ x ∈ l2, less 5 x = true) ∧
          Increasing less T1.keys := by
  obtain ⟨h, t, T, he, hi, -, -, hsub, -⟩ := reach_keys less_strictWeakOrder [2, 1, 3]
  have hk : ∀ v ∈ T.keys, ¬ Equiv less 5 v := by
    intro v hv
    have := hsub v hv
    simp only [List.mem_cons, List.mem_singleton, List.not_mem_nil, or_false] at this
    rcases this with rfl | rfl | rfl <;> simp [Equiv, less]
  exact ⟨h, t, T, he, hi.models, hk,
    insert_new_key less less_strictWeakOrder [2, 1, 3] 5 h t T he hi.models hk⟩

/-- C5: in a state reached by insertions (comparator a strict weak ordering),
two calls `insert(k)` in a row return positions at the same node, the second
reports `inserted = false` and returns the store and the tree object it was
given (no link, colour, root or size changes); and `insert` of any value
equivalent to a stored one is such a no-op that returns the node storing it. -/
theorem insert_idempotent (comp : α → α → Bool) (hswo : StrictWeakOrder comp) (ks : List α)
    (k : α) (h : Heap α) (t : rb_tree α)
    (hrun : insertAll ks (fresh comp) = some (h, t)) :
    (∃ h1 t1 it b, t.insert h k = some (h1, t1, it, b) ∧
        t1.insert h1 k = some (h1, t1, it, false)) ∧
      (∀ T a v k1, Models h t T → (a, v) ∈ T.entries → Equiv comp k1 v →
        t.insert h k1 = some (h, t, ⟨a, t._nil⟩, false)) := by
  obtain ⟨h0, t0, T, he, hi, hc, hinc, -⟩ := reach_keys hswo ks
  rw [hrun] at he
  simp only [Option.some.injEq, Prod.mk.injEq] at he
  obtain ⟨rfl, rfl⟩ := he
  subst hc
  constructor
  · rcases insert_cases hswo hi hinc k with ⟨a, v, he, hkv, hins⟩ |
      ⟨-, h1, r, T1, he, hi1, hinc1, hent, -⟩
    · exact ⟨h, t, _, _, hins, hins⟩
    · exact ⟨h1, _, _, _, he,
        insert_found_entry (t := { t with _root := r, _size := t._size + 1 }) hswo hi1.models
          hinc1 hent (Equiv.self hswo k)⟩
  · intro T1 a v k1 hm1 hent hkv
    have := Models.tree_unique hm1 hi.models
    subst this
    exact insert_found_entry hswo hi.models hinc hent hkv

/-- Witness of C5: inserting 1 twice after 2, 1, 3 under the default comparator. -/
theorem insert_idempotent_witness :
    ∃ h t, insertAll [2, 1, 3] (fresh less) = some (h, t) ∧
      (∃ h1 t1 it b, t.insert h 1 = some (h1, t1, it, b) ∧
          t1.insert h1 1 = some (h1, t1, it, false)) ∧
        (∀ T a v k1, Models h t T → (a, v) ∈ T.entries → Equiv less k1 v →
          t.insert h k1 = some (h, t, ⟨a, t._nil⟩, false)) := by
  obtain ⟨h, t, T, he, -⟩ := reach_inv less [2, 1, 3]
  exact ⟨h, t, he, insert_idempotent less less_strictWeakOrder [2, 1, 3] 1 h t he⟩

/-- C6, as amended: on a tree built by inserting a sequence of keys into an
empty tree (comparator a strict weak ordering), `search(k)` returns, for every
inserted key `k`, a real node (neither null nor the sentinel) whose value is
equivalent to `k`, and it returns the null pointer for every key that is not
equivalent to any inserted key, the empty tree included. -/
theorem search_correct (comp : α → α → Bool) (hswo : StrictWeakOrder comp) (ks : List α) :
    ∃ h t T, insertAll ks (fresh comp) = some (h, t) ∧ Models h t T ∧
      (∀ k ∈ ks, ∃ a v, t.search h k = some a ∧ a ∈ T.addrs ∧ a ≠ 0 ∧ a ≠ t._nil ∧
        h.value a = some v ∧ Equiv comp k v) ∧
      (∀ k, (∀ k1 ∈ ks, ¬ Equiv comp k k1) → t.search h k = some 0) := by
  obtain ⟨h, t, T, he, hi, hc, hinc, hsub, hsup, -⟩ := reach_keys hswo ks
  subst hc
  refine ⟨h, t, T, he, hi.models, ?_, ?_⟩
  · intro k hk
    obtain ⟨v, hv, hkv⟩ := hsup k hk
    obtain ⟨a, hent⟩ := Tree.mem_entries_of_key hv
    obtain ⟨h1, h2, h3, h4⟩ := hi.models.entry_live hent
    exact ⟨a, v, search_found_entry hswo hi.models hinc hent hkv, h4, h3, h2, h1, hkv⟩
  · intro k hk
    exact search_not_equiv hi.models (fun v hv => hk v (hsub v hv))

/-- Witness of C6 as amended: the keys 2, 1, 3 under the default comparator. -/
theorem search_correct_witness :
    StrictWeakOrder less ∧
      ∃ h t T, insertAll [2, 1, 3] (fresh less) = some (h, t) ∧ Models h t T ∧
        (∀ k ∈ [2, 1, 3], ∃ a v, t.search h k = some a ∧ a ∈ T.addrs ∧ a ≠ 0 ∧ a ≠ t._nil ∧
          h.value a = some v ∧ Equiv less k v) ∧
        (∀ k, (∀ k1 ∈ [2, 1, 3], ¬ Equiv less k k1) → t.search h k = some 0) :=
  ⟨less_strictWeakOrder, search_correct less less_strictWeakOrder [2, 1, 3]⟩

/-- Counterexample to C6 as stated: under the strict weak ordering `halfLess`,
after inserting only the key 2, the key 3 was never inserted, yet `search(3)`
returns the node at address 2, which stores 2, and not the null pointer. -/
theorem search_finds_equivalent_key :
    StrictWeakOrder halfLess ∧ 3 ∉ [2] ∧
      ((insertAll [2] (fresh halfLess)).bind fun s => s.2.search s.1 3) = some 2 ∧
      ((insertAll [2] (fresh halfLess)).bind fun s => s.1.value 2) = some 2 :=
  ⟨halfLess_strictWeakOrder, by decide, by decide, by decide⟩

/-- C7, as amended: for keys no two of which are equivalent under the comparator
(a strict weak ordering), inserted in any order into an empty tree, the scan
that starts at `min()` and applies `next` until the sentinel ends, visits each
node once, and the values it meets are the inserted keys in strictly increasing
order. -/
theorem forward_traversal_sorted (comp : α → α → Bool) (hswo : StrictWeakOrder comp)
    (ks : List α) (hd : ks.Pairwise (fun a b => ¬ Equiv comp a b)) :
    ∃ h t nodes vals, insertAll ks (fresh comp) = some (h, t) ∧
      forward h t = some nodes ∧ nodes.Nodup ∧ valuesAt h nodes = some vals ∧
      Increasing comp vals ∧ vals.Perm ks := by
  obtain ⟨h, t, T, he, hi, -, hinc, -, -, hperm⟩ := reach_keys hswo ks
  exact ⟨h, t, T.addrs, T.keys, he, forward_refines hi.models, hi.models.nodup,
    valuesAt_addrs T _ hi.models.rep, hinc, hperm hd⟩

/-- Witness of C7 as amended: the keys 2, 1, 3 under the default comparator. -/
theorem forward_traversal_sorted_witness :
    StrictWeakOrder less ∧ [2, 1, 3].Pairwise (fun a b => ¬ Equiv less a b) ∧
      ∃ h t nodes vals, insertAll [2, 1, 3] (fresh less) = some (h, t) ∧
        forward h t = some nodes ∧ nodes.Nodup ∧ valuesAt h nodes = some vals ∧
        Increasing less vals ∧ vals.Perm [2, 1, 3] :=
  ⟨less_strictWeakOrder, by simp [Equiv, less],
    forward_traversal_sorted less less_strictWeakOrder [2, 1, 3] (by simp [Equiv, less])⟩

/-- Counterexample to C7 as stated: under the strict weak ordering `halfLess` the
keys 2 and 3 are distinct, yet after inserting 2 and then 3 the tree has one
node and the scan from `min()` meets the value 2 only: the inserted key 3 is
not among the values visited. -/
theorem forward_scan_drops_equivalent_key :
    StrictWeakOrder halfLess ∧ [2, 3].Nodup ∧
      ((insertAll [2, 3] (fresh halfLess)).bind fun s =>
        (forward s.1 s.2).bind (valuesAt s.1)) = some [2] ∧
      ((insertAll [2, 3] (fresh halfLess)).map fun s => s.2.size) = some 1 ∧
      (3 : Nat) ∉ [2] :=
  ⟨halfLess_strictWeakOrder, by decide, by decide, by decide, by decide⟩

/-- C9: for every tree obtained from an empty tree by a sequence of inserts, with
`n = size()` real nodes, `height()` returns a value `ht` with
`ht ≤ 2 * log2 (n + 1)` (already for the integer part of the logarithm) and
`2 ^ ht ≤ (n + 1) ^ 2`.  This holds for every comparator. -/
theorem height_bound (comp : α → α → Bool) (ks : List α) :
    ∃ h t T ht, insertAll ks (fresh comp) = some (h, t) ∧ Models h t T ∧
      t.size = T.size ∧ t.height h = some ht ∧
      ht ≤ 2 * Nat.log 2 (t.size + 1) ∧ 2 ^ ht ≤ (t.size + 1) ^ 2 := by
  obtain ⟨h, t, T, he, hi, -⟩ := reach_inv comp ks
  have hb := Tree.height_le_log hi.rootBlack hi.balanced hi.noRedRed
  refine ⟨h, t, T, T.height, he, hi.models, hi.size, height_refines hi.models, ?_, ?_⟩
  · rw [rb_tree.size, hi.size]; exact hb.1
  · rw [rb_tree.size, hi.size]; exact hb.2

/-- C10, as amended: inserting 1, 2, 3, 4, 5, 6, 7 in that order into an empty
tree with the default comparator gives a tree whose root holds 2, whose forward
scan meets 1, 2, 3, 4, 5, 6, 7, whose `height()` is 4 and whose `size()` is 7. -/
theorem ascending_insert_scenario :
    ((insertAll [1, 2, 3, 4, 5, 6, 7] (fresh less)).bind fun s => s.1.value s.2._root) = some 2 ∧
      ((insertAll [1, 2, 3, 4, 5, 6, 7] (fresh less)).bind fun s =>
        (forward s.1 s.2).bind (valuesAt s.1)) = some [1, 2, 3, 4, 5, 6, 7] ∧
      ((insertAll [1, 2, 3, 4, 5, 6, 7] (fresh less)).bind fun s => s.2.height s.1) = some 4 ∧
      ((insertAll [1, 2, 3, 4, 5, 6, 7] (fresh less)).map fun s => s.2.size) = some 7 :=
  ⟨by decide, by decide, by decide, by decide⟩

/-- Counterexample to C10 as stated: after inserting 1, 2, 3, 4, 5, 6, 7 the
value at the root is 2, which is not 4. -/
theorem ascending_insert_root_is_not_four :
    ((insertAll [1, 2, 3, 4, 5, 6, 7] (fresh less)).bind fun s => s.1.value s.2._root) = some 2 ∧
      (2 : Nat) ≠ 4 :=
  ⟨by decide, by decide⟩

open rb_tree_node_color rb_tree_base_node

/-- C11: for every tree reached by inserts, `clear()` returns and leaves the root
at the sentinel, `size() = 0`, `empty()` true and `min()` and `max()` at the
sentinel; and any further sequence of inserts gives, call by call, the
`inserted` flags it gives on a freshly constructed tree with the same
comparator, and ends with the same `size()`, the same shape (structure, colours
and values), the same in-order sequence of values and the same `height()`.  This
holds for every comparator. -/
theorem clear_gives_fresh_tree (comp : α → α → Bool) (ks : List α) :
    ∃ h t h1 t1, insertAll ks (fresh comp) = some (h, t) ∧ t.clear h = some (h1, t1) ∧
      t1._root = t1._nil ∧ t1.size = 0 ∧ t1.empty = true ∧
      t1.min h1 = some t1._nil ∧ t1.max h1 = some t1._nil ∧
      ∀ ks1 : List α, ∃ flags a b shape vals ht,
        insertFlags ks1 (h1, t1) = some (flags, a) ∧
        insertFlags ks1 (fresh comp) = some (flags, b) ∧
        a.2.size = b.2.size ∧
        a.2.shape a.1 = some shape ∧ b.2.shape b.1 = some shape ∧
        (forward a.1 a.2).bind (valuesAt a.1) = some vals ∧
        (forward b.1 b.2).bind (valuesAt b.1) = some vals ∧
        a.2.height a.1 = some ht ∧ b.2.height b.1 = some ht := by
  obtain ⟨h, t, T, he, hi, hc⟩ := reach_inv comp ks
  obtain ⟨h1, hcl, hi1⟩ := clear_inv hi
  refine ⟨h, t, h1, _, he, hcl, rfl, rfl, rfl, by simp [rb_tree.min, _minimum],
    by simp [rb_tree.max, _maximum], fun ks1 => ?_⟩
  obtain ⟨flags, a, b, A, B, e1, e2, ia, ib, hab⟩ :=
    insertFlags_sim ks1 hi1 (fresh_inv comp) (by simp [fresh, rb_tree.new, hc]) rfl
  refine ⟨flags, a, b, A.shape, A.keys, A.height, e1, e2, ?_, shape_refines ia.models, ?_,
    scan_values ia.models, ?_, height_refines ia.models, ?_⟩
  · rw [rb_tree.size, rb_tree.size, ia.size, ib.size, ← Tree.size_shape A, ← Tree.size_shape B,
      hab]
  · rw [shape_refines ib.models, hab]
  · rw [scan_values ib.models, ← Tree.keys_shape B, hab, Tree.keys_shape]
  · rw [height_refines ib.models, ← Tree.height_shape B, hab, Tree.height_shape]

/-- C12, the code at the failing input: copy-constructing from the tree that
holds the single key 1 has no defined result (the copy has no sentinel, and the
first re-insertion reads through the null pointer), while copy-constructing from
the empty tree returns a tree object whose root and sentinel pointers are null. -/
theorem copy_constructor_null_sentinel :
    ((insertAll [1] (fresh less)).map fun s => (s.2.new_copy s.1).isNone) = some true ∧
      ((insertAll [] (fresh less)).bind fun s =>
        (s.2.new_copy s.1).map fun r => (r.2._root, r.2._nil, r.2._size)) = some (0, 0, 0) :=
  ⟨by decide, by decide⟩

/-- C13: in every tree reached by inserts (comparator a strict weak ordering), for
every real node `x`, `_next(x)` returns a node `y` such that: `y` is the sentinel
exactly when no stored value is greater than the value of `x`; otherwise `y` is a
real node whose value is greater than that of `x` and not greater than any other
stored value that is greater than that of `x`; when `x` has a right child, `y`
is `_minimum` of that child; and when `x` has none and `y` is real, `x` is the
`_maximum` of the left subtree of `y` (so `y` is the first ancestor the climb
reaches from a left child). -/
theorem next_is_successor (comp : α → α → Bool) (hswo : StrictWeakOrder comp) (ks : List α) :
    ∃ h t T, insertAll ks (fresh comp) = some (h, t) ∧ Models h t T ∧
      ∀ x ∈ T.addrs, ∃ xn vx y, h.read x = some xn ∧ xn._value = some vx ∧
        _next h x t._nil = some y ∧
        (y = t._nil ↔ ∀ z ∈ T.addrs, ∀ vz, h.value z = some vz → comp vx vz = false) ∧
        (y ≠ t._nil → y ∈ T.addrs ∧ ∃ vy, h.value y = some vy ∧ comp vx vy = true ∧
          ∀ z ∈ T.addrs, ∀ vz, h.value z = some vz → comp vx vz = true →
            z = y ∨ comp vy vz = true) ∧
        (xn._right ≠ t._nil → _minimum h xn._right t._nil = some y) ∧
        (xn._right = t._nil → y ≠ t._nil →
          ∃ yn, h.read y = some yn ∧ _maximum h yn._left t._nil = some x) := by
  obtain ⟨h, t, T, he, hi, hc, hinc, -⟩ := reach_keys hswo ks
  subst hc
  have hm := hi.models
  refine ⟨h, t, T, he, hm, fun x hx => ?_⟩
  obtain ⟨vx, hxe⟩ := Tree.entry_of_addr T hx
  obtain ⟨xn, y, hread, hval, hn, hs1, hs2⟩ := next_structure hm hxe
  obtain ⟨y1, hn1, ho1, ho2⟩ := next_order hswo hm hinc hxe
  rw [hn] at hn1
  simp only [Option.some.injEq] at hn1
  subst hn1
  refine ⟨xn, vx, y, hread, hval, hn, ?_, ?_, hs1, hs2⟩
  · rw [ho1]
    constructor
    · intro hall z hz vz hv
      exact hall z vz ((hm.entry_iff z vz).2 ⟨hz, hv⟩)
    · intro hall z vz hz
      obtain ⟨h1, h2⟩ := (hm.entry_iff z vz).1 hz
      exact hall z h1 vz h2
  · intro hy
    obtain ⟨vy, hye, hlt, hleast⟩ := ho2 hy
    obtain ⟨h1, h2⟩ := (hm.entry_iff y vy).1 hye
    exact ⟨h1, vy, h2, hlt, fun z hz vz hv hgt =>
      hleast z vz ((hm.entry_iff z vz).2 ⟨hz, hv⟩) hgt⟩

/-- Witness of C13: the keys 2, 1, 3 under the default comparator. -/
theorem next_is_successor_witness :
    StrictWeakOrder less ∧
      ∃ h t T, insertAll [2, 1, 3] (fresh less) = some (h, t) ∧ Models h t T ∧
        ∀ x ∈ T.addrs, ∃ xn vx y, h.read x = some xn ∧ xn._value = some vx ∧
          _next h x t._nil = some y ∧
          (y = t._nil ↔ ∀ z ∈ T.addrs, ∀ vz, h.value z = some vz → less vx vz = false) ∧
          (y ≠ t._nil → y ∈ T.addrs ∧ ∃ vy, h.value y = some vy ∧ less vx vy = true ∧
            ∀ z ∈ T.addrs, ∀ vz, h.value z = some vz → less vx vz = true →
              z = y ∨ less vy vz = true) ∧
          (xn._right ≠ t._nil → _minimum h xn._right t._nil = some y) ∧
          (xn._right = t._nil → y ≠ t._nil →
            ∃ yn, h.read y = some yn ∧ _maximum h yn._left t._nil = some x) :=
  ⟨less_strictWeakOrder, next_is_successor less less_strictWeakOrder [2, 1, 3]⟩

/-- C14: for every store and every sentinel, `_next(sentinel)` and
`_prev(sentinel)` return the sentinel, so `operator++` and `operator--` leave an
iterator that is at the end at the end. -/
theorem sentinel_is_fixed_point (h : Heap α) (nil : Nat) :
    _next h nil nil = some nil ∧ _prev h nil nil = some nil ∧
      rb_tree_iterator.inc h ⟨nil, nil⟩ = some ⟨nil, nil⟩ ∧
      rb_tree_iterator.dec h ⟨nil, nil⟩ = some ⟨nil, nil⟩ := by
  simp [_next, _prev, rb_tree_iterator.inc, rb_tree_iterator.dec]

/-- C15: `_minimum` and `_maximum` return their argument when it is the sentinel,
so `min()` and `max()` return the sentinel on an empty tree; and on every
non-empty tree reached by inserts (comparator a strict weak ordering) `min()`
returns a real node with no left child such that no stored value is less than
its value, and `max()` a real node with no right child such that no stored
value is greater than its value. -/
theorem min_max_positions (comp : α → α → Bool) (hswo : StrictWeakOrder comp) (ks : List α) :
    (∀ (g : Heap α) (nil : Nat), _minimum g nil nil = some nil ∧ _maximum g nil nil = some nil) ∧
      ∃ h t T, insertAll ks (fresh comp) = some (h, t) ∧ Models h t T ∧
        (t._root = t._nil → t.min h = some t._nil ∧ t.max h = some t._nil) ∧
        (t._root ≠ t._nil →
          (∃ m mn vm, t.min h = some m ∧ m ∈ T.addrs ∧ h.read m = some mn ∧
            h.value m = some vm ∧ mn._left = t._nil ∧
            ∀ z ∈ T.addrs, ∀ vz, h.value z = some vz → comp vz vm = false) ∧
          (∃ m mn vm, t.max h = some m ∧ m ∈ T.addrs ∧ h.read m = some mn ∧
            h.value m = some vm ∧ mn._right = t._nil ∧
            ∀ z ∈ T.addrs, ∀ vz, h.value z = some vz → comp vm vz = false)) := by
  refine ⟨fun g nil => by simp [_minimum, _maximum], ?_⟩
  obtain ⟨h, t, T, he, hi, hc, hinc, -⟩ := reach_keys hswo ks
  subst hc
  have hm := hi.models
  refine ⟨h, t, T, he, hm, fun hr => ?_, fun hr => ?_⟩
  · simp [rb_tree.min, rb_tree.max, _minimum, _maximum, hr]
  · have hT : T ≠ Tree.leaf := fun e => hr (hm.root_eq_nil_iff.2 e)
    constructor
    · obtain ⟨m, mn, vm, h1, h2, h3, h4, h5⟩ := min_spec hswo hm hinc hT
      obtain ⟨h6, h7⟩ := (hm.entry_iff m vm).1 h2
      exact ⟨m, mn, vm, h1, h6, h3, h7, h4, fun z hz vz hv =>
        h5 z vz ((hm.entry_iff z vz).2 ⟨hz, hv⟩)⟩
    · obtain ⟨m, mn, vm, h1, h2, h3, h4, h5⟩ := max_spec hswo hm hinc hT
      obtain ⟨h6, h7⟩ := (hm.entry_iff m vm).1 h2
      exact ⟨m, mn, vm, h1, h6, h3, h7, h4, fun z hz vz hv =>
        h5 z vz ((hm.entry_iff z vz).2 ⟨hz, hv⟩)⟩

/-- Witness of C15: the keys 2, 1, 3 under the default comparator. -/
theorem min_max_positions_witness :
    StrictWeakOrder less ∧
      ((∀ (g : Heap Nat) (nil : Nat),
          _minimum g nil nil = some nil ∧ _maximum g nil nil = some nil) ∧
        ∃ h t T, insertAll [2, 1, 3] (fresh less) = some (h, t) ∧ Models h t T ∧
          (t._root = t._nil → t.min h = some t._nil ∧ t.max h = some t._nil) ∧
          (t._root ≠ t._nil →
            (∃ m mn vm, t.min h = some m ∧ m ∈ T.addrs ∧ h.read m = some mn ∧
              h.value m = some vm ∧ mn._left = t._nil ∧
              ∀ z ∈ T.addrs, ∀ vz, h.value z = some vz → less vz vm = false) ∧
            (∃ m mn vm, t.max h = some m ∧ m ∈ T.addrs ∧ h.read m = some mn ∧
              h.value m = some vm ∧ mn._right = t._nil ∧
              ∀ z ∈ T.addrs, ∀ vz, h.value z = some vz → less vm vz = false))) :=
  ⟨less_strictWeakOrder, min_max_positions less less_strictWeakOrder [2, 1, 3]⟩

/-- C16, as amended: on every tree reached by inserts, when the allocation of the
node fails during `insert(k)`, no exception reaches the caller: either `k` is
equivalent to a stored value and the call returns that node with
`inserted = false` as usual, no allocation being attempted, or the program is
ended by `std::terminate` (the exception cannot leave `create_node`, which is
`noexcept`), and at that moment the store and the tree object are those the call
was given: the allocation precedes every write.  When the allocation succeeds
the call is the ordinary `insert`. -/
theorem insert_allocation_failure (comp : α → α → Bool) (ks : List α) (k : α) :
    ∃ h t, insertAll ks (fresh comp) = some (h, t) ∧
      (rb_tree.insert_checked false h t k).isException = false ∧
      ((∃ it, t.insert h k = some (h, t, it, false) ∧
          rb_tree.insert_checked false h t k = Outcome.ok (h, t, it, false)) ∨
        (∃ h1 t1 it, t.insert h k = some (h1, t1, it, true) ∧
          rb_tree.insert_checked false h t k = Outcome.terminate (h, t))) ∧
      rb_tree.insert_checked true h t k =
        (match t.insert h k with
        | some r => Outcome.ok r
        | none => Outcome.undefined) := by
  obtain ⟨h, t, T, he, hi, -⟩ := reach_inv comp ks
  have hf := insert_checked_fail hi k
  refine ⟨h, t, he, ?_, hf, insert_checked_avail h t k⟩
  rcases hf with ⟨it, -, e⟩ | ⟨h1, t1, it, -, e⟩ <;> simp [e, Outcome.isException]

/-- Counterexample to C16 as stated: on the empty tree with the default
comparator, `insert(1)` with a failing allocation ends in `std::terminate`; no
exception is propagated to the caller. -/
theorem allocation_failure_terminates :
    (rb_tree.insert_checked false (fresh less).1 (fresh less).2 1).isTerminate = true ∧
      (rb_tree.insert_checked false (fresh less).1 (fresh less).2 1).isException = false :=
  ⟨by decide, by decide⟩

/-- C17: on every store that holds a tree below the root, `height()` returns a
number that is 0 when the root is the sentinel and otherwise the largest number
of real nodes on a path from the root down to a leaf link: it is the length of
one of those paths and no path is longer.  `height()` takes the store as an
argument and returns the number only, so the tree is left as it was. -/
theorem height_is_longest_path (h : Heap α) (t : rb_tree α) (T : Tree α) (hm : Models h t T) :
    ∃ ht, t.height h = some ht ∧ (t._root = t._nil → ht = 0) ∧ ht ∈ T.pathLengths ∧
      ∀ n ∈ T.pathLengths, n ≤ ht := by
  refine ⟨T.height, height_refines hm, fun hr => ?_, Tree.height_mem_pathLengths T,
    Tree.le_height_of_mem_pathLengths T⟩
  rw [hm.root_eq_nil_iff.1 hr]
  rfl

/-- Witness of C17: the tree built from the keys 2, 1, 3 under the default
comparator. -/
theorem height_is_longest_path_witness :
    ∃ h t T, insertAll [2, 1, 3] (fresh less) = some (h, t) ∧ Models h t T ∧
      ∃ ht, t.height h = some ht ∧ (t._root = t._nil → ht = 0) ∧ ht ∈ T.pathLengths ∧
        ∀ n ∈ T.pathLengths, n ≤ ht := by
  obtain ⟨h, t, T, he, hi, -⟩ := reach_inv less [2, 1, 3]
  exact ⟨h, t, T, he, hi.models, height_is_longest_path h t T hi.models⟩

/-- C18: in every tree reached by inserts (comparator a strict weak ordering), for
every key `k`, `_search(k)` returns a pointer `p` such that (a) `p` is the
sentinel exactly when the tree is empty, (b) `p` is the node that stores a value
equivalent to `k` whenever there is one (so there is only one), and (c) when
there is none and the tree is not empty, `p` is a real node whose child link on
the side of `k` (left if `comp k p.value`, else right) is the sentinel, and
putting `k` next to the value of `p` on that side of the in-order sequence keeps
the sequence strictly increasing. -/
theorem search_locates (comp : α → α → Bool) (hswo : StrictWeakOrder comp) (ks : List α) :
    ∃ h t T, insertAll ks (fresh comp) = some (h, t) ∧ Models h t T ∧
      ∀ k, ∃ p, t._search h k = some p ∧
        (p = t._nil ↔ t._root = t._nil) ∧
        (∀ a ∈ T.addrs, ∀ v, h.value a = some v → Equiv comp k v → p = a) ∧
        ((∀ a ∈ T.addrs, ∀ v, h.value a = some v → ¬ Equiv comp k v) → t._root ≠ t._nil →
          ∃ pn pv, p ∈ T.addrs ∧ h.read p = some pn ∧ pn._value = some pv ∧
            (if comp k pv = true then pn._left else pn._right) = t._nil ∧
            ∃ l1 l2, T.keys = l1 ++ l2 ∧ Increasing comp (l1 ++ k :: l2) ∧
              (comp k pv = true → l2.head? = some pv) ∧
              (comp k pv = false → l1.getLast? = some pv)) := by
  obtain ⟨h, t, T, he, hi, hc, hinc, -⟩ := reach_keys hswo ks
  subst hc
  have hm := hi.models
  refine ⟨h, t, T, he, hm, fun k => ?_⟩
  obtain ⟨p, hs, ha, hb, hcc⟩ := locate_spec hswo hm hinc k
  refine ⟨p, hs, by rw [ha, hm.root_eq_nil_iff], fun a hx v hv hk =>
    hb a v ((hm.entry_iff a v).2 ⟨hx, hv⟩) hk, fun hno hr => ?_⟩
  have hT : T ≠ Tree.leaf := fun e => hr (hm.root_eq_nil_iff.2 e)
  have hno2 : ∀ v ∈ T.keys, ¬ Equiv t._comp k v := by
    intro v hv
    obtain ⟨a, hent⟩ := Tree.mem_entries_of_key hv
    obtain ⟨h1, h2⟩ := (hm.entry_iff a v).1 hent
    exact hno a h1 v h2
  obtain ⟨pn, pv, h1, h2, h3, h4, h5⟩ := hcc hno2 hT
  exact ⟨pn, pv, ((hm.entry_iff p pv).1 h1).1, h2, h3, h4, h5⟩

/-- Witness of C18: the keys 2, 1, 3 under the default comparator. -/
theorem search_locates_witness :
    StrictWeakOrder less ∧
      ∃ h t T, insertAll [2, 1, 3] (fresh less) = some (h, t) ∧ Models h t T ∧
        ∀ k, ∃ p, t._search h k = some p ∧
          (p = t._nil ↔ t._root = t._nil) ∧
          (∀ a ∈ T.addrs, ∀ v, h.value a = some v → Equiv less k v → p = a) ∧
          ((∀ a ∈ T.addrs, ∀ v, h.value a = some v → ¬ Equiv less k v) → t._root ≠ t._nil →
            ∃ pn pv, p ∈ T.addrs ∧ h.read p = some pn ∧ pn._value = some pv ∧
              (if less k pv = true then pn._left else pn._right) = t._nil ∧
              ∃ l1 l2, T.keys = l1 ++ l2 ∧ Increasing less (l1 ++ k :: l2) ∧
                (less k pv = true → l2.head? = some pv) ∧
                (less k pv = false → l1.getLast? = some pv)) :=
  ⟨less_strictWeakOrder, search_locates less less_strictWeakOrder [2, 1, 3]⟩

/-- C19, as amended: in every tree reached from the empty tree by inserts, if the
root is a real node its parent link is the sentinel, and for every real node
`n`, if `n.left` is real then `n.left.parent = n` and if `n.right` is real then
`n.right.parent = n`.  This holds for every comparator. -/
theorem parent_links_consistent (comp : α → α → Bool) (ks : List α) :
    ∃ h t T, insertAll ks (fresh comp) = some (h, t) ∧ Models h t T ∧
      (t._root ≠ t._nil → ∃ rn, h.read t._root = some rn ∧ rn._parent = t._nil) ∧
      ∀ x ∈ T.addrs, ∃ n, h.read x = some n ∧
        (n._left ≠ t._nil → ∃ ln, h.read n._left = some ln ∧ ln._parent = x) ∧
        (n._right ≠ t._nil → ∃ rn, h.read n._right = some rn ∧ rn._parent = x) := by
  obtain ⟨h, t, T, he, hi, -⟩ := reach_inv comp ks
  obtain ⟨h1, h2⟩ := parent_links hi.models
  exact ⟨h, t, T, he, hi.models, h1, h2⟩

/-- Counterexample to C19 as stated: in the tree reached by no insert at all the
root is the sentinel, at address 1, and its parent link is the null pointer,
which is not the sentinel. -/
theorem empty_root_parent_is_null :
    ((insertAll [] (fresh less)).bind fun s =>
        (s.1.read s.2._root).map fun n => (s.2._root, s.2._nil, n._parent)) = some (1, 1, 0) ∧
      (0 : Nat) ≠ 1 :=
  ⟨by decide, by decide⟩

/-- C20: in every tree reached by inserts, for every real node `x`, `_next(x)` and
`_prev(x)` return; if `_next(x)` is a real node then `_prev` of it is `x`, and
if `_prev(x)` is a real node then `_next` of it is `x`.  This holds for every
comparator. -/
theorem next_prev_mutually_inverse (comp : α → α → Bool) (ks : List α) :
    ∃ h t T, insertAll ks (fresh comp) = some (h, t) ∧ Models h t T ∧
      ∀ x ∈ T.addrs, ∃ y w, _next h x t._nil = some y ∧ _prev h x t._nil = some w ∧
        (y ≠ t._nil → y ∈ T.addrs ∧ _prev h y t._nil = some x) ∧
        (w ≠ t._nil → w ∈ T.addrs ∧ _next h w t._nil = some x) := by
  obtain ⟨h, t, T, he, hi, -⟩ := reach_inv comp ks
  refine ⟨h, t, T, he, hi.models, fun x hx => ?_⟩
  obtain ⟨vx, hxe⟩ := Tree.entry_of_addr T hx
  exact next_prev_inverse hi.models hxe

open rb_tree_node_color rb_tree_base_node

/-- C21: for two trees `a` and `b` reached by inserts in one store (`b` with a
strict weak ordering, `a` with any comparator and any contents), the assignment
`a = b` between the two different objects returns; afterwards the forward scan
of `a` meets the values the forward scan of `b` meets, `a.size()` is `b.size()`
and is the number of nodes reachable from the root of `a`; `b` holds the same
tree at the same addresses, every one of its cells unchanged; and a
self-assignment returns the store and the object it was given. -/
theorem copy_assignment (compA compB : α → α → Bool) (hswo : StrictWeakOrder compB)
    (ka kb : List α) (p q : Nat) (hpq : p ≠ q) :
    ∃ h a b B vals, twoTrees compA compB ka kb = some (h, a, b) ∧ Models h b B ∧
      (forward h b).bind (valuesAt h) = some vals ∧
      (∃ h1 a1 A1, a.assign h p q b = some (h1, a1) ∧ Models h1 a1 A1 ∧
        (forward h1 a1).bind (valuesAt h1) = some vals ∧
        a1.size = b.size ∧ a1.size = A1.size ∧
        Models h1 b B ∧ (forward h1 b).bind (valuesAt h1) = some vals ∧
        (∀ x ∈ B.addrs, h1.read x = h.read x) ∧ h1.read b._nil = h.read b._nil) ∧
      a.assign h p p a = some (h, a) ∧ b.assign h q q b = some (h, b) := by
  obtain ⟨h, a, b, A, B, he, hia, hib, -, hcb, hAB, hnil, -, -, hinc⟩ :=
    twoTrees_inv compA compB ka kb
  subst hcb
  obtain ⟨h1, a1, A1, hasg, hi1, hkeys, hsz, -, -, hib1, hfr⟩ :=
    assign_refines hia hib hswo (hinc hswo) hAB hnil hpq
  refine ⟨h, a, b, B, B.keys, he, hib.models, scan_values hib.models,
    ⟨h1, a1, A1, hasg, hi1.models, ?_, hsz, hi1.size, hib1.models, scan_values hib1.models,
      hfr, ?_⟩, by simp [rb_tree.assign], by simp [rb_tree.assign]⟩
  · rw [scan_values hi1.models, hkeys]
  · rw [hib1.models.sentinel, hib.models.sentinel]

/-- Witness of C21: the tree with the keys 5, 6, 7 is assigned the tree with the
keys 2, 1, 3, both under the default comparator. -/
theorem copy_assignment_witness :
    StrictWeakOrder less ∧ (0 : Nat) ≠ 1 ∧
      ∃ h a b B vals, twoTrees less less [5, 6, 7] [2, 1, 3] = some (h, a, b) ∧ Models h b B ∧
        (forward h b).bind (valuesAt h) = some vals ∧
        (∃ h1 a1 A1, a.assign h 0 1 b = some (h1, a1) ∧ Models h1 a1 A1 ∧
          (forward h1 a1).bind (valuesAt h1) = some vals ∧
          a1.size = b.size ∧ a1.size = A1.size ∧
          Models h1 b B ∧ (forward h1 b).bind (valuesAt h1) = some vals ∧
          (∀ x ∈ B.addrs, h1.read x = h.read x) ∧ h1.read b._nil = h.read b._nil) ∧
        a.assign h 0 0 a = some (h, a) ∧ b.assign h 1 1 b = some (h, b) :=
  ⟨less_strictWeakOrder, by decide,
    copy_assignment less less less_strictWeakOrder [5, 6, 7] [2, 1, 3] 0 1 (by decide)⟩

/-- C22: on every store that holds a tree below the root, balanced or not, at the
root and at every node `x` the call `_height_rb_tree(x, nil)` returns a number
`ht` and the subtree rooted at `x` has a number `n` of real nodes with `ht ≤ n`
and `n ≤ 2 ^ ht - 1`; and `height()` returns 0 exactly when the root is the
sentinel, that is when the tree has no real node. -/
theorem height_and_size_bounds (h : Heap α) (t : rb_tree α) (T : Tree α) (hm : Models h t T) :
    (∀ x, x = t._root ∨ x ∈ T.addrs →
        ∃ ht sh, _height_rb_tree h x t._nil = some ht ∧
          shapeBelow h t._nil h.fuel x = some sh ∧ ht ≤ sh.size ∧ sh.size ≤ 2 ^ ht - 1) ∧
      ∃ ht, t.height h = some ht ∧ (ht = 0 ↔ t._root = t._nil) ∧ (ht = 0 ↔ T.addrs = []) := by
  constructor
  · intro x hx
    obtain ⟨s, h1, h2⟩ := subtree_height_shape hm hx
    refine ⟨s.height, s.shape, h1, h2, ?_, ?_⟩
    · rw [Tree.size_shape]
      exact Tree.height_le_size s
    · rw [Tree.size_shape]
      have := Tree.size_lt_pow_height s
      omega
  · refine ⟨T.height, height_refines hm, ?_, ?_⟩
    · rw [Tree.height_eq_zero_iff, hm.root_eq_nil_iff]
    · rw [Tree.height_eq_zero_iff, Tree.addrs_eq_nil_iff]

/-- Witness of C22: a store that holds a tree which is not balanced, the chain
of the three nodes 10, 20, 30, each the right child of the one before, below the
sentinel at address 1. -/
theorem height_and_size_bounds_witness :
    ∃ (h : Heap Nat) (t : rb_tree Nat) (T : Tree Nat), Models h t T ∧ T.height = 3 ∧
      T.size = 3 ∧
      (∀ x, x = t._root ∨ x ∈ T.addrs →
        ∃ ht sh, _height_rb_tree h x t._nil = some ht ∧
          shapeBelow h t._nil h.fuel x = some sh ∧ ht ≤ sh.size ∧ sh.size ≤ 2 ^ ht - 1) ∧
      ∃ ht, t.height h = some ht ∧ (ht = 0 ↔ t._root = t._nil) ∧ (ht = 0 ↔ T.addrs = []) := by
  have hm : Models
      ((((Heap.init.alloc ⟨0, 0, 0, Black, none⟩).1.alloc ⟨1, 1, 3, Black, some 10⟩).1.alloc
        ⟨2, 1, 4, Black, some 20⟩).1.alloc ⟨3, 1, 1, Black, some 30⟩).1
      ⟨2, 1, 3, less⟩
      (Tree.node Black Tree.leaf 2 10 (Tree.node Black Tree.leaf 3 20
        (Tree.node Black Tree.leaf 4 30 Tree.leaf))) := by
    refine ⟨⟨by decide, rfl, trivial, ⟨by decide, rfl, trivial, ⟨by decide, rfl, trivial,
      trivial⟩⟩⟩, rfl, by decide, rfl, rfl, ?_⟩
    intro p hp
    have hp5 : 5 ≤ p := hp
    have h1 : p ≠ 1 := by omega
    have h2 : p ≠ 2 := by omega
    have h3 : p ≠ 3 := by omega
    have h4 : p ≠ 4 := by omega
    simp [Heap.read, Heap.alloc, Heap.init, h1, h2, h3, h4]
  exact ⟨_, _, _, hm, rfl, rfl, height_and_size_bounds _ _ _ hm⟩

end cxx
